import Mathlib

/-!
# Font-fallback text rendering of polybar: codec, cascade and the two render phases

A shallow embedding of `include/cairo/font.hpp` (the UTF-8 codec `details::utf8_to_ucs4`,
`details::ucs4_to_utf8`, `font::match`, `font::render`), of
`context::operator<<(const textblock&)` and `context::operator<<(const uint32_t&)` from
`include/cairo/context.hpp`, and of the channel functions of `include/utils/color.hpp`.

Conventions of the embedding

* A byte is a `Nat`; a `std::string` is a `List Nat` and may hold zero bytes.  The pointer
  returned by `c_str()` is modelled by the same list: reading at its end yields the
  terminating NUL.
* `int` fields (`offset`, `length`) are `Int`.  Texts are assumed shorter than `2^31` bytes,
  so no `int` wraps; `unsigned long result` holds at most 21 bits and never wraps either.
* Loops that the source writes with `while` take a fuel argument; a run whose fuel runs out
  ends in `none` (the decoder) or `outcome.out_of_fuel`.  The entry points supply the fuel,
  and the decoder and both render phases are proved to return on every input.
-/

namespace cairo

/-! ## `details::unicode_char` and the codec -/

/-- The `struct unicode_char` of `font.hpp`. -/
structure unicode_char where
  codepoint : Nat
  offset : Int
  length : Int
deriving DecidableEq, Repr

/-- The `using unicode_charlist = std::list<unicode_char>` of `font.hpp`. -/
abbrev unicode_charlist := List unicode_char

/-- The `if / else if` chain on the leading byte in `utf8_to_ucs4`: `some (len, result)` for the
four recognised classes, `none` for the `return false` branch. -/
def lead_byte (b : Nat) : Option (Int × Nat) :=
  if b >>> 7 = 0 then some (1, b)
  else if b >>> 5 = 6 then some (2, b &&& 31)
  else if b >>> 4 = 14 then some (3, b &&& 15)
  else if b >>> 3 = 30 then some (4, b &&& 7)
  else none

/-- The `for (next = first + 1; *next && ((*next >> 6) == 2) && (next - first < len); next++)`
loop of `utf8_to_ucs4`.  The list holds the bytes from `next` on, `dist` is `next - first`.
Returns the final `result`, the final `next - first` and the bytes from the final `next` on. -/
def cont_loop (len : Int) : List Nat → Int → Nat → Nat × Int × List Nat
  | [], dist, result => (result, dist, [])
  | b :: bs, dist, result =>
    if b ≠ 0 ∧ b >>> 6 = 2 ∧ dist < len then
      cont_loop len bs (dist + 1) ((result <<< 6) ||| (b &&& 63))
    else (result, dist, b :: bs)

/-- The `while (*first)` loop of `utf8_to_ucs4`.  The list holds the bytes from `first` on,
`off` is `first - src`, `acc` is `result_list`.  The Boolean is the return value. -/
def utf8_loop : Nat → List Nat → Int → unicode_charlist → Option (Bool × unicode_charlist)
  | 0, _, _, _ => none
  | _ + 1, [], _, acc => some (true, acc)
  | fuel + 1, b :: bs, off, acc =>
    if b = 0 then some (true, acc)
    else
      match lead_byte b with
      | none => some (false, acc)
      | some (len, r0) =>
        let r := cont_loop len bs 1 r0
        utf8_loop fuel r.2.2 (off + r.2.1) (acc ++ [⟨r.1, off, r.2.1⟩])

/-- The function `details::utf8_to_ucs4(src, result_list)`, called with an empty `result_list`.
`src = none` is the null pointer.  The result is the return value and the final
`result_list`. -/
def utf8_to_ucs4 (src : Option (List Nat)) : Option (Bool × unicode_charlist) :=
  match src with
  | none => some (false, [])
  | some s => utf8_loop (s.length + 1) s 0 []

/-- The function `details::ucs4_to_utf8(utf8, ucs)`: the return value and the bytes stored
through `utf8`, in order.  A store into a `char` keeps the low eight bits. -/
def ucs4_to_utf8 (ucs : Nat) : Nat × List Nat :=
  if ucs ≤ 0x7f then
    (1, [ucs % 256])
  else if ucs ≤ 0x07ff then
    (2, [(((ucs >>> 6) &&& 0xff) ||| 0xc0) % 256,
         ((ucs &&& 0x3f) ||| 0x80) % 256])
  else if ucs ≤ 0xffff then
    (3, [(((ucs >>> 12) &&& 0x0f) ||| 0xe0) % 256,
         (((ucs >>> 6) &&& 0x3f) ||| 0x80) % 256,
         ((ucs &&& 0x3f) ||| 0x80) % 256])
  else if ucs ≤ 0x1fffff then
    (4, [(((ucs >>> 18) &&& 0x07) ||| 0xf0) % 256,
         (((ucs >>> 12) &&& 0x3f) ||| 0x80) % 256,
         (((ucs >>> 6) &&& 0x3f) ||| 0x80) % 256,
         ((ucs &&& 0x3f) ||| 0x80) % 256])
  else if ucs ≤ 0x03ffffff then
    (5, [(((ucs >>> 24) &&& 0x03) ||| 0xf8) % 256,
         (((ucs >>> 18) &&& 0x3f) ||| 0x80) % 256,
         (((ucs >>> 12) &&& 0x3f) ||| 0x80) % 256,
         (((ucs >>> 6) &&& 0x3f) ||| 0x80) % 256,
         ((ucs &&& 0x3f) ||| 0x80) % 256])
  else if ucs ≤ 0x7fffffff then
    (6, [(((ucs >>> 30) &&& 0x01) ||| 0xfc) % 256,
         (((ucs >>> 24) &&& 0x3f) ||| 0x80) % 256,
         (((ucs >>> 18) &&& 0x3f) ||| 0x80) % 256,
         (((ucs >>> 12) &&& 0x3f) ||| 0x80) % 256,
         (((ucs >>> 6) &&& 0x3f) ||| 0x80) % 256,
         ((ucs &&& 0x3f) ||| 0x80) % 256])
  else
    (0, [])

/-! ## `cairo::font` -/

/-- A `cairo::font`, reduced to what `context::operator<<(const textblock&)` observes of it. -/
structure font where
  /-- The address held by the owning `unique_ptr<font>`; never null, `0` is `nullptr`. -/
  ptr : Nat
  /-- The value of `FT_Get_Char_Index(face, codepoint)`; `0` means the face has no glyph. -/
  glyph_index : Nat → Nat
  /-- The result of `cairo_scaled_font_text_to_glyphs` on a text: for each glyph `g` the pair
  of `glyphs[g].index` and `clusters[g].num_bytes`. -/
  text_to_glyphs : List Nat → List (Nat × Nat)

/-- The method `font::match(charlist)`: counts the leading characters with a glyph, stopping at
the first one without. -/
def font.match_ (f : font) : unicode_charlist → Nat
  | [] => 0
  | c :: cs => if f.glyph_index c.codepoint ≠ 0 then font.match_ f cs + 1 else 0

/-- The `for (int g = 0; g < nglyphs; g++)` loop of `font::render`, summing `num_bytes` up to
the first glyph of index zero. -/
def render_bytes : List (Nat × Nat) → Nat
  | [] => 0
  | g :: gs => if g.1 ≠ 0 then g.2 + render_bytes gs else 0

/-- The return value `bytes` of `font::render(text)`; when it is nonzero the call has drawn
`text.substr(0, bytes)`.  This is the value of a call that returns: the shaping result is
whatever `text_to_glyphs` gives.  The `application_error` thrown when cairo reports a failure
is added by `checked_font.render_checked` below. -/
def font.render (f : font) (text : List Nat) : Nat :=
  render_bytes (f.text_to_glyphs text)

/-! ## `context::operator<<(const textblock&)` -/

/-- The `struct textblock` of `types.hpp`; `fontindex` is a `uint8_t`. -/
structure textblock where
  contents : List Nat
  fontindex : Nat

/-- What a run of `operator<<` does to the outside, in order. -/
inductive event where
  /-- The call `m_log.warn("Dropping unmatched character %s (U+%04x)", unicode, codepoint)`,
  with the bytes `ucs4_to_utf8` stored in `unicode`. -/
  | warn_char (unicode : List Nat) (codepoint : Nat)
  /-- The call `m_log.warn("Dropping unmatched characters: %s", text)`. -/
  | warn_text (text : List Nat)
  /-- The call `f->render(text)` on the font at address `ptr`, returning `bytes`. -/
  | render (ptr : Nat) (text : List Nat) (bytes : Nat)
deriving DecidableEq, Repr

/-- How a modelled run ends. -/
inductive outcome (α : Type) where
  /-- The run returns normally. -/
  | ok : α → outcome α
  /-- The call `std::string::erase(pos, n)` throws `std::out_of_range`. -/
  | out_of_range : outcome α
  /-- The run reads or writes outside the font vector. -/
  | out_of_bounds : outcome α
  /-- The fuel of a loop ran out. -/
  | out_of_fuel : outcome α
deriving DecidableEq, Repr

/-- The call `std::string::erase(pos, n)` with `int` arguments converted to `size_type`: a
negative `int` becomes a huge `size_type`.  `none` is the `std::out_of_range` thrown for
`pos > size()`. -/
def string_erase (s : List Nat) (pos n : Int) : Option (List Nat) :=
  if pos < 0 ∨ (s.length : Int) < pos then none
  else if n < 0 then some (s.take pos.toNat)
  else some (s.take pos.toNat ++ s.drop (pos.toNat + n.toNat))

/-- The `for (auto&& f : fns)` loop of Phase A: the first font whose `match` is nonzero erases
that many characters from the front of `chars`. -/
def match_fonts : List font → unicode_charlist → unicode_charlist
  | [], chars => chars
  | f :: fs, chars =>
    if f.match_ chars = 0 then match_fonts fs chars
    else chars.drop (f.match_ chars)

/-- The `while (!chars.empty())` loop of `operator<<` (Phase A).  Returns the final `text` and
the warnings logged. -/
def filter_loop : Nat → List font → unicode_charlist → List Nat →
    outcome (List Nat × List event)
  | 0, _, _, _ => outcome.out_of_fuel
  | fuel + 1, fns, chars, text =>
    if chars.isEmpty then outcome.ok (text, [])
    else
      let remaining := chars.length
      let chars1 := match_fonts fns chars
      match chars1 with
      | [] => filter_loop fuel fns chars1 text
      | c :: cs =>
        if remaining = chars1.length then
          let unicode := (ucs4_to_utf8 (c.codepoint % 2 ^ 32)).2
          match string_erase text c.offset c.length with
          | none => outcome.out_of_range
          | some text1 =>
            let shifted := (c :: cs).map (fun d => { d with offset := d.offset - c.length })
            match filter_loop fuel fns shifted.tail text1 with
            | outcome.ok (text2, ev) => outcome.ok (text2, event.warn_char unicode c.codepoint :: ev)
            | outcome.out_of_range => outcome.out_of_range
            | outcome.out_of_bounds => outcome.out_of_bounds
            | outcome.out_of_fuel => outcome.out_of_fuel
        else filter_loop fuel fns chars1 text

/-- The `for (auto&& f : fns)` loop of Phase B.  Returns the remaining `text` and the `render`
calls made. -/
def draw_fonts : List font → List Nat → List Nat × List event
  | [], text => (text, [])
  | f :: fs, text =>
    let bytes := f.render text
    if bytes = 0 then
      let r := draw_fonts fs text
      (r.1, event.render f.ptr text bytes :: r.2)
    else
      let text1 := text.drop (min bytes text.length)
      if text1.isEmpty then (text1, [event.render f.ptr text bytes])
      else
        let r := draw_fonts fs text1
        (r.1, event.render f.ptr text bytes :: r.2)

/-- The `while (!text.empty())` loop of `operator<<` (Phase B).  Returns the text left when the
loop ends and the events, in order. -/
def draw_loop : Nat → List font → List Nat → outcome (List Nat × List event)
  | 0, _, _ => outcome.out_of_fuel
  | fuel + 1, fns, text =>
    if text.isEmpty then outcome.ok (text, [])
    else
      let remaining := text.length
      let r := draw_fonts fns text
      if remaining = r.1.length then outcome.ok (r.1, r.2 ++ [event.warn_text r.1])
      else
        match draw_loop fuel fns r.1 with
        | outcome.ok (text2, ev) => outcome.ok (text2, r.2 ++ ev)
        | outcome.out_of_range => outcome.out_of_range
        | outcome.out_of_bounds => outcome.out_of_bounds
        | outcome.out_of_fuel => outcome.out_of_fuel

/-- Phase A of `operator<<` as run on `text` with the sorted font list `fns`: the decoding call,
whose return value the source discards, and the filtering loop.  Returns the filtered text
and the warnings. -/
def phase_a (fns : List font) (text : List Nat) : outcome (List Nat × List event) :=
  match utf8_to_ucs4 (some text) with
  | none => outcome.out_of_fuel
  | some r => filter_loop (r.2.length + 1) fns r.2 text

/-- Phase B of `operator<<` on the filtered text. -/
def phase_b (fns : List font) (text : List Nat) : outcome (List Nat × List event) :=
  draw_loop (text.length + 1) fns text

/-- The body of `operator<<` after the sort, on the font order `fns`: both phases.  Returns the
text left at the end and all events. -/
def render_text (fns : List font) (contents : List Nat) : outcome (List Nat × List event) :=
  match phase_a fns contents with
  | outcome.ok (text1, ev1) =>
    match phase_b fns text1 with
    | outcome.ok (text2, ev2) => outcome.ok (text2, ev1 ++ ev2)
    | outcome.out_of_range => outcome.out_of_range
    | outcome.out_of_bounds => outcome.out_of_bounds
    | outcome.out_of_fuel => outcome.out_of_fuel
  | outcome.out_of_range => outcome.out_of_range
  | outcome.out_of_bounds => outcome.out_of_bounds
  | outcome.out_of_fuel => outcome.out_of_fuel

/-! ## Vocabulary of the statements -/

/-- The test the `for` loop of `utf8_to_ucs4` makes on `*next`, without the length bound: a
nonzero byte of the form `10xxxxxx`. -/
def is_cont (b : Nat) : Prop := b ≠ 0 ∧ b >>> 6 = 2

instance (b : Nat) : Decidable (is_cont b) := by unfold is_cont; infer_instance

/-- The value the `for` loop of `utf8_to_ucs4` accumulates from `r` over the bytes `conts`. -/
def cont_value (r : Nat) (conts : List Nat) : Nat :=
  conts.foldl (fun r c => (r <<< 6) ||| (c &&& 63)) r

/-- A segment: a recognised nonzero leading byte followed by continuation bytes, fewer than
the length its class announces. -/
def seg_ok : List Nat → Prop
  | [] => False
  | b :: conts =>
    b ≠ 0 ∧ ∃ len r0, lead_byte b = some (len, r0) ∧ (∀ c ∈ conts, is_cont c) ∧
      (conts.length : Int) + 1 ≤ len

/-- The codepoint the decoder reads from a segment. -/
def seg_codepoint : List Nat → Nat
  | [] => 0
  | b :: conts =>
    match lead_byte b with
    | some (_, r0) => cont_value r0 conts
    | none => 0

/-- The characters of consecutive segments, the first at offset `off`. -/
def layout (off : Int) : List (List Nat) → unicode_charlist
  | [] => []
  | s :: ss => ⟨seg_codepoint s, off, s.length⟩ :: layout (off + s.length) ss

/-- The tail after the segments: the terminating NUL, at the end of the string or as an
embedded zero byte. -/
def tail_ok (tail : List Nat) : Prop := tail = [] ∨ tail.head? = some 0

/-- The announced length of a sequence by the class of its leading byte: `0xxxxxxx`,
`110xxxxx`, `1110xxxx`, `11110xxx`; `none` for a byte of no class. -/
def class_len (b : Nat) : Option Nat :=
  if b < 0x80 then some 1
  else if 0xC0 ≤ b ∧ b < 0xE0 then some 2
  else if 0xE0 ≤ b ∧ b < 0xF0 then some 3
  else if 0xF0 ≤ b ∧ b < 0xF8 then some 4
  else none

/-- A byte of the form `10xxxxxx`. -/
def cont_pattern (b : Nat) : Bool := decide (0x80 ≤ b ∧ b < 0xC0)

/-- A byte of the form `10xxxxxx` or `11111xxx`. -/
def bad_lead (b : Nat) : Prop := (0x80 ≤ b ∧ b < 0xC0) ∨ (0xF8 ≤ b ∧ b < 0x100)

/-- One sequence of the left-to-right scan: at `rest` stands a nonzero leading byte of class
`n`; the next sequence starts after it and the continuation bytes that follow it, at most
`n - 1` of them. -/
def next_start (rest rest1 : List Nat) : Prop :=
  ∃ b bs n, rest = b :: bs ∧ b ≠ 0 ∧ class_len b = some n ∧
    rest1 = bs.drop (min (n - 1) (bs.takeWhile cont_pattern).length)

/-- The bytes from `rest` on are where the scan of `src` starts a new sequence. -/
def seq_start (src rest : List Nat) : Prop := Relation.ReflTransGen next_start src rest

/-! ## `std::sort` on the font vector

`operator<<` sorts `m_fonts` with `std::sort` of the C++ standard library, whose code is not
part of the repository.  It is modelled here after the implementation in GNU libstdc++
(`bits/stl_algo.h` and `bits/stl_heap.h`), function by function.  The vector of
`unique_ptr<font>` is the list of the addresses held; a moved-from `unique_ptr` holds `0`.
Iterators are positions in the vector, as `Int`, since the unguarded loops of the library can
leave the vector.  Every loop of the library gets more fuel than it has positions to visit. -/

/-- Sequencing of runs. -/
def outcome.bind {α β : Type} (x : outcome α) (f : α → outcome β) : outcome β :=
  match x with
  | outcome.ok a => f a
  | outcome.out_of_range => outcome.out_of_range
  | outcome.out_of_bounds => outcome.out_of_bounds
  | outcome.out_of_fuel => outcome.out_of_fuel

instance : Monad outcome where
  pure := outcome.ok
  bind := outcome.bind

/-- Reading `*it`. -/
def vec_read (v : List Nat) (it : Int) : outcome Nat :=
  if it < 0 then outcome.out_of_bounds
  else
    match v[it.toNat]? with
    | some x => outcome.ok x
    | none => outcome.out_of_bounds

/-- Storing into `*it`. -/
def vec_write (v : List Nat) (it : Int) (x : Nat) : outcome (List Nat) :=
  if 0 ≤ it ∧ it < v.length then outcome.ok (v.set it.toNat x) else outcome.out_of_bounds

/-- The assignment `*dst = std::move(*src)` of `unique_ptr`s. -/
def vec_move (v : List Nat) (dst src : Int) : outcome (List Nat) := do
  let x ← vec_read v src
  let v1 ← vec_write v src 0
  vec_write v1 dst x

/-- The call `std::iter_swap(a, b)`. -/
def vec_swap (v : List Nat) (a b : Int) : outcome (List Nat) := do
  let x ← vec_read v a
  let y ← vec_read v b
  let v1 ← vec_write v a y
  vec_write v1 b x

/-- The `while (__comp(__val, __next))` loop of `std::__unguarded_linear_insert`.  The
comparator gets the vector as it stands and its first argument `val`. -/
def unguarded_linear_insert_loop (comp : List Nat → Nat → Bool) (val : Nat) :
    Nat → List Nat → Int → Int → outcome (List Nat)
  | 0, _, _, _ => outcome.out_of_fuel
  | fuel + 1, v, last, next =>
    if comp v val then do
      let v1 ← vec_move v last next
      unguarded_linear_insert_loop comp val fuel v1 next (next - 1)
    else vec_write v last val

/-- The function `std::__unguarded_linear_insert(__last, __comp)`. -/
def unguarded_linear_insert (comp : List Nat → Nat → Bool) (v : List Nat) (last : Int) :
    outcome (List Nat) := do
  let val ← vec_read v last
  let v1 ← vec_write v last 0
  unguarded_linear_insert_loop comp val (v.length + 2) v1 last (last - 1)

/-- The call `std::move_backward(first, last, d_last)`, moving `count` elements. -/
def move_backward : Nat → List Nat → Int → Int → outcome (List Nat)
  | 0, v, _, _ => outcome.ok v
  | count + 1, v, last, d_last => do
    let v1 ← vec_move v (d_last - 1) (last - 1)
    move_backward count v1 (last - 1) (d_last - 1)

/-- The `for (__i = __first + 1; __i != __last; ++__i)` loop of `std::__insertion_sort`. -/
def insertion_sort_loop (comp : List Nat → Nat → Bool) (first last : Int) :
    Nat → List Nat → Int → outcome (List Nat)
  | 0, _, _ => outcome.out_of_fuel
  | fuel + 1, v, i =>
    if i = last then outcome.ok v
    else do
      let a ← vec_read v i
      if comp v a then do
        let v1 ← vec_write v i 0
        let v2 ← move_backward (i - first).toNat v1 i (i + 1)
        let v3 ← vec_write v2 first a
        insertion_sort_loop comp first last fuel v3 (i + 1)
      else do
        let v1 ← unguarded_linear_insert comp v i
        insertion_sort_loop comp first last fuel v1 (i + 1)

/-- The function `std::__insertion_sort(__first, __last, __comp)`. -/
def insertion_sort (comp : List Nat → Nat → Bool) (v : List Nat) (first last : Int) :
    outcome (List Nat) :=
  if first = last then outcome.ok v
  else insertion_sort_loop comp first last (v.length + 2) v (first + 1)

/-- The function `std::__unguarded_insertion_sort(__first, __last, __comp)`. -/
def unguarded_insertion_sort (comp : List Nat → Nat → Bool) (last : Int) :
    Nat → List Nat → Int → outcome (List Nat)
  | 0, _, _ => outcome.out_of_fuel
  | fuel + 1, v, i =>
    if i = last then outcome.ok v
    else do
      let v1 ← unguarded_linear_insert comp v i
      unguarded_insertion_sort comp last fuel v1 (i + 1)

/-- The function `std::__final_insertion_sort(__first, __last, __comp)`, with
`_S_threshold = 16`. -/
def final_insertion_sort (comp : List Nat → Nat → Bool) (v : List Nat) (first last : Int) :
    outcome (List Nat) :=
  if last - first > 16 then do
    let v1 ← insertion_sort comp v first (first + 16)
    unguarded_insertion_sort comp last (v.length + 2) v1 (first + 16)
  else insertion_sort comp v first last

/-- The function `std::__move_median_to_first(__result, __a, __b, __c, __comp)`. -/
def move_median_to_first (comp : List Nat → Nat → Bool) (v : List Nat) (result a b c : Int) :
    outcome (List Nat) := do
  let va ← vec_read v a
  let vb ← vec_read v b
  if comp v va then
    if comp v vb then vec_swap v result b
    else if comp v va then vec_swap v result c
    else vec_swap v result a
  else if comp v va then vec_swap v result a
  else if comp v vb then vec_swap v result c
  else vec_swap v result b

/-- The loop `while (__comp(__first, __pivot)) ++__first;` of `std::__unguarded_partition`. -/
def partition_up (comp : List Nat → Nat → Bool) (v : List Nat) : Nat → Int → outcome Int
  | 0, _ => outcome.out_of_fuel
  | fuel + 1, first => do
    let a ← vec_read v first
    if comp v a then partition_up comp v fuel (first + 1) else outcome.ok first

/-- The loop `while (__comp(__pivot, __last)) --__last;` of `std::__unguarded_partition`. -/
def partition_down (comp : List Nat → Nat → Bool) (v : List Nat) (pivot : Int) :
    Nat → Int → outcome Int
  | 0, _ => outcome.out_of_fuel
  | fuel + 1, last => do
    let a ← vec_read v pivot
    if comp v a then partition_down comp v pivot fuel (last - 1) else outcome.ok last

/-- The function `std::__unguarded_partition(__first, __last, __pivot, __comp)`: the vector and
the iterator returned. -/
def unguarded_partition (comp : List Nat → Nat → Bool) (pivot : Int) :
    Nat → List Nat → Int → Int → outcome (List Nat × Int)
  | 0, _, _, _ => outcome.out_of_fuel
  | fuel + 1, v, first, last => do
    let first1 ← partition_up comp v (v.length + 2) first
    let last1 ← partition_down comp v pivot (v.length + 2) (last - 1)
    if first1 < last1 then do
      let v1 ← vec_swap v first1 last1
      unguarded_partition comp pivot fuel v1 (first1 + 1) last1
    else outcome.ok (v, first1)

/-- The function `std::__unguarded_partition_pivot(__first, __last, __comp)`. -/
def unguarded_partition_pivot (comp : List Nat → Nat → Bool) (v : List Nat)
    (first last : Int) : outcome (List Nat × Int) := do
  let mid := first + (last - first) / 2
  let v1 ← move_median_to_first comp v first (first + 1) mid (last - 1)
  unguarded_partition comp first (v.length + 2) v1 (first + 1) last

/-- The `while (__holeIndex > __topIndex && __comp(__first + __parent, __value))` loop of
`std::__push_heap` and its final store. -/
def push_heap (comp : List Nat → Nat → Bool) (first : Int) (top : Int) (value : Nat) :
    Nat → List Nat → Int → outcome (List Nat)
  | 0, _, _ => outcome.out_of_fuel
  | fuel + 1, v, hole =>
    let parent := (hole - 1) / 2
    if top < hole then do
      let a ← vec_read v (first + parent)
      if comp v a then do
        let v1 ← vec_move v (first + hole) (first + parent)
        push_heap comp first top value fuel v1 parent
      else vec_write v (first + hole) value
    else vec_write v (first + hole) value

/-- The `while (__secondChild < (__len - 1) / 2)` loop of `std::__adjust_heap`: the vector,
the hole and the second child at its end. -/
def adjust_heap_loop (comp : List Nat → Nat → Bool) (first len : Int) :
    Nat → List Nat → Int → Int → outcome (List Nat × Int × Int)
  | 0, _, _, _ => outcome.out_of_fuel
  | fuel + 1, v, hole, child =>
    if child < (len - 1) / 2 then do
      let c := 2 * (child + 1)
      let a ← vec_read v (first + c)
      let c1 := if comp v a then c - 1 else c
      let v1 ← vec_move v (first + hole) (first + c1)
      adjust_heap_loop comp first len fuel v1 c1 c1
    else outcome.ok (v, hole, child)

/-- The function `std::__adjust_heap(__first, __holeIndex, __len, __value, __comp)`. -/
def adjust_heap (comp : List Nat → Nat → Bool) (v : List Nat) (first hole len : Int)
    (value : Nat) : outcome (List Nat) := do
  let r ← adjust_heap_loop comp first len (v.length + 2) v hole hole
  if len % 2 = 0 ∧ r.2.2 = (len - 2) / 2 then do
    let c := 2 * (r.2.2 + 1)
    let v1 ← vec_move r.1 (first + r.2.1) (first + (c - 1))
    push_heap comp first hole value (v.length + 2) v1 (c - 1)
  else push_heap comp first hole value (v.length + 2) r.1 r.2.1

/-- The function `std::__pop_heap(__first, __last, __result, __comp)`. -/
def pop_heap (comp : List Nat → Nat → Bool) (v : List Nat) (first last result : Int) :
    outcome (List Nat) := do
  let value ← vec_read v result
  let v1 ← vec_write v result 0
  let v2 ← vec_move v1 result first
  adjust_heap comp v2 first 0 (last - first) value

/-- The `while (true)` loop of `std::__make_heap`. -/
def make_heap_loop (comp : List Nat → Nat → Bool) (first len : Int) :
    Nat → List Nat → Int → outcome (List Nat)
  | 0, _, _ => outcome.out_of_fuel
  | fuel + 1, v, parent => do
    let value ← vec_read v (first + parent)
    let v1 ← vec_write v (first + parent) 0
    let v2 ← adjust_heap comp v1 first parent len value
    if parent = 0 then outcome.ok v2 else make_heap_loop comp first len fuel v2 (parent - 1)

/-- The function `std::__make_heap(__first, __last, __comp)`. -/
def make_heap (comp : List Nat → Nat → Bool) (v : List Nat) (first last : Int) :
    outcome (List Nat) :=
  if last - first < 2 then outcome.ok v
  else make_heap_loop comp first (last - first) (v.length + 2) v ((last - first - 2) / 2)

/-- The function `std::__sort_heap(__first, __last, __comp)`. -/
def sort_heap (comp : List Nat → Nat → Bool) (first : Int) :
    Nat → List Nat → Int → outcome (List Nat)
  | 0, _, _ => outcome.out_of_fuel
  | fuel + 1, v, last =>
    if last - first > 1 then do
      let v1 ← pop_heap comp v first (last - 1) (last - 1)
      sort_heap comp first fuel v1 (last - 1)
    else outcome.ok v

/-- The call `std::__partial_sort(__first, __last, __last, __comp)` of `std::__introsort_loop`:
`std::__heap_select`, whose loop over `[__middle, __last)` is empty, then
`std::__sort_heap`. -/
def heap_sort (comp : List Nat → Nat → Bool) (v : List Nat) (first last : Int) :
    outcome (List Nat) := do
  let v1 ← make_heap comp v first last
  sort_heap comp first (v.length + 2) v1 last

/-- The function `std::__introsort_loop(__first, __last, __depth_limit, __comp)`.  The recursion
is on the depth limit, which every turn of its `while` loop decrements. -/
def introsort_loop (comp : List Nat → Nat → Bool) (first : Int) :
    Nat → List Nat → Int → outcome (List Nat)
  | 0, v, last => if last - first > 16 then heap_sort comp v first last else outcome.ok v
  | depth + 1, v, last =>
    if last - first > 16 then do
      let r ← unguarded_partition_pivot comp v first last
      let v1 ← introsort_loop comp r.2 depth r.1 last
      introsort_loop comp first depth v1 r.2
    else outcome.ok v

/-- The function `std::__lg(n)`, the position of the highest set bit of `n`. -/
def std_lg : Nat → Nat → Nat
  | 0, _ => 0
  | fuel + 1, n => if n ≤ 1 then 0 else std_lg fuel (n / 2) + 1

/-- The function `std::sort(first, last, comp)` on the whole vector, that is
`std::__sort`. -/
def std_sort (comp : List Nat → Nat → Bool) (v : List Nat) : outcome (List Nat) :=
  if v.length = 0 then outcome.ok v
  else do
    let v1 ← introsort_loop comp 0 (std_lg v.length v.length * 2) v v.length
    final_insertion_sort comp v1 0 v.length

/-- The lambda `operator<<` gives to `std::sort`, as a function of the vector as it stands
when the lambda is called and of the address held by its first argument `a`; the second
argument is unused.  `std::find` returns `end()` when no element equals `a`.  The `int`
returned, `-1` or `0`, is used as a `bool`. -/
def prefer_font (t : textblock) (fns : List Nat) (a : Nat) : Bool :=
  decide (t.fontindex > 0 ∧ ((fns.indexOf a : Nat) : Int) = (t.fontindex : Int) - 1)

/-- The state of a `cairo::context` that `operator<<` touches: the vector `m_fonts`, and the
events so far. -/
structure context where
  m_fonts : List font
  events : List event

/-- The fonts in the order of the addresses `ptrs`. -/
def fonts_by_ptr (fonts : List font) (ptrs : List Nat) : List font :=
  ptrs.filterMap (fun p => fonts.find? (fun f => f.ptr == p))

/-- The addresses of the fonts in the order `std::sort` leaves them in, which is the order in
which `operator<<` tries them. -/
def font_order (c : context) (t : textblock) : outcome (List Nat) :=
  std_sort (prefer_font t) (c.m_fonts.map (fun f => f.ptr))

/-- The method `context::operator<<(const textblock& t)`: the sort of `m_fonts` in place,
through the reference `fns`, then both phases on the sorted vector. -/
def render_textblock (c : context) (t : textblock) : outcome context := do
  let ptrs ← font_order c t
  let fns := fonts_by_ptr c.m_fonts ptrs
  let r ← render_text fns t.contents
  outcome.ok { m_fonts := fns, events := c.events ++ r.2 }

/-- The method `context::operator<<(unique_ptr<font>&& f)`. -/
def add_font (c : context) (f : font) : context :=
  { c with m_fonts := c.m_fonts ++ [f] }

/-- The addresses in `m_fonts`, in stored order, after a run. -/
def stored_order (r : outcome context) : outcome (List Nat) :=
  r.bind (fun c => outcome.ok (c.m_fonts.map (fun f => f.ptr)))

/-- At least one font of the cascade has a glyph for the codepoint. -/
def covered (fns : List font) (codepoint : Nat) : Bool :=
  fns.any (fun f => f.glyph_index codepoint != 0)

/-- The byte range `[offset, offset + length)` of a character in a text. -/
def byte_range (text : List Nat) (c : unicode_char) : List Nat :=
  (text.drop c.offset.toNat).take c.length.toNat

/-- The warning Phase A logs when it drops the character of a segment. -/
def seg_warning (s : List Nat) : event :=
  event.warn_char (ucs4_to_utf8 (seg_codepoint s % 2 ^ 32)).2 (seg_codepoint s)

/-- The event is a call of `font::render`. -/
def event.is_render : event → Bool
  | event.render _ _ _ => true
  | _ => false

/-- The `render` calls `calls` go through the cascade `fns` cyclically: the first to font number
`k` (modulo the number of fonts) on `text`, each next one to the following font on what the
call before left of the text; after them `k1` is the number of the next font and `text1` the
text left. -/
inductive cyclic_calls (fns : List font) : Nat → List Nat → List event → Nat → List Nat → Prop
  | done (k : Nat) (text : List Nat) : cyclic_calls fns k text [] k text
  | call (k : Nat) (text : List Nat) (f : font) (es : List event) (k1 : Nat)
      (text1 : List Nat) :
      fns[k % fns.length]? = some f →
      cyclic_calls fns (k + 1) (text.drop (min (f.render text) text.length)) es k1 text1 →
      cyclic_calls fns k text (event.render f.ptr text (f.render text) :: es) k1 text1

/-- The characters follow one another from offset `off`: each starts where the one before it
ends and has a length of at least 1. -/
def chained_from (off : Int) : unicode_charlist → Prop
  | [] => True
  | c :: cs => c.offset = off ∧ 1 ≤ c.length ∧ chained_from (off + c.length) cs

/-- The payload bits of a leading byte of class `n` followed by the 6-bit payloads of the
continuation bytes `conts`, read as one binary number. -/
def seq_value (b n : Nat) (conts : List Nat) : Nat :=
  conts.foldl (fun r c => r * 64 + c % 64) (b % 2 ^ (7 - n))

/-- The method `font::match(charlist)` together with the list it was given by reference, as it
is after the call: the loop only reads `c.codepoint`. -/
def font.match_call (f : font) (charlist : unicode_charlist) : Nat × unicode_charlist :=
  (f.match_ charlist, charlist)

/-- The warning Phase A logs when it drops the character `c`. -/
def char_warning (c : unicode_char) : event :=
  event.warn_char (ucs4_to_utf8 (c.codepoint % 2 ^ 32)).2 c.codepoint

/-- The leading byte patterns of the encoder: `110xxxxx`, `1110xxxx`, `11110xxx`, `111110xx`
and `1111110x` for 2 to 6 bytes. -/
def lead_pattern (n b : Nat) : Prop :=
  (n = 2 ∧ 0xC0 ≤ b ∧ b < 0xE0) ∨ (n = 3 ∧ 0xE0 ≤ b ∧ b < 0xF0) ∨
    (n = 4 ∧ 0xF0 ≤ b ∧ b < 0xF8) ∨ (n = 5 ∧ 0xF8 ≤ b ∧ b < 0xFC) ∨
    (n = 6 ∧ 0xFC ≤ b ∧ b < 0xFE)

/-! ## The pen during Phase B

`font::render` and the draw loop of `operator<<` once more, now with the current point of the
cairo context and with the glyph array that `cairo_scaled_font_text_to_glyphs` fills.
Coordinates are exact rationals.  Of cairo this uses: `cairo_move_to` and `cairo_rel_move_to`
set the current point, `cairo_show_text_glyphs` leaves it alone, and
`cairo_scaled_font_text_to_glyphs` writes the glyphs it generates into the array it is handed
when that array has room for them and into a new array of just their number otherwise. -/

/-- The current point of the cairo context.  Its `x` is `none` when it was computed from an
element read behind the end of the glyph array, an indeterminate value. -/
structure pen where
  x : Option Rat
  y : Rat

/-- A `cairo::font` with what `font::render` uses of its geometry. -/
structure metric_font extends font where
  /-- The field `m_extents.height`, the line height. -/
  height : Rat
  /-- The field `m_extents.descent`. -/
  descent : Rat
  /-- The field `m_offset`. -/
  offset : Int
  /-- The distance `glyphs[g].x - x` of glyph `g` in the shaping of a text from the origin
  `(x, y)`. -/
  glyph_dx : List Nat → Nat → Rat

/-- The `x` fields of the glyphs that shaping `text` from an origin at `x` generates. -/
def glyph_xs (f : metric_font) (text : List Nat) (x : Option Rat) : List (Option Rat) :=
  (List.range (f.text_to_glyphs text).length).map
    (fun g => x.map (fun x0 => x0 + f.glyph_dx text g))

/-- The `x` fields in the array `glyphs` after the second call of
`cairo_scaled_font_text_to_glyphs` in `font::render`: the array of the first call, which the
second call is handed with its length as capacity, overwritten from the front, or a new array
when it is too short. -/
def glyph_buffer (first second : List (Option Rat)) : List (Option Rat) :=
  if second.length ≤ first.length then second ++ first.drop second.length else second

/-- One call of `font::render` as the pen sees it. -/
structure attempt where
  /-- The font called. -/
  f : metric_font
  /-- The argument `text`. -/
  text : List Nat
  /-- The current point at the call, after `cairo_move_to(m_c, base_x, base_y)`. -/
  start : pen
  /-- The point `(x, y)` that `render` reads after its `cairo_rel_move_to`: the origin of the
  shaping and of the glyphs drawn. -/
  origin : pen
  /-- The return value. -/
  bytes : Nat
  /-- The text given to `cairo_show_text_glyphs`, if it is called. -/
  drawn : Option (List Nat)
  /-- The current point when `render` returns. -/
  finish : pen

/-- The method `font::render(text)` called with the current point at `start`. -/
def metric_font.render_at (f : metric_font) (text : List Nat) (start : pen) : attempt :=
  let origin : pen := ⟨start.x, start.y + (f.height / 2 - f.descent + f.offset)⟩
  let bytes := render_bytes (f.text_to_glyphs text)
  if bytes ≠ 0 then
    let utf8 := text.take bytes
    let buffer := glyph_buffer (glyph_xs f text origin.x) (glyph_xs f utf8 origin.x)
    let nglyphs := (f.text_to_glyphs utf8).length
    let moved : Option Rat :=
      match buffer[nglyphs]? with
      | some (some gx) => origin.x.map (fun x0 => x0 + (gx - x0))
      | _ => none
    ⟨f, text, start, origin, bytes, some utf8, ⟨moved, origin.y⟩⟩
  else ⟨f, text, start, origin, bytes, none, origin⟩

/-- The `for (auto&& f : fns)` loop of Phase B with the pen: the text left, the final `base_x`
and the calls made. -/
def draw_fonts_at (base_y : Rat) :
    List metric_font → List Nat → Option Rat → List Nat × Option Rat × List attempt
  | [], text, base_x => (text, base_x, [])
  | f :: fs, text, base_x =>
    let a := f.render_at text ⟨base_x, base_y⟩
    if a.bytes = 0 then
      let r := draw_fonts_at base_y fs text base_x
      (r.1, r.2.1, a :: r.2.2)
    else
      let text1 := text.drop (min a.bytes text.length)
      if text1.isEmpty then (text1, a.finish.x, [a])
      else
        let r := draw_fonts_at base_y fs text1 a.finish.x
        (r.1, r.2.1, a :: r.2.2)

/-- The `while (!text.empty())` loop of Phase B with the pen. -/
def draw_loop_at (base_y : Rat) :
    Nat → List metric_font → List Nat → Option Rat →
      outcome (List Nat × Option Rat × List attempt)
  | 0, _, _, _ => outcome.out_of_fuel
  | fuel + 1, fns, text, base_x =>
    if text.isEmpty then outcome.ok (text, base_x, [])
    else
      let r := draw_fonts_at base_y fns text base_x
      if text.length = r.1.length then outcome.ok r
      else
        match draw_loop_at base_y fuel fns r.1 r.2.1 with
        | outcome.ok r1 => outcome.ok (r1.1, r1.2.1, r.2.2 ++ r1.2.2)
        | outcome.out_of_range => outcome.out_of_range
        | outcome.out_of_bounds => outcome.out_of_bounds
        | outcome.out_of_fuel => outcome.out_of_fuel

/-- Phase B of `operator<<` with the pen, entered with the current point `base`, which
`operator<<` stores as `(base_x, base_y)`. -/
def phase_b_at (fns : List metric_font) (text : List Nat) (base : pen) :
    outcome (List Nat × Option Rat × List attempt) :=
  draw_loop_at base.y (text.length + 1) fns text base.x

/-- The `render` event of a call. -/
def attempt.event (a : attempt) : event := event.render a.f.ptr a.text a.bytes

/-- Of a run of Phase B with the pen: the final `base_x` and for every call its return value
and the `x` of the current point before and after it. -/
def pen_summary (r : outcome (List Nat × Option Rat × List attempt)) :
    outcome (Option Rat × List (Nat × Option Rat × Option Rat)) :=
  r.bind (fun r => outcome.ok (r.2.1, r.2.2.map (fun a => (a.bytes, a.start.x, a.finish.x))))

/-- What the statements about the pen say of one call: it is made by a font of the cascade
with the current point at height `base_y`, and its origin, where it shapes and draws, is at
the height the metrics of that font give. -/
def placed (fns : List metric_font) (base_y : Rat) (a : attempt) : Prop :=
  a.f ∈ fns ∧ a.start.y = base_y ∧
    a.origin.y = base_y + a.f.height / 2 - a.f.descent + a.f.offset

/-- One iteration of the `while (!chars.empty())` loop of Phase A, entered with `chars` not
empty: the list `chars` and the `text` at its end and the warning it has logged, if any. -/
def filter_step (fns : List font) (chars : unicode_charlist) (text : List Nat) :
    outcome (unicode_charlist × List Nat × List event) :=
  let remaining := chars.length
  let chars1 := match_fonts fns chars
  match chars1 with
  | [] => outcome.ok ([], text, [])
  | c :: cs =>
    if remaining = chars1.length then
      let unicode := (ucs4_to_utf8 (c.codepoint % 2 ^ 32)).2
      match string_erase text c.offset c.length with
      | none => outcome.out_of_range
      | some text1 =>
        let shifted := (c :: cs).map (fun d => { d with offset := d.offset - c.length })
        outcome.ok (shifted.tail, text1, [event.warn_char unicode c.codepoint])
    else outcome.ok (chars1, text, [])

/-- The number of iterations the `while (!chars.empty())` loop of Phase A makes. -/
def filter_iterations : Nat → List font → unicode_charlist → List Nat → outcome Nat
  | 0, _, _, _ => outcome.out_of_fuel
  | fuel + 1, fns, chars, text =>
    if chars.isEmpty then outcome.ok 0
    else
      (filter_step fns chars text).bind (fun s =>
        (filter_iterations fuel fns s.1 s.2.1).bind (fun n => outcome.ok (n + 1)))

/-- The number of iterations the `while (!text.empty())` loop of Phase B makes, the one that
ends in `break` included. -/
def draw_iterations : Nat → List font → List Nat → outcome Nat
  | 0, _, _ => outcome.out_of_fuel
  | fuel + 1, fns, text =>
    if text.isEmpty then outcome.ok 0
    else
      let remaining := text.length
      let r := draw_fonts fns text
      if remaining = r.1.length then outcome.ok 1
      else (draw_iterations fuel fns r.1).bind (fun n => outcome.ok (n + 1))

/-! ## `font::render` with the status check

`font::render` throws an `application_error` when `cairo_scaled_font_text_to_glyphs` does not
return `CAIRO_STATUS_SUCCESS`, before it draws anything.  Here are `font::render` and the
draw loop of `operator<<` once more, with this exit.  Of cairo, whose code is not part of the
repository, this uses: the call fails with `CAIRO_STATUS_INVALID_STRING` on a text that is not
valid UTF-8. -/

/-- A `cairo::font` together with the status of its shaping call. -/
structure checked_font extends font where
  /-- Whether `cairo_scaled_font_text_to_glyphs` returns `CAIRO_STATUS_SUCCESS` on the text. -/
  accepts : List Nat → Bool

/-- The method `font::render(text)` with its status check: `none` is the `application_error`
thrown, otherwise the return value `bytes`. -/
def checked_font.render_checked (f : checked_font) (text : List Nat) : Option Nat :=
  if f.accepts text then some (f.tofont.render text) else none

/-- How Phase B ends when `render` can throw. -/
inductive draw_end where
  /-- The loop ends and `operator<<` returns; `text` is what is left of the text. -/
  | returned (text : List Nat)
  /-- The call of `render` on the font at address `ptr` with `text` throws
  `application_error`, which leaves `operator<<`. -/
  | application_error (ptr : Nat) (text : List Nat)
  /-- The fuel of the loop ran out. -/
  | out_of_fuel
deriving DecidableEq, Repr

/-- The `for (auto&& f : fns)` loop of Phase B with the status check: the `render` calls that
returned, and how the loop ends. -/
def draw_fonts_checked : List checked_font → List Nat → List event × draw_end
  | [], text => ([], draw_end.returned text)
  | f :: fs, text =>
    match f.render_checked text with
    | none => ([], draw_end.application_error f.ptr text)
    | some bytes =>
      if bytes = 0 then
        let r := draw_fonts_checked fs text
        (event.render f.ptr text bytes :: r.1, r.2)
      else
        let text1 := text.drop (min bytes text.length)
        if text1.isEmpty then ([event.render f.ptr text bytes], draw_end.returned text1)
        else
          let r := draw_fonts_checked fs text1
          (event.render f.ptr text bytes :: r.1, r.2)

/-- The `while (!text.empty())` loop of `operator<<` (Phase B) with the status check: the
events, in order, and how the loop ends. -/
def draw_loop_checked : Nat → List checked_font → List Nat → List event × draw_end
  | 0, _, _ => ([], draw_end.out_of_fuel)
  | fuel + 1, fns, text =>
    if text.isEmpty then ([], draw_end.returned text)
    else
      let remaining := text.length
      let r := draw_fonts_checked fns text
      match r.2 with
      | draw_end.returned text1 =>
        if remaining = text1.length then
          (r.1 ++ [event.warn_text text1], draw_end.returned text1)
        else
          let r1 := draw_loop_checked fuel fns text1
          (r.1 ++ r1.1, r1.2)
      | draw_end.application_error ptr text1 => (r.1, draw_end.application_error ptr text1)
      | draw_end.out_of_fuel => (r.1, draw_end.out_of_fuel)

/-- The body of `operator<<` after the sort with the status check: Phase A, then Phase B on
the filtered text.  Returns all events and how Phase B ends. -/
def render_text_checked (fns : List checked_font) (contents : List Nat) :
    outcome (List event × draw_end) :=
  (phase_a (fns.map (fun f => f.tofont)) contents).bind (fun a =>
    let r := draw_loop_checked (a.1.length + 1) fns a.1
    outcome.ok (a.2 ++ r.1, r.2))

/-- The number of continuation bytes after a leading byte of well-formed UTF-8 and the bounds
of the first of them (the Unicode Standard, table 3-7); `none` for a byte that starts no
well-formed sequence of two to four bytes. -/
def utf8_lead (b : Nat) : Option (Nat × Nat × Nat) :=
  if 0xC2 ≤ b ∧ b ≤ 0xDF then some (1, 0x80, 0xBF)
  else if b = 0xE0 then some (2, 0xA0, 0xBF)
  else if (0xE1 ≤ b ∧ b ≤ 0xEC) ∨ b = 0xEE ∨ b = 0xEF then some (2, 0x80, 0xBF)
  else if b = 0xED then some (2, 0x80, 0x9F)
  else if b = 0xF0 then some (3, 0x90, 0xBF)
  else if 0xF1 ≤ b ∧ b ≤ 0xF3 then some (3, 0x80, 0xBF)
  else if b = 0xF4 then some (3, 0x80, 0x8F)
  else none

/-- The scan of `utf8_valid`. -/
def utf8_valid_loop : Nat → List Nat → Bool
  | 0, _ => false
  | _ + 1, [] => true
  | fuel + 1, b :: rest =>
    if b = 0 then true
    else if b < 0x80 then utf8_valid_loop fuel rest
    else
      match utf8_lead b with
      | none => false
      | some (n, lo, hi) =>
        decide (n ≤ rest.length) &&
          (rest.take n).all (fun c => decide (0x80 ≤ c ∧ c ≤ 0xBF)) &&
          (match rest.head? with
            | some c => decide (lo ≤ c ∧ c ≤ hi)
            | none => false) &&
          utf8_valid_loop fuel (rest.drop n)

/-- The text is valid UTF-8 up to its first zero byte: the check behind
`CAIRO_STATUS_INVALID_STRING`, modelled as well-formedness by the Unicode Standard. -/
def utf8_valid (text : List Nat) : Bool := utf8_valid_loop (text.length + 1) text

/-- The bytes a call of `render` consumes: the prefix `text.substr(0, bytes)` it draws, which
is what `text.erase(0, std::min(bytes, text.size()))` removes after it; none for a call that
returns 0 and none for a warning. -/
def event.consumed : event → List Nat
  | event.render _ text bytes => text.take bytes
  | _ => []

/-- The text a call has handed to `cairo_show_text_glyphs`, empty when it has drawn nothing. -/
def attempt.run (a : attempt) : List Nat := a.drawn.getD []

/-- The array `unicode` of Phase A, five `char`s initialised to zero, after the call
`details::ucs4_to_utf8(unicode, chars.begin()->codepoint)`, whose second parameter is a
`uint32_t`: the bytes stored, then the zero bytes of the initialisation that are left.  `none`
when the call stores behind the array. -/
def warning_buffer (codepoint : Nat) : Option (List Nat) :=
  let w := (ucs4_to_utf8 (codepoint % 2 ^ 32)).2
  if w.length ≤ 5 then some (w ++ List.replicate (5 - w.length) 0) else none

/-! ## Fonts for the concrete inputs -/

/-- A font at address `ptr` with a glyph for every codepoint satisfying `has`, which shapes a
text byte by byte: one glyph per byte, of nonzero index when `has` holds of the byte. -/
def sample_font (ptr : Nat) (has : Nat → Bool) : font :=
  ⟨ptr, fun c => if has c then 1 else 0, fun t => t.map (fun b => (if has b then 1 else 0, 1))⟩

/-- A font with a glyph for everything. -/
def font_every : font := sample_font 1 (fun _ => true)

/-- A font with no glyph at all. -/
def font_nothing : font := sample_font 2 (fun _ => false)

/-- A font with glyphs for `'A'` to `'Z'` only. -/
def font_upper : font := sample_font 3 (fun c => decide (0x41 ≤ c ∧ c ≤ 0x5A))

/-- A context with `n` fonts registered, at the addresses `1` to `n` in this order. -/
def context_of (n : Nat) : context :=
  ⟨(List.range n).map (fun i => sample_font (i + 1) (fun _ => true)), []⟩

/-- A font at address `ptr` that shapes a text character by character: cairo refuses a text
that is not valid UTF-8, and otherwise gives one glyph per character, with the bytes of the
character as its cluster, of nonzero index when `has` holds of the codepoint. -/
def unicode_font (ptr : Nat) (has : Nat → Bool) : checked_font :=
  { ptr := ptr
    glyph_index := fun c => if has c then 1 else 0
    text_to_glyphs := fun t =>
      match utf8_to_ucs4 (some t) with
      | some r => r.2.map (fun c => (if has c.codepoint then 1 else 0, c.length.toNat))
      | none => []
    accepts := utf8_valid }

/-- A font with a glyph for every codepoint but the control characters `U+0000` to `U+001F`
and `U+007F`. -/
def font_printable : checked_font := unicode_font 6 (fun c => decide (0x20 ≤ c ∧ c ≠ 0x7F))

/-- A font with metrics: line height 10, descent 2, vertical offset 1 and glyphs 8 apart. -/
def metric_sample (base : font) : metric_font :=
  { base with height := 10, descent := 2, offset := 1, glyph_dx := fun _ g => 8 * g }

end cairo

/-! ## `color_util`: the channels of a colour

The four channel functions of `include/utils/color.hpp`.  The argument `value` is a
`uint32_t`; the local variable is a `uint8_t` and is promoted to `int` in the expression
returned, where `8 / 0xff` is evaluated first, since `/` binds tighter than `<<`, and `<<`
binds tighter than `|`.  The value returned is converted to `T`. -/

namespace color_util

/-- The template argument `T` of the channel functions: the two types for which they reach a
`return`. -/
inductive channel_type where
  | uint8_t
  | uint16_t
deriving DecidableEq, Repr

/-- The function `alpha_channel<T>(value)`. -/
def alpha_channel (T : channel_type) (value : Nat) : Nat :=
  let a := (value >>> 24) % 2 ^ 8
  match T with
  | channel_type.uint8_t => (a <<< (8 / 0xff)) % 2 ^ 8
  | channel_type.uint16_t => ((a <<< 8) ||| (a <<< (8 / 0xff))) % 2 ^ 16

/-- The function `red_channel<T>(value)`. -/
def red_channel (T : channel_type) (value : Nat) : Nat :=
  let r := (value >>> 16) % 2 ^ 8
  match T with
  | channel_type.uint8_t => (r <<< (8 / 0xff)) % 2 ^ 8
  | channel_type.uint16_t => ((r <<< 8) ||| (r <<< (8 / 0xff))) % 2 ^ 16

/-- The function `green_channel<T>(value)`. -/
def green_channel (T : channel_type) (value : Nat) : Nat :=
  let g := (value >>> 8) % 2 ^ 8
  match T with
  | channel_type.uint8_t => (g <<< (8 / 0xff)) % 2 ^ 8
  | channel_type.uint16_t => ((g <<< 8) ||| (g <<< (8 / 0xff))) % 2 ^ 16

/-- The function `blue_channel<T>(value)`. -/
def blue_channel (T : channel_type) (value : Nat) : Nat :=
  let b := value % 2 ^ 8
  match T with
  | channel_type.uint8_t => (b <<< (8 / 0xff)) % 2 ^ 8
  | channel_type.uint16_t => ((b <<< 8) ||| (b <<< (8 / 0xff))) % 2 ^ 16

end color_util

namespace cairo

/-- The method `context::operator<<(const uint32_t& c)`: the four arguments of
`cairo_set_source_rgba`, in the order red, green, blue, alpha, as exact rationals. -/
def source_rgba (c : Nat) : Rat × Rat × Rat × Rat :=
  ((color_util.red_channel color_util.channel_type.uint8_t c : Rat) / 255,
    (color_util.green_channel color_util.channel_type.uint8_t c : Rat) / 255,
    (color_util.blue_channel color_util.channel_type.uint8_t c : Rat) / 255,
    (color_util.alpha_channel color_util.channel_type.uint8_t c : Rat) / 255)

end cairo

open cairo


/-! ## Segments: the byte ranges the decoder cuts a text into -/

theorem lead_byte_not_cont (b : Nat) (len : Int) (r0 : Nat) (h : lead_byte b = some (len, r0)) :
    ¬ is_cont b := by
  unfold lead_byte at h
  simp only [Nat.shiftRight_eq_div_pow] at h
  intro hc
  have h6 : b / 2 ^ 6 = 2 := by
    have := hc.2
    simpa [Nat.shiftRight_eq_div_pow] using this
  split_ifs at h <;> omega

theorem cont_loop_segment (len : Int) (conts rest : List Nat) :
    ∀ (dist : Int) (r : Nat), (∀ c ∈ conts, is_cont c) → dist + conts.length ≤ len →
      (∀ b, rest.head? = some b → ¬ is_cont b) →
      cont_loop len (conts ++ rest) dist r = (cont_value r conts, dist + conts.length, rest) := by
  induction conts with
  | nil =>
    intro dist r _ _ hrest
    cases rest with
    | nil => simp [cont_loop, cont_value]
    | cons b bs =>
      have hb : ¬ is_cont b := hrest b rfl
      have : ¬ (b ≠ 0 ∧ b >>> 6 = 2 ∧ dist < len) := fun h => hb ⟨h.1, h.2.1⟩
      simp [cont_loop, cont_value, this]
  | cons c cs ih =>
    intro dist r hall hlen hrest
    have hc : is_cont c := hall c (List.mem_cons_self _ _)
    have hlt : dist < len := by
      simp only [List.length_cons, Nat.cast_add, Nat.cast_one] at hlen
      omega
    have hcond : c ≠ 0 ∧ c >>> 6 = 2 ∧ dist < len := ⟨hc.1, hc.2, hlt⟩
    have := ih (dist + 1) ((r <<< 6) ||| (c &&& 63))
      (fun d hd => hall d (List.mem_cons_of_mem _ hd))
      (by simp only [List.length_cons, Nat.cast_add, Nat.cast_one] at hlen; omega) hrest
    show cont_loop len (c :: (cs ++ rest)) dist r = _
    rw [cont_loop, if_pos hcond, this]
    simp only [cont_value, List.foldl_cons, List.length_cons, Nat.cast_add, Nat.cast_one,
      Prod.mk.injEq, and_true, true_and]
    omega

theorem lead_byte_len_pos (b : Nat) (len : Int) (r0 : Nat) (h : lead_byte b = some (len, r0)) :
    1 ≤ len := by
  unfold lead_byte at h
  split_ifs at h <;> simp only [Option.some.injEq, Prod.mk.injEq, reduceCtorEq] at h <;> omega

theorem cont_loop_split (len : Int) :
    ∀ (bs : List Nat) (dist : Int) (r : Nat), ∃ conts rest, bs = conts ++ rest ∧
      cont_loop len bs dist r = (cont_value r conts, dist + conts.length, rest) ∧
      (∀ c ∈ conts, is_cont c) ∧ (dist ≤ len → dist + conts.length ≤ len) := by
  intro bs
  induction bs with
  | nil =>
    intro dist r
    exact ⟨[], [], rfl, by simp [cont_loop, cont_value], by simp, by simp⟩
  | cons b bs ih =>
    intro dist r
    by_cases hcond : b ≠ 0 ∧ b >>> 6 = 2 ∧ dist < len
    · obtain ⟨conts, rest, hbs, hloop, hall, hlen⟩ := ih (dist + 1) ((r <<< 6) ||| (b &&& 63))
      refine ⟨b :: conts, rest, by simp [hbs], ?_, ?_, ?_⟩
      · rw [cont_loop, if_pos hcond, hloop]
        simp only [cont_value, List.foldl_cons, List.length_cons, Nat.cast_add, Nat.cast_one,
          Prod.mk.injEq, and_true, true_and]
        omega
      · intro c hc
        rcases List.mem_cons.1 hc with rfl | hc
        · exact ⟨hcond.1, hcond.2.1⟩
        · exact hall c hc
      · intro _
        have := hlen (by omega)
        simp only [List.length_cons, Nat.cast_add, Nat.cast_one]
        omega
    · exact ⟨[], b :: bs, rfl, by rw [cont_loop, if_neg hcond]; simp [cont_value], by simp,
        by simp⟩

theorem seg_ok_bytes_ne_zero (s : List Nat) (h : seg_ok s) : ∀ b ∈ s, b ≠ 0 := by
  cases s with
  | nil => exact absurd h (by simp [seg_ok])
  | cons b conts =>
    obtain ⟨hb, _, _, _, hall, _⟩ := h
    intro c hc
    rcases List.mem_cons.1 hc with rfl | hc
    · exact hb
    · exact (hall c hc).1

theorem seg_ok_head_not_cont (s : List Nat) (rest : List Nat) (h : seg_ok s) :
    ∀ b, (s ++ rest).head? = some b → ¬ is_cont b := by
  cases s with
  | nil => exact absurd h (by simp [seg_ok])
  | cons b conts =>
    obtain ⟨_, len, r0, hl, _, _⟩ := h
    intro c hc
    simp only [List.cons_append, List.head?_cons, Option.some.injEq] at hc
    subst hc
    exact lead_byte_not_cont _ len r0 hl

theorem flatten_head_not_cont (segs : List (List Nat)) (tail : List Nat)
    (hsegs : ∀ s ∈ segs, seg_ok s) (htail : tail_ok tail) :
    ∀ b, (segs.flatten ++ tail).head? = some b → ¬ is_cont b := by
  cases segs with
  | nil =>
    intro b hb
    rcases htail with rfl | h0
    · simp at hb
    · simp only [List.flatten_nil, List.nil_append] at hb
      rw [h0] at hb
      simp only [Option.some.injEq] at hb
      subst hb
      exact fun h => h.1 rfl
  | cons s ss =>
    intro b hb
    simp only [List.flatten_cons, List.append_assoc] at hb
    exact seg_ok_head_not_cont s _ (hsegs s (List.mem_cons_self _ _)) b hb

/-- Decoding a text made of segments and a tail yields exactly the characters of the
segments, for any sufficient fuel. -/
theorem utf8_loop_of_segments (segs : List (List Nat)) (tail : List Nat)
    (htail : tail_ok tail) :
    (∀ s ∈ segs, seg_ok s) → ∀ (fuel : Nat) (off : Int) (acc : unicode_charlist),
      (segs.flatten ++ tail).length < fuel →
      utf8_loop fuel (segs.flatten ++ tail) off acc = some (true, acc ++ layout off segs) := by
  induction segs with
  | nil =>
    intro _ fuel off acc hfuel
    cases fuel with
    | zero => omega
    | succ fuel =>
      rcases htail with rfl | h0
      · simp [utf8_loop, layout]
      · cases tail with
        | nil => simp [utf8_loop, layout]
        | cons b bs =>
          simp only [List.head?_cons, Option.some.injEq] at h0
          subst h0
          simp [utf8_loop, layout]
  | cons s ss ih =>
    intro hsegs fuel off acc hfuel
    have hs : seg_ok s := hsegs s (List.mem_cons_self _ _)
    have hss : ∀ t ∈ ss, seg_ok t := fun t ht => hsegs t (List.mem_cons_of_mem _ ht)
    cases s with
    | nil => exact absurd hs (by simp [seg_ok])
    | cons b conts =>
      obtain ⟨hb, len, r0, hl, hall, hlen⟩ := hs
      cases fuel with
      | zero => omega
      | succ fuel =>
        have hloop := cont_loop_segment len conts (ss.flatten ++ tail) 1 r0 hall (by omega)
          (flatten_head_not_cont ss tail hss htail)
        have hfuel2 : (ss.flatten ++ tail).length < fuel := by
          simp only [List.flatten_cons, List.append_assoc, List.length_append, List.length_cons]
            at hfuel
          simp only [List.length_append]
          omega
        have e : (1 : Int) + conts.length = conts.length + 1 := by omega
        rw [e] at hloop
        have hflat : ((b :: conts) :: ss).flatten ++ tail = b :: (conts ++ (ss.flatten ++ tail)) := by
          simp
        rw [hflat, utf8_loop, if_neg hb, hl]
        simp only [hloop]
        rw [ih hss fuel _ _ hfuel2]
        simp [layout, seg_codepoint, hl]

/-- Whatever the text, the decoder cuts a prefix of it into segments and stops at a tail: the
terminating NUL when it returns `true`, an unrecognised leading byte when it returns
`false`. -/
theorem utf8_loop_segments :
    ∀ (fuel : Nat) (src : List Nat) (off : Int) (acc : unicode_charlist), src.length < fuel →
      ∃ ok segs tail, utf8_loop fuel src off acc = some (ok, acc ++ layout off segs) ∧
        src = segs.flatten ++ tail ∧ (∀ s ∈ segs, seg_ok s) ∧
        (ok = true → tail_ok tail) ∧
        (ok = false → ∃ b, tail.head? = some b ∧ b ≠ 0 ∧ lead_byte b = none) := by
  intro fuel
  induction fuel with
  | zero => intro src _ _ h; omega
  | succ fuel ih =>
    intro src off acc hfuel
    cases src with
    | nil =>
      exact ⟨true, [], [], by simp [utf8_loop, layout], by simp, by simp, fun _ => Or.inl rfl,
        by simp⟩
    | cons b bs =>
      by_cases hb : b = 0
      · subst hb
        exact ⟨true, [], 0 :: bs, by simp [utf8_loop, layout], by simp, by simp,
          fun _ => Or.inr rfl, by simp⟩
      · cases hl : lead_byte b with
        | none =>
          exact ⟨false, [], b :: bs, by simp [utf8_loop, layout, hb, hl], by simp, by simp,
            by simp, fun _ => ⟨b, rfl, hb, hl⟩⟩
        | some p =>
          obtain ⟨len, r0⟩ := p
          obtain ⟨conts, rest, hbs, hloop, hall, hlen⟩ := cont_loop_split len bs 1 r0
          have hlen1 := hlen (lead_byte_len_pos b len r0 hl)
          have hfuel2 : rest.length < fuel := by
            simp only [List.length_cons, hbs, List.length_append] at hfuel
            omega
          have e : (1 : Int) + conts.length = conts.length + 1 := by omega
          rw [e] at hloop
          obtain ⟨ok, segs, tail, hrec, hsrc, hsegs, htrue, hfalse⟩ :=
            ih rest (off + (conts.length + 1))
              (acc ++ [⟨cont_value r0 conts, off, conts.length + 1⟩]) hfuel2
          refine ⟨ok, (b :: conts) :: segs, tail, ?_, ?_, ?_, htrue, hfalse⟩
          · rw [utf8_loop, if_neg hb, hl]
            simp only [hloop]
            rw [hrec]
            simp [layout, seg_codepoint, hl]
          · simp [hbs, hsrc]
          · intro s hs
            rcases List.mem_cons.1 hs with rfl | hs
            · exact ⟨hb, len, r0, hl, hall, by omega⟩
            · exact hsegs s hs

/-! ## Bit-level facts about the bytes of the encoder -/

theorem and_63_eq_mod (x : Nat) : x &&& 63 = x % 64 := Nat.and_pow_two_sub_one_eq_mod x 6

theorem and_15_eq_mod (x : Nat) : x &&& 15 = x % 16 := Nat.and_pow_two_sub_one_eq_mod x 4

theorem and_7_eq_mod (x : Nat) : x &&& 7 = x % 8 := Nat.and_pow_two_sub_one_eq_mod x 3

theorem shl6_or (x p : Nat) (hp : p < 64) : (x <<< 6) ||| p = x * 64 + p := by
  have h := Nat.mul_add_lt_is_or (i := 6) (b := p) hp x
  rw [Nat.shiftLeft_eq, Nat.mul_comm x (2 ^ 6)]
  exact h.symm

theorem cont_byte_facts :
    ∀ p, p < 64 → is_cont ((p ||| 0x80) % 256) ∧ ((p ||| 0x80) % 256) &&& 63 = p := by
  decide

theorem lead1_facts : ∀ p, p < 128 → lead_byte (p % 256) = some (1, p) := by
  decide

theorem lead2_facts :
    ∀ p, p < 32 → ((p &&& 0xff) ||| 0xc0) % 256 ≠ 0 ∧
      lead_byte (((p &&& 0xff) ||| 0xc0) % 256) = some (2, p) := by
  decide

theorem lead3_facts :
    ∀ p, p < 16 → (p ||| 0xe0) % 256 ≠ 0 ∧ lead_byte ((p ||| 0xe0) % 256) = some (3, p) := by
  decide

theorem lead4_facts :
    ∀ p, p < 8 → (p ||| 0xf0) % 256 ≠ 0 ∧ lead_byte ((p ||| 0xf0) % 256) = some (4, p) := by
  decide

/-- The bytes the encoder writes for a scalar of the 1- to 4-byte forms are one segment that
reads back as that scalar. -/
theorem encode_segment (s : Nat) (h1 : 1 ≤ s) (h2 : s ≤ 0x1fffff) :
    seg_ok (ucs4_to_utf8 s).2 ∧ seg_codepoint (ucs4_to_utf8 s).2 = s ∧
      (ucs4_to_utf8 s).2.length = (ucs4_to_utf8 s).1 := by
  by_cases c1 : s ≤ 0x7f
  · have hl := lead1_facts s (by omega)
    have hne : s % 256 ≠ 0 := by omega
    simp only [ucs4_to_utf8, if_pos c1]
    refine ⟨⟨hne, 1, s, hl, by simp, by simp⟩, ?_, rfl⟩
    simp [seg_codepoint, hl, cont_value]
  · by_cases c2 : s ≤ 0x7ff
    · have hp0 : s >>> 6 < 32 := by rw [Nat.shiftRight_eq_div_pow]; omega
      have hp1 : s &&& 0x3f < 64 := by rw [and_63_eq_mod]; omega
      obtain ⟨hne, hl⟩ := lead2_facts _ hp0
      obtain ⟨hc1, hv1⟩ := cont_byte_facts _ hp1
      simp only [ucs4_to_utf8, if_neg c1, if_pos c2]
      refine ⟨⟨hne, 2, _, hl, by simpa using hc1, by simp⟩, ?_, rfl⟩
      simp only [seg_codepoint, hl, cont_value, List.foldl_cons, List.foldl_nil, hv1]
      rw [shl6_or _ _ hp1, Nat.shiftRight_eq_div_pow, and_63_eq_mod]
      omega
    · by_cases c3 : s ≤ 0xffff
      · have hp0 : (s >>> 12) &&& 0x0f < 16 := by rw [and_15_eq_mod]; omega
        have hp1 : (s >>> 6) &&& 0x3f < 64 := by rw [and_63_eq_mod]; omega
        have hp2 : s &&& 0x3f < 64 := by rw [and_63_eq_mod]; omega
        obtain ⟨hne, hl⟩ := lead3_facts _ hp0
        obtain ⟨hc1, hv1⟩ := cont_byte_facts _ hp1
        obtain ⟨hc2, hv2⟩ := cont_byte_facts _ hp2
        simp only [ucs4_to_utf8, if_neg c1, if_neg c2, if_pos c3]
        refine ⟨⟨hne, 3, _, hl, ?_, by simp⟩, ?_, rfl⟩
        · intro c hc
          simp only [List.mem_cons, List.mem_singleton, List.not_mem_nil, or_false] at hc
          rcases hc with rfl | rfl
          · exact hc1
          · exact hc2
        · simp only [seg_codepoint, hl, cont_value, List.foldl_cons, List.foldl_nil, hv1, hv2]
          rw [shl6_or _ _ hp1, shl6_or _ _ hp2]
          simp only [Nat.shiftRight_eq_div_pow, and_63_eq_mod, and_15_eq_mod]
          omega
      · have c4 : s ≤ 0x1fffff := h2
        have hp0 : (s >>> 18) &&& 0x07 < 8 := by rw [and_7_eq_mod]; omega
        have hp1 : (s >>> 12) &&& 0x3f < 64 := by rw [and_63_eq_mod]; omega
        have hp2 : (s >>> 6) &&& 0x3f < 64 := by rw [and_63_eq_mod]; omega
        have hp3 : s &&& 0x3f < 64 := by rw [and_63_eq_mod]; omega
        obtain ⟨hne, hl⟩ := lead4_facts _ hp0
        obtain ⟨hc1, hv1⟩ := cont_byte_facts _ hp1
        obtain ⟨hc2, hv2⟩ := cont_byte_facts _ hp2
        obtain ⟨hc3, hv3⟩ := cont_byte_facts _ hp3
        simp only [ucs4_to_utf8, if_neg c1, if_neg c2, if_neg c3, if_pos c4]
        refine ⟨⟨hne, 4, _, hl, ?_, by simp⟩, ?_, rfl⟩
        · intro c hc
          simp only [List.mem_cons, List.mem_singleton, List.not_mem_nil, or_false] at hc
          rcases hc with rfl | rfl | rfl
          · exact hc1
          · exact hc2
          · exact hc3
        · simp only [seg_codepoint, hl, cont_value, List.foldl_cons, List.foldl_nil, hv1, hv2,
            hv3]
          rw [shl6_or _ _ hp1, shl6_or _ _ hp2, shl6_or _ _ hp3]
          simp only [Nat.shiftRight_eq_div_pow, and_63_eq_mod, and_7_eq_mod]
          omega

/-! ## The scan of the decoder in terms of byte classes -/

theorem lead_byte_eq (b : Nat) :
    lead_byte b =
      if b < 0x80 then some (1, b)
      else if 0xC0 ≤ b ∧ b < 0xE0 then some (2, b &&& 31)
      else if 0xE0 ≤ b ∧ b < 0xF0 then some (3, b &&& 15)
      else if 0xF0 ≤ b ∧ b < 0xF8 then some (4, b &&& 7)
      else none := by
  unfold lead_byte
  simp only [Nat.shiftRight_eq_div_pow]
  have e1 : (b / 2 ^ 7 = 0) = (b < 0x80) := by apply propext; omega
  have e2 : (b / 2 ^ 5 = 6) = (0xC0 ≤ b ∧ b < 0xE0) := by apply propext; omega
  have e3 : (b / 2 ^ 4 = 14) = (0xE0 ≤ b ∧ b < 0xF0) := by apply propext; omega
  have e4 : (b / 2 ^ 3 = 30) = (0xF0 ≤ b ∧ b < 0xF8) := by apply propext; omega
  simp only [e1, e2, e3, e4]

theorem lead_byte_class (b : Nat) (len : Int) (r0 : Nat) (h : lead_byte b = some (len, r0)) :
    ∃ n : Nat, class_len b = some n ∧ len = n ∧ 1 ≤ n := by
  rw [lead_byte_eq] at h
  unfold class_len
  split_ifs at h ⊢ <;> simp only [Option.some.injEq, Prod.mk.injEq, reduceCtorEq] at h
  · exact ⟨1, rfl, by omega, by omega⟩
  · exact ⟨2, rfl, by omega, by omega⟩
  · exact ⟨3, rfl, by omega, by omega⟩
  · exact ⟨4, rfl, by omega, by omega⟩

theorem lead_byte_none_iff (b : Nat) (hb : b < 256) :
    lead_byte b = none ↔ bad_lead b := by
  rw [lead_byte_eq]
  unfold bad_lead
  split_ifs <;> simp <;> omega

theorem is_cont_iff (b : Nat) : is_cont b ↔ cont_pattern b = true := by
  unfold is_cont cont_pattern
  simp only [Nat.shiftRight_eq_div_pow, decide_eq_true_eq]
  omega

/-- Where the `for` loop of the decoder stops, in terms of the byte classes. -/
theorem cont_loop_rest (len : Int) :
    ∀ (bs : List Nat) (dist : Int) (r : Nat), dist ≤ len →
      (cont_loop len bs dist r).2.2 =
        bs.drop (min (len - dist).toNat (bs.takeWhile cont_pattern).length) := by
  intro bs
  induction bs with
  | nil => intro dist r _; simp [cont_loop]
  | cons b bs ih =>
    intro dist r hd
    by_cases hcond : b ≠ 0 ∧ b >>> 6 = 2 ∧ dist < len
    · have hc : cont_pattern b = true := (is_cont_iff b).1 ⟨hcond.1, hcond.2.1⟩
      rw [cont_loop, if_pos hcond, ih (dist + 1) _ (by omega)]
      simp only [List.takeWhile_cons, hc, if_true, List.length_cons]
      have e : (len - dist).toNat = (len - (dist + 1)).toNat + 1 := by omega
      rw [e, Nat.succ_min_succ, List.drop_succ_cons]
    · rw [cont_loop, if_neg hcond]
      by_cases hc : cont_pattern b = true
      · have hic := (is_cont_iff b).2 hc
        have hlt : ¬ dist < len := fun h => hcond ⟨hic.1, hic.2, h⟩
        have e : (len - dist).toNat = 0 := by omega
        simp [e]
      · simp [List.takeWhile_cons, hc]

theorem next_start_unique (a b c : List Nat) (hb : next_start a b) (hc : next_start a c) :
    b = c := by
  obtain ⟨x, xs, n, rfl, _, hn, rfl⟩ := hb
  obtain ⟨y, ys, m, hy, _, hm, rfl⟩ := hc
  obtain ⟨rfl, rfl⟩ := List.cons.inj hy
  rw [hn] at hm
  obtain rfl := Option.some.inj hm
  rfl

theorem next_start_of_lead (b : Nat) (bs : List Nat) (len : Int) (r0 : Nat) (hb : b ≠ 0)
    (hl : lead_byte b = some (len, r0)) :
    next_start (b :: bs) (cont_loop len bs 1 r0).2.2 := by
  obtain ⟨n, hn, hlen, hn1⟩ := lead_byte_class b len r0 hl
  refine ⟨b, bs, n, rfl, hb, hn, ?_⟩
  rw [cont_loop_rest len bs 1 r0 (by omega)]
  have e : (len - 1).toNat = n - 1 := by omega
  rw [e]

theorem cont_loop_rest_length (len : Int) (bs : List Nat) (r0 : Nat) :
    (cont_loop len bs 1 r0).2.2.length ≤ bs.length := by
  obtain ⟨conts, rest, hbs, hloop, _, _⟩ := cont_loop_split len bs 1 r0
  rw [hloop, hbs]
  simp

theorem cont_loop_rest_mem (len : Int) (bs : List Nat) (r0 : Nat) :
    ∀ c ∈ (cont_loop len bs 1 r0).2.2, c ∈ bs := by
  obtain ⟨conts, rest, hbs, hloop, _, _⟩ := cont_loop_split len bs 1 r0
  rw [hloop, hbs]
  intro c hc
  exact List.mem_append_right _ hc

/-- The decoder returns `false` exactly when its scan reaches a sequence start holding a byte
of no class. -/
theorem utf8_loop_false_iff :
    ∀ (fuel : Nat) (rest : List Nat) (off : Int) (acc : unicode_charlist), rest.length < fuel →
      (∀ b ∈ rest, b < 256) →
      ((∃ l, utf8_loop fuel rest off acc = some (false, l)) ↔
        ∃ b r, seq_start rest (b :: r) ∧ bad_lead b) := by
  intro fuel
  induction fuel with
  | zero => intro rest _ _ h; omega
  | succ fuel ih =>
    intro rest off acc hfuel hbytes
    cases rest with
    | nil =>
      constructor
      · rintro ⟨l, hl⟩
        simp [utf8_loop] at hl
      · rintro ⟨b, r, hs, _⟩
        rcases Relation.ReflTransGen.cases_head hs with h | ⟨c, hc, _⟩
        · exact absurd h (by simp)
        · obtain ⟨x, xs, n, hx, _⟩ := hc
          exact absurd hx (by simp)
    | cons b bs =>
      by_cases hb : b = 0
      · subst hb
        constructor
        · rintro ⟨l, hl⟩
          simp [utf8_loop] at hl
        · rintro ⟨b, r, hs, hbad⟩
          rcases Relation.ReflTransGen.cases_head hs with h | ⟨c, hc, _⟩
          · obtain ⟨rfl, _⟩ := List.cons.inj h
            unfold bad_lead at hbad
            omega
          · obtain ⟨x, xs, n, hx, hx0, _⟩ := hc
            obtain ⟨rfl, _⟩ := List.cons.inj hx
            exact absurd rfl hx0
      · cases hl : lead_byte b with
        | none =>
          constructor
          · intro _
            exact ⟨b, bs, Relation.ReflTransGen.refl,
              (lead_byte_none_iff b (hbytes b (List.mem_cons_self _ _))).1 hl⟩
          · intro _
            exact ⟨acc, by simp [utf8_loop, hb, hl]⟩
        | some p =>
          obtain ⟨len, r0⟩ := p
          have hstep := next_start_of_lead b bs len r0 hb hl
          have hlenr := cont_loop_rest_length len bs r0
          have hrec := ih (cont_loop len bs 1 r0).2.2 (off + (cont_loop len bs 1 r0).2.1)
            (acc ++ [⟨(cont_loop len bs 1 r0).1, off, (cont_loop len bs 1 r0).2.1⟩])
            (by simp only [List.length_cons] at hfuel; omega)
            (fun c hc => hbytes c (List.mem_cons_of_mem _ (cont_loop_rest_mem len bs r0 c hc)))
          have hunf : utf8_loop (fuel + 1) (b :: bs) off acc =
              utf8_loop fuel (cont_loop len bs 1 r0).2.2 (off + (cont_loop len bs 1 r0).2.1)
                (acc ++ [⟨(cont_loop len bs 1 r0).1, off, (cont_loop len bs 1 r0).2.1⟩]) := by
            rw [utf8_loop, if_neg hb, hl]
          rw [hunf, hrec]
          constructor
          · rintro ⟨x, r, hs, hbad⟩
            exact ⟨x, r, Relation.ReflTransGen.head hstep hs, hbad⟩
          · rintro ⟨x, r, hs, hbad⟩
            rcases Relation.ReflTransGen.cases_head hs with h | ⟨c, hc, hs2⟩
            · obtain ⟨rfl, _⟩ := List.cons.inj h
              have := (lead_byte_none_iff b (hbytes b (List.mem_cons_self _ _))).2 hbad
              rw [hl] at this
              exact absurd this (by simp)
            · rw [next_start_unique _ _ _ hc hstep] at hs2
              exact ⟨x, r, hs2, hbad⟩

/-- The decoder returns on every text. -/
theorem utf8_to_ucs4_total (src : List Nat) :
    ∃ ok chars, utf8_to_ucs4 (some src) = some (ok, chars) := by
  obtain ⟨ok, segs, tail, h, _⟩ := utf8_loop_segments (src.length + 1) src 0 [] (by omega)
  exact ⟨ok, _, h⟩

/-! ## Phase A on segments -/

theorem layout_length (off : Int) (segs : List (List Nat)) :
    (layout off segs).length = segs.length := by
  induction segs generalizing off with
  | nil => rfl
  | cons s ss ih => simp [layout, ih]

theorem layout_drop (k : Nat) :
    ∀ (off : Int) (segs : List (List Nat)),
      (layout off segs).drop k = layout (off + ((segs.take k).flatten.length : Nat)) (segs.drop k) := by
  induction k with
  | zero => intro off segs; simp
  | succ k ih =>
    intro off segs
    cases segs with
    | nil => simp [layout]
    | cons s ss =>
      simp only [layout, List.drop_succ_cons, List.take_succ_cons, List.flatten_cons,
        List.length_append, Nat.cast_add]
      rw [ih]
      congr 1
      omega

theorem layout_shift (n : Int) :
    ∀ (off : Int) (segs : List (List Nat)),
      (layout off segs).map (fun d => { d with offset := d.offset - n }) =
        layout (off - n) segs := by
  intro off segs
  induction segs generalizing off with
  | nil => rfl
  | cons s ss ih =>
    simp only [layout, List.map_cons, ih]
    congr 2
    omega

theorem match_take_covered (f : font) :
    ∀ (off : Int) (segs : List (List Nat)),
      f.match_ (layout off segs) ≤ segs.length ∧
        ∀ s ∈ segs.take (f.match_ (layout off segs)), f.glyph_index (seg_codepoint s) ≠ 0 := by
  intro off segs
  induction segs generalizing off with
  | nil => simp [layout, font.match_]
  | cons s ss ih =>
    by_cases h : f.glyph_index (seg_codepoint s) ≠ 0
    · obtain ⟨h1, h2⟩ := ih (off + s.length)
      simp only [layout, font.match_, if_pos h, List.length_cons, List.take_succ_cons,
        List.mem_cons]
      refine ⟨by omega, ?_⟩
      rintro t (rfl | ht)
      · exact h
      · exact h2 t ht
    · simp [layout, font.match_, h]

theorem match_eq_zero_iff (f : font) (off : Int) (s : List Nat) (ss : List (List Nat)) :
    f.match_ (layout off (s :: ss)) = 0 ↔ f.glyph_index (seg_codepoint s) = 0 := by
  by_cases h : f.glyph_index (seg_codepoint s) ≠ 0
  · simp [layout, font.match_, h]
  · simp only [ne_eq, not_not] at h
    simp [layout, font.match_, h]

/-- The font loop of Phase A on the characters of segments: either no font covers the first
character and nothing changes, or some covered leading characters are erased. -/
theorem match_fonts_layout (fns : List font) (off : Int) (s : List Nat)
    (ss : List (List Nat)) :
    (covered fns (seg_codepoint s) = false ∧
        match_fonts fns (layout off (s :: ss)) = layout off (s :: ss)) ∨
      (∃ k, 1 ≤ k ∧ k ≤ (s :: ss).length ∧
        (∀ t ∈ (s :: ss).take k, covered fns (seg_codepoint t) = true) ∧
        match_fonts fns (layout off (s :: ss)) = (layout off (s :: ss)).drop k) := by
  induction fns with
  | nil => left; simp [covered, match_fonts]
  | cons f fs ih =>
    by_cases h0 : f.match_ (layout off (s :: ss)) = 0
    · have hg := (match_eq_zero_iff f off s ss).1 h0
      rcases ih with ⟨hc, hm⟩ | ⟨k, hk1, hk2, hall, hm⟩
      · left
        refine ⟨?_, by rw [match_fonts, if_pos h0, hm]⟩
        simp only [covered, List.any_cons, hg, bne_self_eq_false, Bool.false_or] at hc ⊢
        exact hc
      · right
        refine ⟨k, hk1, hk2, ?_, by rw [match_fonts, if_pos h0, hm]⟩
        intro t ht
        have := hall t ht
        simp only [covered] at this
        simp only [covered, List.any_cons, this, Bool.or_true]
    · right
      obtain ⟨h1, h2⟩ := match_take_covered f off (s :: ss)
      refine ⟨f.match_ (layout off (s :: ss)), by omega, h1, ?_, by rw [match_fonts, if_neg h0]⟩
      intro t ht
      have := h2 t ht
      simp only [covered, List.any_cons, Bool.or_eq_true, bne_iff_ne, ne_eq]
      exact Or.inl this

theorem string_erase_segment (pre s rest : List Nat) :
    string_erase (pre ++ s ++ rest) pre.length s.length = some (pre ++ rest) := by
  unfold string_erase
  have h1 : ¬ ((pre.length : Int) < 0 ∨ (((pre ++ s ++ rest).length : Nat) : Int) < pre.length) := by
    simp only [List.length_append, Nat.cast_add]
    omega
  have h2 : ¬ ((s.length : Int) < 0) := by omega
  rw [if_neg h1, if_neg h2]
  simp only [Int.toNat_ofNat, List.append_assoc, List.take_left', Option.some.injEq,
    List.append_cancel_left_eq]
  rw [List.drop_append_eq_append_drop]
  simp

theorem filter_loop_nil (fuel : Nat) (fns : List font) (text : List Nat) :
    filter_loop (fuel + 1) fns [] text = outcome.ok (text, []) := by
  simp [filter_loop]

/-- An iteration of Phase A in which a font erased covered characters. -/
theorem filter_loop_matched (fuel : Nat) (fns : List font) (c : unicode_char)
    (cs : unicode_charlist) (text : List Nat)
    (h : (match_fonts fns (c :: cs)).length ≠ (c :: cs).length) :
    filter_loop (fuel + 1) fns (c :: cs) text =
      filter_loop fuel fns (match_fonts fns (c :: cs)) text := by
  rw [filter_loop]
  simp only [List.isEmpty_cons, Bool.false_eq_true, if_false]
  generalize match_fonts fns (c :: cs) = m at h ⊢
  cases m with
  | nil => rfl
  | cons d ds =>
    simp only
    rw [if_neg (fun e => h e.symm)]

/-- An iteration of Phase A in which no font matched: the first character is dropped. -/
theorem filter_loop_dropped (fuel : Nat) (fns : List font) (c : unicode_char)
    (cs : unicode_charlist) (text text1 : List Nat)
    (h : match_fonts fns (c :: cs) = c :: cs)
    (he : string_erase text c.offset c.length = some text1) :
    filter_loop (fuel + 1) fns (c :: cs) text =
      match filter_loop fuel fns (cs.map (fun d => { d with offset := d.offset - c.length }))
          text1 with
      | outcome.ok (text2, ev) =>
        outcome.ok (text2,
          event.warn_char (ucs4_to_utf8 (c.codepoint % 2 ^ 32)).2 c.codepoint :: ev)
      | outcome.out_of_range => outcome.out_of_range
      | outcome.out_of_bounds => outcome.out_of_bounds
      | outcome.out_of_fuel => outcome.out_of_fuel := by
  rw [filter_loop]
  simp only [List.isEmpty_cons, Bool.false_eq_true, if_false, h, if_true, he, List.map_cons,
    List.tail_cons]

/-- Phase A keeps the bytes before the characters and after them, keeps the segments some font
covers and drops the others, logging one warning for each. -/
theorem filter_loop_segments (fns : List font) :
    ∀ (fuel : Nat) (segs : List (List Nat)) (pre tail : List Nat), segs.length < fuel →
      filter_loop fuel fns (layout pre.length segs) (pre ++ segs.flatten ++ tail) =
        outcome.ok
          (pre ++ (segs.filter (fun s => covered fns (seg_codepoint s))).flatten ++ tail,
            (segs.filter (fun s => !covered fns (seg_codepoint s))).map seg_warning) := by
  intro fuel
  induction fuel with
  | zero => intro segs _ _ h; omega
  | succ fuel ih =>
    intro segs pre tail hfuel
    cases segs with
    | nil => simp [layout, filter_loop_nil]
    | cons s ss =>
      rcases match_fonts_layout fns pre.length s ss with ⟨hc, hm⟩ | ⟨k, hk1, hk2, hall, hm⟩
      · have hlay : layout (pre.length : Int) (s :: ss) =
            ⟨seg_codepoint s, pre.length, s.length⟩ :: layout (pre.length + s.length) ss := rfl
        rw [hlay] at hm ⊢
        have he : string_erase (pre ++ (s :: ss).flatten ++ tail) (pre.length : Int)
            (s.length : Int) = some (pre ++ (ss.flatten ++ tail)) := by
          have := string_erase_segment pre s (ss.flatten ++ tail)
          simpa [List.append_assoc] using this
        rw [filter_loop_dropped fuel fns _ _ _ _ hm he, layout_shift]
        have e : (pre.length : Int) + s.length - s.length = pre.length := by omega
        rw [e]
        have := ih ss pre tail (by simp only [List.length_cons] at hfuel; omega)
        rw [List.append_assoc] at this
        rw [this]
        simp [List.filter_cons, hc, seg_warning, List.append_assoc]
      · have hlen : (match_fonts fns (layout (pre.length : Int) (s :: ss))).length ≠
            (layout (pre.length : Int) (s :: ss)).length := by
          rw [hm, List.length_drop, layout_length]
          omega
        have hlay : layout (pre.length : Int) (s :: ss) =
            ⟨seg_codepoint s, pre.length, s.length⟩ :: layout (pre.length + s.length) ss := rfl
        rw [hlay] at hlen
        have hstep := filter_loop_matched fuel fns _ _ (pre ++ (s :: ss).flatten ++ tail) hlen
        rw [← hlay] at hstep
        rw [hstep, hm, layout_drop]
        have hpre : ((pre.length : Int) + (((s :: ss).take k).flatten.length : Nat)) =
            ((pre ++ ((s :: ss).take k).flatten).length : Nat) := by
          simp
        have htext : pre ++ (s :: ss).flatten ++ tail =
            (pre ++ ((s :: ss).take k).flatten) ++ ((s :: ss).drop k).flatten ++ tail := by
          have hfl : (s :: ss).flatten =
              ((s :: ss).take k).flatten ++ ((s :: ss).drop k).flatten := by
            rw [← List.flatten_append, List.take_append_drop]
          rw [hfl]
          simp only [List.append_assoc]
        rw [hpre, htext]
        rw [ih ((s :: ss).drop k) _ tail (by
          rw [List.length_drop]
          simp only [List.length_cons] at hfuel hk2 ⊢
          omega)]
        have hkeep : ((s :: ss).take k).filter (fun s => covered fns (seg_codepoint s)) =
            (s :: ss).take k := List.filter_eq_self.2 hall
        have hdrop : ((s :: ss).take k).filter (fun s => !covered fns (seg_codepoint s)) =
            [] := by
          apply List.filter_eq_nil_iff.2
          intro t ht
          simp [hall t ht]
        have hsplit : (s :: ss) = (s :: ss).take k ++ (s :: ss).drop k :=
          (List.take_append_drop k (s :: ss)).symm
        conv_rhs => rw [hsplit, List.filter_append, List.filter_append, hkeep, hdrop]
        simp [List.append_assoc]

/-! ## The decoder and Phase A, end to end -/

theorem utf8_to_ucs4_segments (text : List Nat) :
    ∃ ok segs tail, utf8_to_ucs4 (some text) = some (ok, layout 0 segs) ∧
      text = segs.flatten ++ tail ∧ (∀ s ∈ segs, seg_ok s) ∧ (ok = true → tail_ok tail) ∧
      (ok = false → ∃ b, tail.head? = some b ∧ b ≠ 0 ∧ lead_byte b = none) := by
  obtain ⟨ok, segs, tail, h, rest⟩ := utf8_loop_segments (text.length + 1) text 0 [] (by omega)
  exact ⟨ok, segs, tail, by simpa [utf8_to_ucs4] using h, rest⟩

theorem utf8_to_ucs4_of_segments (segs : List (List Nat)) (tail : List Nat)
    (hsegs : ∀ s ∈ segs, seg_ok s) (htail : tail_ok tail) :
    utf8_to_ucs4 (some (segs.flatten ++ tail)) = some (true, layout 0 segs) := by
  have := utf8_loop_of_segments segs tail htail hsegs ((segs.flatten ++ tail).length + 1) 0 []
    (by omega)
  simpa [utf8_to_ucs4] using this

/-- Phase A on a text the decoder cut into `segs` and `tail`. -/
theorem phase_a_segments (fns : List font) (ok : Bool) (segs : List (List Nat))
    (tail : List Nat)
    (hdec : utf8_to_ucs4 (some (segs.flatten ++ tail)) = some (ok, layout 0 segs)) :
    phase_a fns (segs.flatten ++ tail) =
      outcome.ok ((segs.filter (fun s => covered fns (seg_codepoint s))).flatten ++ tail,
        (segs.filter (fun s => !covered fns (seg_codepoint s))).map seg_warning) := by
  have := filter_loop_segments fns (segs.length + 1) segs [] tail (by omega)
  simp only [List.length_nil, Nat.cast_zero, List.nil_append] at this
  simp only [phase_a, hdec, layout_length, this]

theorem byte_range_segments (p : Nat → Bool) (tail : List Nat) :
    ∀ (segs : List (List Nat)) (pre : List Nat),
      ((layout pre.length segs).filter (fun c => p c.codepoint)).flatMap
          (byte_range (pre ++ segs.flatten ++ tail)) =
        (segs.filter (fun s => p (seg_codepoint s))).flatten := by
  intro segs
  induction segs with
  | nil => intro pre; simp [layout]
  | cons s ss ih =>
    intro pre
    have htext : pre ++ (s :: ss).flatten ++ tail = (pre ++ s) ++ ss.flatten ++ tail := by
      simp [List.append_assoc]
    have hoff : ((pre.length : Int) + s.length) = ((pre ++ s).length : Nat) := by simp
    have hrec := ih (pre ++ s)
    rw [← htext, ← hoff] at hrec
    have hrange : byte_range (pre ++ (s :: ss).flatten ++ tail)
        ⟨seg_codepoint s, pre.length, s.length⟩ = s := by
      simp only [byte_range, Int.toNat_ofNat, List.flatten_cons, List.append_assoc,
        List.drop_left', List.take_left']
    have hlay : layout (pre.length : Int) (s :: ss) =
        ⟨seg_codepoint s, pre.length, s.length⟩ :: layout (pre.length + s.length) ss := rfl
    rw [hlay]
    by_cases hp : p (seg_codepoint s) = true
    · have h1 : ∀ l : unicode_charlist,
          List.filter (fun c => p c.codepoint) (⟨seg_codepoint s, pre.length, s.length⟩ :: l) =
            ⟨seg_codepoint s, pre.length, s.length⟩ :: List.filter (fun c => p c.codepoint) l := by
        intro l
        simp [List.filter_cons, hp]
      have h2 : List.filter (fun s => p (seg_codepoint s)) (s :: ss) =
          s :: List.filter (fun s => p (seg_codepoint s)) ss := by
        simp [List.filter_cons, hp]
      rw [h1, List.flatMap_cons, hrange, hrec, h2, List.flatten_cons]
    · have h1 : ∀ l : unicode_charlist,
          List.filter (fun c => p c.codepoint) (⟨seg_codepoint s, pre.length, s.length⟩ :: l) =
            List.filter (fun c => p c.codepoint) l := by
        intro l
        simp [List.filter_cons, hp]
      have h2 : List.filter (fun s => p (seg_codepoint s)) (s :: ss) =
          List.filter (fun s => p (seg_codepoint s)) ss := by
        simp [List.filter_cons, hp]
      rw [h1, hrec, h2]

theorem dropWhile_segments (segs : List (List Nat)) (tail : List Nat)
    (hsegs : ∀ s ∈ segs, seg_ok s) (htail : tail_ok tail) :
    (segs.flatten ++ tail).dropWhile (fun b => b != 0) = tail := by
  have hne : ∀ b ∈ segs.flatten, (b != 0) = true := by
    intro b hb
    obtain ⟨s, hs, hbs⟩ := List.mem_flatten.1 hb
    simpa using seg_ok_bytes_ne_zero s (hsegs s hs) b hbs
  rw [List.dropWhile_append_of_pos hne]
  rcases htail with rfl | h0
  · rfl
  · cases tail with
    | nil => rfl
    | cons b bs =>
      simp only [List.head?_cons, Option.some.injEq] at h0
      subst h0
      simp [List.dropWhile_cons]

theorem takeWhile_segments (segs : List (List Nat)) (tail : List Nat)
    (hsegs : ∀ s ∈ segs, seg_ok s) (htail : tail_ok tail) :
    (segs.flatten ++ tail).takeWhile (fun b => b != 0) = segs.flatten := by
  have hne : ∀ b ∈ segs.flatten, (b != 0) = true := by
    intro b hb
    obtain ⟨s, hs, hbs⟩ := List.mem_flatten.1 hb
    simpa using seg_ok_bytes_ne_zero s (hsegs s hs) b hbs
  rw [List.takeWhile_append_of_pos hne]
  rcases htail with rfl | h0
  · simp
  · cases tail with
    | nil => simp
    | cons b bs =>
      simp only [List.head?_cons, Option.some.injEq] at h0
      subst h0
      simp [List.takeWhile_cons]

theorem layout_length_sum (segs : List (List Nat)) (off : Int) :
    ((layout off segs).map (fun c => c.length)).sum = (segs.flatten.length : Nat) := by
  induction segs generalizing off with
  | nil => simp [layout]
  | cons s ss ih => simp [layout, ih]

/-! ## Phase B -/

theorem cyclic_calls_append (fns : List font) (k k1 k2 : Nat) (t t1 t2 : List Nat)
    (es1 es2 : List event) (h1 : cyclic_calls fns k t es1 k1 t1)
    (h2 : cyclic_calls fns k1 t1 es2 k2 t2) : cyclic_calls fns k t (es1 ++ es2) k2 t2 := by
  induction h1 with
  | done k text => simpa using h2
  | call k text f es k1 text1 hf _ ih => exact cyclic_calls.call k text f _ k2 t2 hf (ih h2)

theorem draw_fonts_length_le (fs : List font) :
    ∀ text : List Nat, (draw_fonts fs text).1.length ≤ text.length := by
  induction fs with
  | nil => intro text; simp [draw_fonts]
  | cons f fs ih =>
    intro text
    rw [draw_fonts]
    by_cases hb : f.render text = 0
    · simp only [hb, if_true]
      exact ih text
    · simp only [hb, if_false]
      split
      · simp
      · exact le_trans (ih _) (by simp)

theorem draw_fonts_all_render (fs : List font) :
    ∀ text : List Nat, ∀ e ∈ (draw_fonts fs text).2, e.is_render = true := by
  induction fs with
  | nil => intro text; simp [draw_fonts]
  | cons f fs ih =>
    intro text
    rw [draw_fonts]
    by_cases hb : f.render text = 0
    · simp only [hb, if_true, List.mem_cons]
      rintro e (rfl | he)
      · rfl
      · exact ih text e he
    · simp only [hb, if_false]
      split
      · simp [event.is_render]
      · simp only [List.mem_cons]
        rintro e (rfl | he)
        · rfl
        · exact ih _ e he

/-- One pass of the font loop of Phase B makes its calls in cascade order, each on what the
call before left, and ends after the last font or with the text used up. -/
theorem draw_fonts_cyclic (fns : List font) (fs : List font) :
    ∀ (k : Nat) (text : List Nat), (∀ i, i < fs.length → fns[(k + i) % fns.length]? = fs[i]?) →
      cyclic_calls fns k text (draw_fonts fs text).2 (k + (draw_fonts fs text).2.length)
        (draw_fonts fs text).1 := by
  induction fs with
  | nil =>
    intro k text _
    simp only [draw_fonts, List.length_nil, Nat.add_zero]
    exact cyclic_calls.done k text
  | cons f fs ih =>
    intro k text hfs
    have hf : fns[k % fns.length]? = some f := by
      have := hfs 0 (by simp)
      simpa using this
    have hrest : ∀ t : List Nat, cyclic_calls fns (k + 1) t (draw_fonts fs t).2
        (k + 1 + (draw_fonts fs t).2.length) (draw_fonts fs t).1 := by
      intro t
      apply ih (k + 1) t
      intro i hi
      have := hfs (i + 1) (by simp only [List.length_cons]; omega)
      simp only [List.getElem?_cons_succ] at this
      rw [← this]
      congr 2
      omega
    rw [draw_fonts]
    by_cases hb : f.render text = 0
    · simp only [hb, if_true, List.length_cons]
      have h := cyclic_calls.call k text f _ _ _ hf (by
        have := hrest text
        rw [hb]
        simpa using this)
      rw [hb] at h
      have e : k + ((draw_fonts fs text).2.length + 1) = k + 1 + (draw_fonts fs text).2.length := by
        omega
      rw [e]
      exact h
    · simp only [hb, if_false]
      split
      · rename_i hempty
        simp only [List.length_singleton]
        exact cyclic_calls.call k text f [] _ _ hf (cyclic_calls.done _ _)
      · simp only [List.length_cons]
        have e : k + ((draw_fonts fs (List.drop (min (f.render text) text.length) text)).2.length
            + 1) = k + 1 +
              (draw_fonts fs (List.drop (min (f.render text) text.length) text)).2.length := by
          omega
        rw [e]
        exact cyclic_calls.call k text f _ _ _ hf (hrest _)

/-- A pass of the font loop of Phase B ends after the last font or with the text used up. -/
theorem draw_fonts_complete (fs : List font) :
    ∀ text : List Nat,
      (draw_fonts fs text).2.length = fs.length ∨ (draw_fonts fs text).1 = [] := by
  induction fs with
  | nil => intro text; simp [draw_fonts]
  | cons f fs ih =>
    intro text
    rw [draw_fonts]
    by_cases hb : f.render text = 0
    · simp only [hb, if_true, List.length_cons]
      rcases ih text with h | h
      · left; omega
      · right; exact h
    · simp only [hb, if_false]
      split
      · rename_i hempty
        right
        simpa using hempty
      · simp only [List.length_cons]
        rcases ih (List.drop (min (f.render text) text.length) text) with h | h
        · left; omega
        · right; exact h

theorem draw_loop_nil (fuel : Nat) (fns : List font) :
    draw_loop (fuel + 1) fns [] = outcome.ok ([], []) := by
  simp [draw_loop]

theorem filter_render_pass (fs : List font) (text : List Nat) :
    (draw_fonts fs text).2.filter event.is_render = (draw_fonts fs text).2 :=
  List.filter_eq_self.2 (draw_fonts_all_render fs text)

/-- Phase B returns, and its `render` calls go through the cascade cyclically. -/
theorem draw_loop_cyclic (fns : List font) :
    ∀ (fuel : Nat) (text : List Nat) (k : Nat), text.length < fuel →
      (∀ i, i < fns.length → (k + i) % fns.length = i) →
      ∃ rest ev k1, draw_loop fuel fns text = outcome.ok (rest, ev) ∧
        cyclic_calls fns k text (ev.filter event.is_render) k1 rest := by
  intro fuel
  induction fuel with
  | zero => intro text _ h; omega
  | succ fuel ih =>
    intro text k hfuel hk
    cases text with
    | nil => exact ⟨[], [], k, draw_loop_nil fuel fns, cyclic_calls.done k []⟩
    | cons b bs =>
      have hpass := draw_fonts_cyclic fns fns k (b :: bs) (by
        intro i hi
        rw [hk i hi])
      by_cases hsame : (b :: bs).length = (draw_fonts fns (b :: bs)).1.length
      · refine ⟨(draw_fonts fns (b :: bs)).1,
          (draw_fonts fns (b :: bs)).2 ++ [event.warn_text (draw_fonts fns (b :: bs)).1],
          k + (draw_fonts fns (b :: bs)).2.length, ?_, ?_⟩
        · rw [draw_loop]
          simp only [List.isEmpty_cons, Bool.false_eq_true, if_false, if_pos hsame]
        · rw [List.filter_append, filter_render_pass]
          simpa [event.is_render] using hpass
      · have hlt : (draw_fonts fns (b :: bs)).1.length < (b :: bs).length := by
          have := draw_fonts_length_le fns (b :: bs)
          omega
        have hunf : draw_loop (fuel + 1) fns (b :: bs) =
            match draw_loop fuel fns (draw_fonts fns (b :: bs)).1 with
            | outcome.ok (text2, ev) => outcome.ok (text2, (draw_fonts fns (b :: bs)).2 ++ ev)
            | outcome.out_of_range => outcome.out_of_range
            | outcome.out_of_bounds => outcome.out_of_bounds
            | outcome.out_of_fuel => outcome.out_of_fuel := by
          rw [draw_loop]
          simp only [List.isEmpty_cons, Bool.false_eq_true, if_false, if_neg hsame]
        rcases draw_fonts_complete fns (b :: bs) with hfull | hempty
        · obtain ⟨rest, ev, k1, hrec, hcyc⟩ := ih (draw_fonts fns (b :: bs)).1
            (k + (draw_fonts fns (b :: bs)).2.length) (by omega) (by
              intro i hi
              rw [hfull]
              have := hk i hi
              rw [Nat.add_right_comm, Nat.add_mod_right]
              exact this)
          refine ⟨rest, (draw_fonts fns (b :: bs)).2 ++ ev, k1, ?_, ?_⟩
          · rw [hunf, hrec]
          · rw [List.filter_append, filter_render_pass]
            exact cyclic_calls_append fns _ _ _ _ _ _ _ _ hpass hcyc
        · cases fuel with
          | zero => simp only [List.length_cons] at hfuel; omega
          | succ fuel =>
            refine ⟨[], (draw_fonts fns (b :: bs)).2,
              k + (draw_fonts fns (b :: bs)).2.length, ?_, ?_⟩
            · rw [hunf, hempty, draw_loop_nil]
              simp
            · rw [filter_render_pass]
              rw [hempty] at hpass
              exact hpass


/-! ## Which calls Phase B makes, and where it stops -/

/-- A pass over the fonts entered with a text that is not empty calls `render` on texts that
are not empty. -/
theorem draw_fonts_texts_ne (fs : List font) :
    ∀ text : List Nat, text ≠ [] →
      ∀ p t b, event.render p t b ∈ (draw_fonts fs text).2 → t ≠ [] := by
  induction fs with
  | nil => intro text _ p t b h; simp [draw_fonts] at h
  | cons f fs ih =>
    intro text hne p t b h
    rw [draw_fonts] at h
    by_cases hb : f.render text = 0
    · simp only [hb, if_true, List.mem_cons, event.render.injEq] at h
      rcases h with ⟨_, rfl, _⟩ | h
      · exact hne
      · exact ih text hne p t b h
    · simp only [hb, if_false] at h
      by_cases he : (List.drop (min (f.render text) text.length) text).isEmpty = true
      · simp only [he, if_true, List.mem_singleton, event.render.injEq] at h
        obtain ⟨_, rfl, _⟩ := h
        exact hne
      · simp only [he, if_false, List.mem_cons, event.render.injEq, Bool.false_eq_true] at h
        rcases h with ⟨_, rfl, _⟩ | h
        · exact hne
        · refine ih _ ?_ p t b h
          intro e
          rw [e] at he
          simp at he

/-- A pass over the fonts that leaves a text that is not empty as long as it was has called
every font on it, and every font has returned 0. -/
theorem draw_fonts_idle (fs : List font) (text : List Nat) (hne : text ≠ [])
    (hlen : (draw_fonts fs text).1.length = text.length) :
    draw_fonts fs text = (text, fs.map (fun f => event.render f.ptr text 0)) := by
  induction fs with
  | nil => rfl
  | cons f fs ih =>
    have hpos : 0 < text.length := List.length_pos.2 hne
    rw [draw_fonts] at hlen ⊢
    by_cases hb : f.render text = 0
    · simp only [hb, if_true] at hlen ⊢
      rw [ih hlen]
      simp
    · exfalso
      simp only [hb, if_false] at hlen
      have hshort : (List.drop (min (f.render text) text.length) text).length < text.length := by
        rw [List.length_drop]
        have : 0 < min (f.render text) text.length := by
          rw [Nat.lt_min]
          exact ⟨Nat.pos_of_ne_zero hb, hpos⟩
        omega
      by_cases he : (List.drop (min (f.render text) text.length) text).isEmpty = true
      · simp only [he, if_true] at hlen
        omega
      · simp only [he, if_false, Bool.false_eq_true] at hlen
        have := draw_fonts_length_le fs (List.drop (min (f.render text) text.length) text)
        omega

/-- The calls of a cyclic run by their number: each goes to the font of its turn, and the
call after it, if there is one, is on the text it leaves. -/
theorem cyclic_calls_get (fns : List font) (k : Nat) (text : List Nat) (calls : List event)
    (k1 : Nat) (rest : List Nat) (h : cyclic_calls fns k text calls k1 rest) :
    ∀ i e, calls[i]? = some e →
      ∃ f t, fns[(k + i) % fns.length]? = some f ∧ e = event.render f.ptr t (f.render t) ∧
        (calls[i + 1]? = none → rest = t.drop (min (f.render t) t.length)) ∧
        ∀ e1, calls[i + 1]? = some e1 →
          ∃ g, fns[(k + i + 1) % fns.length]? = some g ∧
            e1 = event.render g.ptr (t.drop (min (f.render t) t.length))
              (g.render (t.drop (min (f.render t) t.length))) := by
  induction h with
  | done k text => intro i e hi; simp at hi
  | call k text f es k1 text1 hf hrest ih =>
    intro i e hi
    cases i with
    | zero =>
      simp only [List.getElem?_cons_zero, Option.some.injEq] at hi
      subst hi
      refine ⟨f, text, by simpa using hf, rfl, ?_, ?_⟩
      · intro hnone
        cases hrest with
        | done => rfl
        | call _ _ g es1 _ _ hg hrest1 => simp at hnone
      · intro e1 he1
        cases hrest with
        | done => simp at he1
        | call _ _ g es1 _ _ hg hrest1 =>
          simp only [zero_add, List.getElem?_cons_succ, List.getElem?_cons_zero,
            Option.some.injEq] at he1
          subst he1
          exact ⟨g, by simpa using hg, rfl⟩
    | succ j =>
      simp only [List.getElem?_cons_succ] at hi
      obtain ⟨f1, t, hf1, he, hlast, hnext⟩ := ih j e hi
      have e1 : k + (j + 1) = k + 1 + j := by omega
      have e2 : k + (j + 1) + 1 = k + 1 + j + 1 := by omega
      refine ⟨f1, t, by rw [e1]; exact hf1, he, ?_, ?_⟩
      · intro hnone
        exact hlast (by simpa using hnone)
      · intro e0 he0
        rw [e2]
        exact hnext e0 (by simpa using he0)

/-- Where Phase B stops: its `render` calls are on texts that are not empty; when nothing is
left there is no other event; when something is left, the last calls are one whole pass in
which every font returned 0 on it, after whole passes, and the warning follows. -/
theorem draw_loop_shape (fns : List font) :
    ∀ (fuel : Nat) (text rest : List Nat) (ev : List event),
      draw_loop fuel fns text = outcome.ok (rest, ev) →
      (∀ p t b, event.render p t b ∈ ev.filter event.is_render → t ≠ []) ∧
        (rest = [] → ev = ev.filter event.is_render) ∧
        (rest ≠ [] → ev = ev.filter event.is_render ++ [event.warn_text rest] ∧
          ∃ pre, ev.filter event.is_render =
              pre ++ fns.map (fun f => event.render f.ptr rest 0) ∧
            fns.length ∣ pre.length) := by
  intro fuel
  induction fuel with
  | zero => intro text rest ev h; simp [draw_loop] at h
  | succ fuel ih =>
    intro text rest ev h
    cases text with
    | nil =>
      simp only [draw_loop, List.isEmpty_nil, if_true, outcome.ok.injEq, Prod.mk.injEq] at h
      obtain ⟨rfl, rfl⟩ := h
      simp
    | cons b bs =>
      have hne : (b :: bs) ≠ [] := by simp
      have htexts := draw_fonts_texts_ne fns (b :: bs) hne
      have hpass := filter_render_pass fns (b :: bs)
      rw [draw_loop] at h
      simp only [List.isEmpty_cons, Bool.false_eq_true, if_false] at h
      by_cases hsame : (b :: bs).length = (draw_fonts fns (b :: bs)).1.length
      · simp only [if_pos hsame, outcome.ok.injEq, Prod.mk.injEq] at h
        obtain ⟨rfl, rfl⟩ := h
        have hidle := draw_fonts_idle fns (b :: bs) hne hsame.symm
        have hfilter : ((draw_fonts fns (b :: bs)).2 ++
            [event.warn_text (draw_fonts fns (b :: bs)).1]).filter event.is_render =
            (draw_fonts fns (b :: bs)).2 := by
          rw [List.filter_append, hpass]
          simp [event.is_render]
        rw [hfilter]
        refine ⟨htexts, ?_, ?_⟩
        · intro e
          rw [hidle] at e
          exact absurd e hne
        · intro _
          refine ⟨rfl, [], ?_, by simp⟩
          rw [hidle]
          rfl
      · simp only [if_neg hsame] at h
        cases hrec : draw_loop fuel fns (draw_fonts fns (b :: bs)).1 with
        | ok r =>
          rw [hrec] at h
          simp only [outcome.ok.injEq, Prod.mk.injEq] at h
          obtain ⟨rfl, rfl⟩ := h
          obtain ⟨h1, h2, h3⟩ := ih _ r.1 r.2 hrec
          have hfilter : ((draw_fonts fns (b :: bs)).2 ++ r.2).filter event.is_render =
              (draw_fonts fns (b :: bs)).2 ++ r.2.filter event.is_render := by
            rw [List.filter_append, hpass]
          rw [hfilter]
          refine ⟨?_, ?_, ?_⟩
          · intro p t c hmem
            rcases List.mem_append.1 hmem with hmem | hmem
            · exact htexts p t c hmem
            · exact h1 p t c hmem
          · intro e
            rw [← h2 e]
          · intro hrest
            obtain ⟨hev, pre, hpre, hdvd⟩ := h3 hrest
            have hfull : (draw_fonts fns (b :: bs)).2.length = fns.length := by
              rcases draw_fonts_complete fns (b :: bs) with hc | hc
              · exact hc
              · exfalso
                rw [hc] at hrec
                cases fuel with
                | zero => simp [draw_loop] at hrec
                | succ m =>
                  rw [draw_loop_nil] at hrec
                  simp only [outcome.ok.injEq] at hrec
                  rw [← hrec] at hrest
                  exact hrest rfl
            refine ⟨?_, (draw_fonts fns (b :: bs)).2 ++ pre, ?_, ?_⟩
            · conv_lhs => rw [hev]
              rw [List.append_assoc]
            · rw [hpre, List.append_assoc]
            · rw [List.length_append, hfull]
              exact Dvd.dvd.add (dvd_refl _) hdvd
        | out_of_range => rw [hrec] at h; simp at h
        | out_of_bounds => rw [hrec] at h; simp at h
        | out_of_fuel => rw [hrec] at h; simp at h

theorem idle_round_get (fns : List font) (rest : List Nat) (j : Nat) (e : event)
    (h : (fns.map (fun f => event.render f.ptr rest 0))[j]? = some e) :
    ∃ g : font, e = event.render g.ptr rest 0 := by
  rw [List.getElem?_map] at h
  cases hg : fns[j]? with
  | none => rw [hg] at h; simp at h
  | some g =>
    rw [hg] at h
    simp only [Option.map_some', Option.some.injEq] at h
    exact ⟨g, h.symm⟩

/-- In a list of calls that ends with a pass in which every font returned 0, the last call
returned 0. -/
theorem last_call_idle (fns : List font) (rest : List Nat) (pre calls : List event)
    (hcalls : calls = pre ++ fns.map (fun f => event.render f.ptr rest 0)) (hfns : fns ≠ [])
    (i : Nat) (p : Nat) (t : List Nat) (b : Nat) (hi : calls[i]? = some (event.render p t b))
    (hnone : calls[i + 1]? = none) : b = 0 ∧ i + 1 = pre.length + fns.length := by
  have hlen : calls.length = pre.length + fns.length := by
    rw [hcalls, List.length_append, List.length_map]
  have hpos : 0 < fns.length := List.length_pos.2 hfns
  have h1 : i < calls.length := by
    by_contra hge
    rw [List.getElem?_eq_none (by omega)] at hi
    simp at hi
  have h2 : calls.length ≤ i + 1 := by
    by_contra hlt
    rw [List.getElem?_eq_getElem (by omega)] at hnone
    simp at hnone
  rw [hcalls, List.getElem?_append_right (by omega)] at hi
  obtain ⟨g, hg⟩ := idle_round_get fns rest _ _ hi
  simp only [event.render.injEq] at hg
  exact ⟨hg.2.2, by omega⟩

/-! ## The status check of `render` when cairo accepts every text -/

theorem render_checked_of_accepts (f : checked_font) (text : List Nat)
    (h : f.accepts text = true) : f.render_checked text = some (f.tofont.render text) := by
  simp [checked_font.render_checked, h]

/-- With fonts whose shaping call never fails, a pass over the fonts with the status check is
the pass without it. -/
theorem draw_fonts_checked_of_accepts (fs : List checked_font)
    (hacc : ∀ f ∈ fs, ∀ t, f.accepts t = true) :
    ∀ text : List Nat,
      draw_fonts_checked fs text =
        ((draw_fonts (fs.map (fun f => f.tofont)) text).2,
          draw_end.returned (draw_fonts (fs.map (fun f => f.tofont)) text).1) := by
  induction fs with
  | nil => intro text; rfl
  | cons f fs ih =>
    intro text
    have hf := render_checked_of_accepts f text (hacc f (List.mem_cons_self _ _) text)
    have hrest := ih (fun g hg => hacc g (List.mem_cons_of_mem _ hg))
    rw [draw_fonts_checked, List.map_cons, draw_fonts, hf]
    by_cases hb : f.tofont.render text = 0
    · simp only [hb, if_true, hrest text]
    · simp only [hb, if_false]
      by_cases he : (List.drop (min (f.tofont.render text) text.length) text).isEmpty = true
      · simp only [he, if_true]
      · simp only [he, if_false, Bool.false_eq_true, hrest]

/-- With fonts whose shaping call never fails, Phase B with the status check is Phase B
without it. -/
theorem draw_loop_checked_of_accepts (fns : List checked_font)
    (hacc : ∀ f ∈ fns, ∀ t, f.accepts t = true) :
    ∀ (fuel : Nat) (text rest : List Nat) (ev : List event),
      draw_loop fuel (fns.map (fun f => f.tofont)) text = outcome.ok (rest, ev) →
      draw_loop_checked fuel fns text = (ev, draw_end.returned rest) := by
  intro fuel
  induction fuel with
  | zero => intro text rest ev h; simp [draw_loop] at h
  | succ fuel ih =>
    intro text rest ev h
    cases text with
    | nil =>
      simp only [draw_loop, List.isEmpty_nil, if_true, outcome.ok.injEq, Prod.mk.injEq] at h
      obtain ⟨rfl, rfl⟩ := h
      simp [draw_loop_checked]
    | cons b bs =>
      have hpass := draw_fonts_checked_of_accepts fns hacc (b :: bs)
      rw [draw_loop] at h
      simp only [List.isEmpty_cons, Bool.false_eq_true, if_false] at h
      rw [draw_loop_checked]
      simp only [List.isEmpty_cons, Bool.false_eq_true, if_false, hpass]
      by_cases hsame : (b :: bs).length =
          (draw_fonts (fns.map (fun f => f.tofont)) (b :: bs)).1.length
      · simp only [if_pos hsame, outcome.ok.injEq, Prod.mk.injEq] at h ⊢
        obtain ⟨rfl, rfl⟩ := h
        exact ⟨rfl, rfl⟩
      · simp only [if_neg hsame] at h ⊢
        cases hrec : draw_loop fuel (fns.map (fun f => f.tofont))
            (draw_fonts (fns.map (fun f => f.tofont)) (b :: bs)).1 with
        | ok r =>
          rw [hrec] at h
          simp only [outcome.ok.injEq, Prod.mk.injEq] at h
          obtain ⟨rfl, rfl⟩ := h
          rw [ih _ r.1 r.2 hrec]
        | out_of_range => rw [hrec] at h; simp at h
        | out_of_bounds => rw [hrec] at h; simp at h
        | out_of_fuel => rw [hrec] at h; simp at h

/-! ## Both phases return on every text -/

/-- Phase A returns on every text, also when decoding fails part-way: `string::erase` is
never called out of range and no loop runs out of fuel. -/
theorem phase_a_total (fns : List font) (text : List Nat) :
    ∃ text1 ev, phase_a fns text = outcome.ok (text1, ev) := by
  obtain ⟨ok, segs, tail, hd, htext, _⟩ := utf8_to_ucs4_segments text
  subst htext
  exact ⟨_, _, phase_a_segments fns ok segs tail hd⟩

/-- Phase B returns on every text. -/
theorem phase_b_total (fns : List font) (text : List Nat) :
    ∃ rest ev, phase_b fns text = outcome.ok (rest, ev) := by
  obtain ⟨rest, ev, _, h, _⟩ := draw_loop_cyclic fns (text.length + 1) text 0 (by omega) (by
    intro i hi
    rw [Nat.zero_add, Nat.mod_eq_of_lt hi])
  exact ⟨rest, ev, h⟩

/-- The body of `operator<<` after the sort returns on every text and font order. -/
theorem render_text_total (fns : List font) (contents : List Nat) :
    ∃ rest ev, render_text fns contents = outcome.ok (rest, ev) := by
  obtain ⟨text1, ev1, h1⟩ := phase_a_total fns contents
  obtain ⟨rest, ev2, h2⟩ := phase_b_total fns text1
  exact ⟨rest, ev1 ++ ev2, by simp [render_text, h1, h2]⟩

/-- With fonts whose shaping call never fails, the body of `operator<<` with the status check
returns what the body without it returns. -/
theorem render_text_checked_of_accepts (fns : List checked_font)
    (hacc : ∀ f ∈ fns, ∀ t, f.accepts t = true) (contents : List Nat) :
    ∃ rest ev, render_text (fns.map (fun f => f.tofont)) contents = outcome.ok (rest, ev) ∧
      render_text_checked fns contents = outcome.ok (ev, draw_end.returned rest) := by
  obtain ⟨text1, ev1, h1⟩ := phase_a_total (fns.map (fun f => f.tofont)) contents
  obtain ⟨rest, ev2, h2⟩ := phase_b_total (fns.map (fun f => f.tofont)) text1
  have hloop := draw_loop_checked_of_accepts fns hacc (text1.length + 1) text1 rest ev2 h2
  refine ⟨rest, ev1 ++ ev2, by simp [render_text, h1, h2], ?_⟩
  simp only [render_text_checked, h1, outcome.bind, hloop]

/-! ## The sort on small cascades -/

/-- As long as the library sorts by plain insertion, that is up to 16 fonts, the sort does put
the preferred font first and keeps the others in order (checked on the addresses `1..n`). -/
theorem font_order_up_to_16 :
    ∀ n, n < 17 → ∀ k, k < n + 1 → 1 ≤ k →
      font_order (context_of n) ⟨[], k⟩ =
        outcome.ok (k :: ((List.range n).map (fun i => i + 1)).filter (fun p => p != k)) := by
  decide

/-! ## The statements C1 to C10 -/

/-- C1: for every scalar `s` with `1 ≤ s ≤ 0x1FFFFF`, `utf8_to_ucs4` run on the bytes written by
`ucs4_to_utf8 s` followed by the terminating NUL returns `true` and a list of exactly one
character, of codepoint `s`, offset `0` and length the byte count `ucs4_to_utf8 s` returned. -/
theorem C1_decode_encode_roundtrip (s : Nat) (h1 : 1 ≤ s) (h2 : s ≤ 0x1FFFFF) :
    utf8_to_ucs4 (some ((ucs4_to_utf8 s).2 ++ [0])) =
      some (true, [⟨s, 0, ((ucs4_to_utf8 s).1 : Nat)⟩]) := by
  obtain ⟨hok, hcp, hlen⟩ := encode_segment s h1 h2
  have h := utf8_loop_of_segments [(ucs4_to_utf8 s).2] [0] (Or.inr rfl)
    (by simpa using hok) (((ucs4_to_utf8 s).2 ++ [0]).length + 1) 0 [] (by simp)
  simp only [List.flatten_cons, List.flatten_nil, List.append_nil, List.nil_append] at h
  simp only [utf8_to_ucs4, h, layout, hcp, hlen]

/-- C1 at the scalar U+20AC, of the 3-byte form. -/
theorem C1_decode_encode_roundtrip_witness :
    utf8_to_ucs4 (some ((ucs4_to_utf8 0x20AC).2 ++ [0])) =
      some (true, [⟨0x20AC, 0, ((ucs4_to_utf8 0x20AC).1 : Nat)⟩]) :=
  C1_decode_encode_roundtrip 0x20AC (by decide) (by decide)

/-- C2: for every non-null byte string `src` (of 8-bit bytes), `utf8_to_ucs4` returns `false` if
and only if its left-to-right scan, which stops at the first zero byte, reaches the start of a
sequence that holds a byte of the form `10xxxxxx` or `11111xxx`; in every other case it
returns `true`. -/
theorem C2_decode_fails_iff_bad_lead (src : List Nat) (hbytes : ∀ b ∈ src, b < 256) :
    ((∃ l, utf8_to_ucs4 (some src) = some (false, l)) ↔
        ∃ b rest, seq_start src (b :: rest) ∧ bad_lead b) ∧
      ((∃ l, utf8_to_ucs4 (some src) = some (true, l)) ↔
        ¬ ∃ b rest, seq_start src (b :: rest) ∧ bad_lead b) := by
  have hiff := utf8_loop_false_iff (src.length + 1) src 0 [] (by omega) hbytes
  refine ⟨hiff, ?_⟩
  rw [← hiff]
  obtain ⟨ok, chars, h⟩ := utf8_to_ucs4_total src
  simp only [utf8_to_ucs4] at h ⊢
  rw [h]
  cases ok <;> simp

/-- C2 at the string `41 80`. -/
theorem C2_decode_fails_iff_bad_lead_witness :
    ((∃ l, utf8_to_ucs4 (some [0x41, 0x80]) = some (false, l)) ↔
        ∃ b rest, seq_start [0x41, 0x80] (b :: rest) ∧ bad_lead b) ∧
      ((∃ l, utf8_to_ucs4 (some [0x41, 0x80]) = some (true, l)) ↔
        ¬ ∃ b rest, seq_start [0x41, 0x80] (b :: rest) ∧ bad_lead b) :=
  C2_decode_fails_iff_bad_lead [0x41, 0x80] (by decide)

/-- C3, the code at failing inputs.  On the text `E3 81 1B 82` (the three bytes of `U+3042`
with an escape character put before the last) `utf8_to_ucs4` returns `false` with the partial
list `[U+00C1, U+001B]`; a font with glyphs for all but control characters covers the first;
Phase A goes on with the partial list, logs the drop of `U+001B` and erases it, which leaves
`E3 81 82`, and Phase B has the font draw these three bytes: the block is not rendered as
empty.  On the text `41 80` Phase A keeps `A` and the first `render` call of Phase B throws
`application_error`, since cairo refuses the text: nothing is drawn, and `operator<<` is left
by the exception of `render`, not on account of the decoder. -/
theorem C3_decode_failure_still_renders :
    utf8_to_ucs4 (some [0xE3, 0x81, 0x1B, 0x82]) =
        some (false, [⟨0xC1, 0, 2⟩, ⟨0x1B, 2, 1⟩]) ∧
      render_text_checked [font_printable] [0xE3, 0x81, 0x1B, 0x82] =
        outcome.ok
          ([event.warn_char [0x1B] 0x1B, event.render 6 [0xE3, 0x81, 0x82] 3],
            draw_end.returned []) ∧
      utf8_to_ucs4 (some [0x41, 0x80]) = some (false, [⟨0x41, 0, 1⟩]) ∧
      render_text_checked [font_printable] [0x41, 0x80] =
        outcome.ok ([], draw_end.application_error 6 [0x41, 0x80]) := by
  decide

/-- C4 as stated fails when the text holds a zero byte: the text `41 00 42` decodes
successfully into the one character `'A'`, which the font covers, yet Phase A leaves all three
bytes, not the byte range `41` of the covered character alone. -/
theorem C4_counterexample_embedded_nul :
    utf8_to_ucs4 (some [0x41, 0, 0x42]) = some (true, [⟨0x41, 0, 1⟩]) ∧
      phase_a [font_every] [0x41, 0, 0x42] = outcome.ok ([0x41, 0, 0x42], []) ∧
      (([⟨0x41, 0, 1⟩] : unicode_charlist).filter
          (fun c => covered [font_every] c.codepoint)).flatMap (byte_range [0x41, 0, 0x42]) =
        [0x41] := by
  decide

/-- C4, amended: for every text that decodes successfully and every cascade, Phase A returns,
and the text it leaves is the concatenation, in original order, of the byte ranges of exactly
those decoded characters that at least one font of the cascade covers, followed by the part of
the text the decoder never read: the bytes from the first zero byte on, which is nothing when
the text holds no zero byte. -/
theorem C4_phase_a_keeps_covered (fns : List font) (text : List Nat)
    (chars : unicode_charlist) (hdec : utf8_to_ucs4 (some text) = some (true, chars)) :
    ∃ ev,
      phase_a fns text =
        outcome.ok
          ((chars.filter (fun c => covered fns c.codepoint)).flatMap (byte_range text) ++
            text.dropWhile (fun b => b != 0), ev) ∧
      ((∀ b ∈ text, b ≠ 0) →
        phase_a fns text =
          outcome.ok
            ((chars.filter (fun c => covered fns c.codepoint)).flatMap (byte_range text),
              ev)) := by
  obtain ⟨ok, segs, tail, hd, htext, hsegs, htrue, _⟩ := utf8_to_ucs4_segments text
  rw [hdec] at hd
  simp only [Option.some.injEq, Prod.mk.injEq] at hd
  obtain ⟨rfl, rfl⟩ := hd
  subst htext
  have hr := byte_range_segments (fun cp => covered fns cp) tail segs []
  simp only [List.length_nil, Nat.cast_zero, List.nil_append] at hr
  have hmain : phase_a fns (segs.flatten ++ tail) =
      outcome.ok
        (((layout 0 segs).filter (fun c => covered fns c.codepoint)).flatMap
            (byte_range (segs.flatten ++ tail)) ++
          (segs.flatten ++ tail).dropWhile (fun b => b != 0),
          (segs.filter (fun s => !covered fns (seg_codepoint s))).map seg_warning) := by
    rw [phase_a_segments fns true segs tail hdec, hr,
      dropWhile_segments segs tail hsegs (htrue rfl)]
  refine ⟨_, hmain, ?_⟩
  intro hne
  have hnil : (segs.flatten ++ tail).dropWhile (fun b => b != 0) = [] := by
    apply List.dropWhile_eq_nil_iff.2
    intro b hb
    simpa using hne b hb
  rw [hmain, hnil, List.append_nil]

/-- C4, amended, at the text `aAb` and a cascade with glyphs for capitals only. -/
theorem C4_phase_a_keeps_covered_witness :
    ∃ ev,
      phase_a [font_upper] [0x61, 0x41, 0x62] =
        outcome.ok
          ((([⟨0x61, 0, 1⟩, ⟨0x41, 1, 1⟩, ⟨0x62, 2, 1⟩] : unicode_charlist).filter
              (fun c => covered [font_upper] c.codepoint)).flatMap
              (byte_range [0x61, 0x41, 0x62]) ++
            ([0x61, 0x41, 0x62] : List Nat).dropWhile (fun b => b != 0), ev) ∧
      ((∀ b ∈ ([0x61, 0x41, 0x62] : List Nat), b ≠ 0) →
        phase_a [font_upper] [0x61, 0x41, 0x62] =
          outcome.ok
            ((([⟨0x61, 0, 1⟩, ⟨0x41, 1, 1⟩, ⟨0x62, 2, 1⟩] : unicode_charlist).filter
                (fun c => covered [font_upper] c.codepoint)).flatMap
                (byte_range [0x61, 0x41, 0x62]), ev)) :=
  C4_phase_a_keeps_covered [font_upper] [0x61, 0x41, 0x62]
    [⟨0x61, 0, 1⟩, ⟨0x41, 1, 1⟩, ⟨0x62, 2, 1⟩] (by decide)

/-- C5: for every text that decodes successfully and every cascade, Phase A returns a text
that decodes successfully again, and Phase A run on that text with the same cascade logs no
dropped character and returns the same byte string. -/
theorem C5_phase_a_idempotent (fns : List font) (text : List Nat) (chars : unicode_charlist)
    (hdec : utf8_to_ucs4 (some text) = some (true, chars)) :
    ∃ text1 ev, phase_a fns text = outcome.ok (text1, ev) ∧
      (∃ chars1, utf8_to_ucs4 (some text1) = some (true, chars1)) ∧
      phase_a fns text1 = outcome.ok (text1, []) := by
  obtain ⟨ok, segs, tail, hd, htext, hsegs, htrue, _⟩ := utf8_to_ucs4_segments text
  rw [hdec] at hd
  simp only [Option.some.injEq, Prod.mk.injEq] at hd
  obtain ⟨rfl, rfl⟩ := hd
  subst htext
  have hkept : ∀ s ∈ segs.filter (fun s => covered fns (seg_codepoint s)), seg_ok s :=
    fun s hs => hsegs s (List.mem_filter.1 hs).1
  have hdec1 := utf8_to_ucs4_of_segments _ tail hkept (htrue rfl)
  refine ⟨_, _, phase_a_segments fns true segs tail hdec, ⟨_, hdec1⟩, ?_⟩
  rw [phase_a_segments fns true _ tail hdec1, List.filter_filter, List.filter_filter]
  simp

/-- C5 at the text `aAb` and a cascade with glyphs for capitals only. -/
theorem C5_phase_a_idempotent_witness :
    ∃ text1 ev, phase_a [font_upper] [0x61, 0x41, 0x62] = outcome.ok (text1, ev) ∧
      (∃ chars1, utf8_to_ucs4 (some text1) = some (true, chars1)) ∧
      phase_a [font_upper] text1 = outcome.ok (text1, []) :=
  C5_phase_a_idempotent [font_upper] [0x61, 0x41, 0x62]
    [⟨0x61, 0, 1⟩, ⟨0x41, 1, 1⟩, ⟨0x62, 2, 1⟩] (by decide)

/-- C6 as stated fails when the content holds a zero byte: Phase A leaves the three bytes
`41 00 42`, and decoding them again yields one character of length 1, not 3. -/
theorem C6_counterexample_embedded_nul :
    phase_a [font_every] [0x41, 0, 0x42] = outcome.ok ([0x41, 0, 0x42], []) ∧
      utf8_to_ucs4 (some [0x41, 0, 0x42]) = some (true, [⟨0x41, 0, 1⟩]) ∧
      (([⟨0x41, 0, 1⟩] : unicode_charlist).map (fun c => c.length)).sum ≠
        (([0x41, 0, 0x42] : List Nat).length : Int) := by
  decide

/-- C6, amended: for every content that decodes successfully and every cascade, decoding the
Phase A output again succeeds and yields characters whose byte lengths sum to the number of
bytes of that output before its first zero byte, which is its total byte length when it holds
no zero byte. -/
theorem C6_redecoded_lengths_sum (fns : List font) (text : List Nat)
    (chars : unicode_charlist) (hdec : utf8_to_ucs4 (some text) = some (true, chars)) :
    ∃ text1 ev chars1, phase_a fns text = outcome.ok (text1, ev) ∧
      utf8_to_ucs4 (some text1) = some (true, chars1) ∧
      (chars1.map (fun c => c.length)).sum =
        (((text1.takeWhile (fun b => b != 0)).length : Nat) : Int) ∧
      ((∀ b ∈ text, b ≠ 0) →
        (chars1.map (fun c => c.length)).sum = ((text1.length : Nat) : Int)) := by
  obtain ⟨ok, segs, tail, hd, htext, hsegs, htrue, _⟩ := utf8_to_ucs4_segments text
  rw [hdec] at hd
  simp only [Option.some.injEq, Prod.mk.injEq] at hd
  obtain ⟨rfl, rfl⟩ := hd
  subst htext
  have hkept : ∀ s ∈ segs.filter (fun s => covered fns (seg_codepoint s)), seg_ok s :=
    fun s hs => hsegs s (List.mem_filter.1 hs).1
  have hdec1 := utf8_to_ucs4_of_segments _ tail hkept (htrue rfl)
  refine ⟨_, _, _, phase_a_segments fns true segs tail hdec, hdec1, ?_, ?_⟩
  · rw [takeWhile_segments _ tail hkept (htrue rfl), layout_length_sum]
  · intro hne
    have htail : tail = [] := by
      rcases htrue rfl with h | h
      · exact h
      · cases tail with
        | nil => rfl
        | cons b bs =>
          simp only [List.head?_cons, Option.some.injEq] at h
          exact absurd h (hne b (by simp))
    subst htail
    rw [layout_length_sum]
    simp

/-- C6, amended, at the text `aAb` and a cascade with glyphs for capitals only. -/
theorem C6_redecoded_lengths_sum_witness :
    ∃ text1 ev chars1, phase_a [font_upper] [0x61, 0x41, 0x62] = outcome.ok (text1, ev) ∧
      utf8_to_ucs4 (some text1) = some (true, chars1) ∧
      (chars1.map (fun c => c.length)).sum =
        (((text1.takeWhile (fun b => b != 0)).length : Nat) : Int) ∧
      ((∀ b ∈ ([0x61, 0x41, 0x62] : List Nat), b ≠ 0) →
        (chars1.map (fun c => c.length)).sum = ((text1.length : Nat) : Int)) :=
  C6_redecoded_lengths_sum [font_upper] [0x61, 0x41, 0x62]
    [⟨0x61, 0, 1⟩, ⟨0x41, 1, 1⟩, ⟨0x62, 2, 1⟩] (by decide)

/-- C7, the code at a failing input: with 17 registered fonts and `fontindex = 10` the fonts
are tried in the order 1, 9, 17, 16, ..., so the preferred tenth font is not tried first and
the others do not keep their relative order. -/
theorem C7_preferred_font_not_first :
    font_order (context_of 17) ⟨[0x41], 10⟩ =
      outcome.ok [1, 9, 17, 16, 15, 14, 13, 12, 11, 10, 8, 7, 6, 5, 4, 3, 2] := by
  decide

/-- C8, the code at a failing input: with the fonts 1 and 2 registered in this order, a text
block with `fontindex = 2` leaves `m_fonts` in the order 2, 1, and a later block with
`fontindex = 2` then tries font 1, the first registered font, before font 2. -/
theorem C8_sort_mutates_stored_cascade :
    stored_order (render_textblock (context_of 2) ⟨[0x41], 2⟩) = outcome.ok [2, 1] ∧
      (render_textblock (context_of 2) ⟨[0x41], 2⟩).bind (fun c => font_order c ⟨[0x41], 2⟩) =
        outcome.ok [1, 2] := by
  decide

/-- C9, the code at failing inputs: with two registered fonts a text block with `fontindex = 3`
makes the sort leave the vector, so no font is tried at all; and after a block with
`fontindex = 2` a block with `fontindex = 0` tries the fonts in the order 2, 1, not in their
registration order. -/
theorem C9_no_preference_changes_order :
    font_order (context_of 2) ⟨[0x41], 3⟩ = outcome.out_of_bounds ∧
      stored_order (render_textblock (context_of 2) ⟨[0x41], 3⟩) = outcome.out_of_bounds ∧
      (render_textblock (context_of 2) ⟨[0x41], 2⟩).bind (fun c => font_order c ⟨[0x41], 0⟩) =
        outcome.ok [2, 1] := by
  decide

/-- C10 as stated fails: with the cascade of three fonts for `{a}`, `{b}` and every byte and the
text `aba`, the first font draws `a`, the remainder `ba` goes to the second font and not back
to the first, and the last `a` is drawn by the third font although the first font, earlier in
the cascade, returns a nonzero count for it. -/
theorem C10_counterexample_no_restart :
    phase_b [sample_font 4 (fun c => c == 0x61), sample_font 5 (fun c => c == 0x62), font_every]
        [0x61, 0x62, 0x61] =
      outcome.ok ([],
        [event.render 4 [0x61, 0x62, 0x61] 1, event.render 5 [0x62, 0x61] 1,
          event.render 1 [0x61] 1]) ∧
      (sample_font 4 (fun c => c == 0x61)).render [0x61] = 1 := by
  decide

/-- C10, amended: for every filtered text and cascade, Phase B returns and its `render` calls
go through the cascade order cyclically, each on a text that is not empty.  When the text is
not empty the first font is called on it.  Whenever a call consumes `b > 0` bytes and text
remains, the remainder is next offered to the font that follows in the cascade order, the
first font following the last one; whenever a call returns 0 and its font is not the last of
the order, the same text is next offered to the following font.  The calls stop only when no
text is left, and then nothing else is logged, or after a whole pass in which every font
returned 0 on the text left, and then the warning follows. -/
theorem C10_phase_b_cyclic_order (fns : List font) (text : List Nat) :
    ∃ rest ev calls k1, phase_b fns text = outcome.ok (rest, ev) ∧
      calls = ev.filter event.is_render ∧
      cyclic_calls fns 0 text calls k1 rest ∧
      (∀ p t b, event.render p t b ∈ calls → t ≠ []) ∧
      (text ≠ [] → ∀ f, fns[0]? = some f →
        calls[0]? = some (event.render f.ptr text (f.render text))) ∧
      (∀ i p t b, calls[i]? = some (event.render p t b) → 0 < b →
        t.drop (min b t.length) ≠ [] →
        ∃ f, fns[(i + 1) % fns.length]? = some f ∧
          calls[i + 1]? = some (event.render f.ptr (t.drop (min b t.length))
            (f.render (t.drop (min b t.length))))) ∧
      (∀ i p t, calls[i]? = some (event.render p t 0) → (i + 1) % fns.length ≠ 0 →
        ∃ f, fns[(i + 1) % fns.length]? = some f ∧
          calls[i + 1]? = some (event.render f.ptr t (f.render t))) ∧
      (rest = [] → ev = calls) ∧
      (rest ≠ [] → ev = calls ++ [event.warn_text rest] ∧
        ∃ pre, calls = pre ++ fns.map (fun f => event.render f.ptr rest 0) ∧
          fns.length ∣ pre.length) := by
  obtain ⟨rest, ev, k1, hev, hcyc⟩ := draw_loop_cyclic fns (text.length + 1) text 0
    (by omega) (by
      intro i hi
      rw [Nat.zero_add, Nat.mod_eq_of_lt hi])
  obtain ⟨h1, h2, h3⟩ := draw_loop_shape fns (text.length + 1) text rest ev hev
  generalize hcalls : ev.filter event.is_render = calls at hcyc h1 h2 h3
  have hget := cyclic_calls_get fns 0 text calls k1 rest hcyc
  refine ⟨rest, ev, calls, k1, hev, hcalls.symm, hcyc, h1, ?_, ?_, ?_, h2, h3⟩
  · intro hne f hf
    cases hcyc with
    | done =>
      obtain ⟨_, pre, hpre, _⟩ := h3 hne
      have hnil : fns.map (fun f => event.render f.ptr text 0) = [] :=
        (List.append_eq_nil.1 hpre.symm).2
      rw [List.map_eq_nil_iff] at hnil
      rw [hnil] at hf
      simp at hf
    | call _ _ g es _ _ hg _ =>
      have e : g = f := by
        have hg0 : fns[0]? = some g := by simpa using hg
        rw [hf] at hg0
        exact (Option.some.inj hg0).symm
      subst e
      simp
  · intro i p t b hi hb hrem
    obtain ⟨f, t1, hf, he, hlast, hnext⟩ := hget i _ hi
    simp only [event.render.injEq] at he
    obtain ⟨rfl, rfl, rfl⟩ := he
    have hfns : fns ≠ [] := by
      intro e
      rw [e] at hf
      simp at hf
    cases hc : calls[i + 1]? with
    | none =>
      exfalso
      have hrest := hlast hc
      obtain ⟨_, pre, hpre, _⟩ := h3 (by rw [hrest]; exact hrem)
      have := (last_call_idle fns rest pre calls hpre hfns i _ _ _ hi hc).1
      omega
    | some e1 =>
      obtain ⟨g, hg, rfl⟩ := hnext e1 hc
      exact ⟨g, by simpa using hg, rfl⟩
  · intro i p t hi hmod
    obtain ⟨f, t1, hf, he, hlast, hnext⟩ := hget i _ hi
    simp only [event.render.injEq] at he
    obtain ⟨rfl, rfl, hzero⟩ := he
    have hfns : fns ≠ [] := by
      intro e
      rw [e] at hf
      simp at hf
    cases hc : calls[i + 1]? with
    | none =>
      exfalso
      have hrest := hlast hc
      rw [← hzero] at hrest
      simp only [Nat.zero_min, List.drop_zero] at hrest
      have hne : rest ≠ [] := by
        rw [hrest]
        exact h1 _ _ _ (List.getElem?_mem hi)
      obtain ⟨_, pre, hpre, hdvd⟩ := h3 hne
      have hlen := (last_call_idle fns rest pre calls hpre hfns i _ _ _ hi hc).2
      apply hmod
      rw [hlen]
      exact Nat.mod_eq_zero_of_dvd (Dvd.dvd.add hdvd (dvd_refl _))
    | some e1 =>
      obtain ⟨g, hg, rfl⟩ := hnext e1 hc
      rw [← hzero]
      simp only [Nat.zero_min, List.drop_zero]
      exact ⟨g, by simpa using hg, rfl⟩

/-! ## Phase B when no font or the first font takes the text -/

theorem draw_fonts_all_zero (fs : List font) (text : List Nat)
    (hzero : ∀ f ∈ fs, f.render text = 0) :
    draw_fonts fs text = (text, fs.map (fun f => event.render f.ptr text 0)) := by
  induction fs with
  | nil => rfl
  | cons f fs ih =>
    have hf : f.render text = 0 := hzero f (List.mem_cons_self _ _)
    have hrec := ih (fun g hg => hzero g (List.mem_cons_of_mem _ hg))
    rw [draw_fonts]
    simp only [hf, if_true, hrec, List.map_cons]

/-! ## The offsets and lengths the decoder writes -/

theorem seg_ok_ne_nil (s : List Nat) (h : seg_ok s) : s ≠ [] := by
  cases s with
  | nil => exact absurd h (by simp [seg_ok])
  | cons b bs => simp

theorem layout_take (k : Nat) :
    ∀ (off : Int) (segs : List (List Nat)),
      (layout off segs).take k = layout off (segs.take k) := by
  induction k with
  | zero => intro off segs; simp [layout]
  | succ k ih =>
    intro off segs
    cases segs with
    | nil => simp [layout]
    | cons s ss => simp [layout, ih]

theorem layout_chained (segs : List (List Nat)) (hne : ∀ s ∈ segs, s ≠ []) :
    ∀ off : Int, chained_from off (layout off segs) := by
  induction segs with
  | nil => intro off; simp [layout, chained_from]
  | cons s ss ih =>
    intro off
    have hs : s ≠ [] := hne s (List.mem_cons_self _ _)
    have hlen : 1 ≤ s.length := Nat.pos_of_ne_zero (fun h => hs (List.length_eq_zero.1 h))
    refine ⟨rfl, ?_, ih (fun t ht => hne t (List.mem_cons_of_mem _ ht)) _⟩
    show (1 : Int) ≤ (s.length : Nat)
    omega

theorem layout_offset_ge (segs : List (List Nat)) :
    ∀ (off : Int), ∀ c ∈ layout off segs, off ≤ c.offset := by
  induction segs with
  | nil => intro off c hc; simp [layout] at hc
  | cons s ss ih =>
    intro off c hc
    simp only [layout, List.mem_cons] at hc
    rcases hc with rfl | hc
    · exact le_refl _
    · have := ih _ c hc
      omega

theorem layout_pairwise (segs : List (List Nat)) (hne : ∀ s ∈ segs, s ≠ []) :
    ∀ off : Int, (layout off segs).Pairwise (fun a b => a.offset < b.offset) := by
  induction segs with
  | nil => intro off; simp [layout]
  | cons s ss ih =>
    intro off
    have hs : s ≠ [] := hne s (List.mem_cons_self _ _)
    have hlen : 1 ≤ s.length := Nat.pos_of_ne_zero (fun h => hs (List.length_eq_zero.1 h))
    simp only [layout, List.pairwise_cons]
    refine ⟨?_, ih (fun t ht => hne t (List.mem_cons_of_mem _ ht)) _⟩
    intro c hc
    have := layout_offset_ge ss _ c hc
    show off < c.offset
    omega

/-- The byte ranges of the first `i` characters of a decoded text are the first bytes of the
text, as many as their lengths sum to. -/
theorem layout_prefix (segs : List (List Nat)) (tail : List Nat) (i : Nat) :
    (((layout 0 segs).take i).map (fun c => c.length)).sum =
        (((segs.take i).flatten.length : Nat) : Int) ∧
      ((layout 0 segs).take i).flatMap (byte_range (segs.flatten ++ tail)) =
        (segs.flatten ++ tail).take (segs.take i).flatten.length := by
  rw [layout_take]
  refine ⟨layout_length_sum _ _, ?_⟩
  have hsplit : segs.flatten ++ tail =
      [] ++ (segs.take i).flatten ++ ((segs.drop i).flatten ++ tail) := by
    conv_lhs => rw [← List.take_append_drop i segs, List.flatten_append]
    simp [List.append_assoc]
  have h := byte_range_segments (fun _ => true) ((segs.drop i).flatten ++ tail) (segs.take i) []
  simp only [List.length_nil, Nat.cast_zero, List.filter_true] at h
  rw [← hsplit] at h
  rw [h]
  conv_rhs => rw [hsplit]
  simp

/-! ## One sequence of the decoder in terms of payload bits -/

theorem cont_value_eq (conts : List Nat) :
    ∀ r : Nat, cont_value r conts = conts.foldl (fun r c => r * 64 + c % 64) r := by
  induction conts with
  | nil => intro r; rfl
  | cons c cs ih =>
    intro r
    have hc : c &&& 63 < 64 := by rw [and_63_eq_mod]; omega
    simp only [cont_value, List.foldl_cons] at ih ⊢
    rw [shl6_or _ _ hc, and_63_eq_mod]
    exact ih _

theorem lead_byte_of_class (b n : Nat) (hn : class_len b = some n) (h2 : 2 ≤ n) :
    lead_byte b = some ((n : Int), b % 2 ^ (7 - n)) ∧ b ≠ 0 := by
  rw [lead_byte_eq]
  unfold class_len at hn
  split_ifs at hn ⊢ <;> simp only [Option.some.injEq, reduceCtorEq] at hn <;> subst hn
  · omega
  · exact ⟨by rw [Nat.and_pow_two_sub_one_eq_mod b 5]; rfl, by omega⟩
  · exact ⟨by rw [and_15_eq_mod]; rfl, by omega⟩
  · exact ⟨by rw [and_7_eq_mod]; rfl, by omega⟩

/-! ## `font::match` as a longest prefix -/

theorem match_eq_takeWhile (f : font) (chars : unicode_charlist) :
    f.match_ chars =
      (chars.takeWhile (fun c => f.glyph_index c.codepoint != 0)).length := by
  induction chars with
  | nil => rfl
  | cons c cs ih =>
    by_cases h : f.glyph_index c.codepoint ≠ 0
    · simp [font.match_, List.takeWhile_cons, h, ih]
    · simp only [ne_eq, not_not] at h
      simp [font.match_, List.takeWhile_cons, h]

theorem match_le_length (f : font) (chars : unicode_charlist) :
    f.match_ chars ≤ chars.length := by
  induction chars with
  | nil => simp [font.match_]
  | cons c cs ih =>
    by_cases h : f.glyph_index c.codepoint ≠ 0
    · simp only [font.match_, if_pos h, List.length_cons]
      omega
    · simp [font.match_, h]

theorem match_take_mapped (f : font) (chars : unicode_charlist) :
    ∀ c ∈ chars.take (f.match_ chars), f.glyph_index c.codepoint ≠ 0 := by
  induction chars with
  | nil => simp [font.match_]
  | cons c cs ih =>
    by_cases h : f.glyph_index c.codepoint ≠ 0
    · simp only [font.match_, if_pos h, List.take_succ_cons, List.mem_cons]
      rintro d (rfl | hd)
      · exact h
      · exact ih d hd
    · simp [font.match_, h]

theorem match_maximal (f : font) (chars : unicode_charlist) :
    ∀ k, k ≤ chars.length → (∀ c ∈ chars.take k, f.glyph_index c.codepoint ≠ 0) →
      k ≤ f.match_ chars := by
  induction chars with
  | nil =>
    intro k hk _
    simp only [List.length_nil] at hk
    omega
  | cons c cs ih =>
    intro k hk hall
    cases k with
    | zero => omega
    | succ k =>
      have hc : f.glyph_index c.codepoint ≠ 0 := hall c (by simp)
      have hrec := ih k (by simp only [List.length_cons] at hk; omega)
        (fun d hd => hall d (by simp [hd]))
      simp only [font.match_, if_pos hc]
      omega

theorem match_stops_at_unmapped (f : font) (chars : unicode_charlist) :
    ∀ c, chars[f.match_ chars]? = some c → f.glyph_index c.codepoint = 0 := by
  induction chars with
  | nil => intro c hc; simp at hc
  | cons d ds ih =>
    intro c hc
    by_cases h : f.glyph_index d.codepoint ≠ 0
    · simp only [font.match_, if_pos h, List.getElem?_cons_succ] at hc
      exact ih c hc
    · simp only [font.match_, if_neg h, List.getElem?_cons_zero, Option.some.injEq] at hc
      subst hc
      simpa using h

/-! ## The byte patterns the encoder writes -/

theorem cont_pattern_facts : ∀ p, p < 64 → cont_pattern ((p ||| 0x80) % 256) = true := by
  decide

theorem encoder_cont_byte (x : Nat) : cont_pattern (((x &&& 0x3f) ||| 0x80) % 256) = true :=
  cont_pattern_facts _ (lt_of_le_of_lt Nat.and_le_right (by norm_num))

theorem lead2_pattern :
    ∀ p, p < 32 → 0xC0 ≤ ((p &&& 0xff) ||| 0xc0) % 256 ∧ ((p &&& 0xff) ||| 0xc0) % 256 < 0xE0 := by
  decide

theorem lead3_pattern :
    ∀ p, p < 16 → 0xE0 ≤ (p ||| 0xe0) % 256 ∧ (p ||| 0xe0) % 256 < 0xF0 := by
  decide

theorem lead4_pattern :
    ∀ p, p < 8 → 0xF0 ≤ (p ||| 0xf0) % 256 ∧ (p ||| 0xf0) % 256 < 0xF8 := by
  decide

theorem lead5_pattern :
    ∀ p, p < 4 → 0xF8 ≤ (p ||| 0xf8) % 256 ∧ (p ||| 0xf8) % 256 < 0xFC := by
  decide

theorem lead6_pattern :
    ∀ p, p < 2 → 0xFC ≤ (p ||| 0xfc) % 256 ∧ (p ||| 0xfc) % 256 < 0xFE := by
  decide

/-! ## The warnings of Phase A -/

theorem layout_warnings (p : Nat → Bool) (segs : List (List Nat)) :
    ∀ off : Int,
      ((layout off segs).filter (fun c => p c.codepoint)).map char_warning =
        (segs.filter (fun s => p (seg_codepoint s))).map seg_warning := by
  induction segs with
  | nil => intro off; simp [layout]
  | cons s ss ih =>
    intro off
    have hlay : layout off (s :: ss) =
        ⟨seg_codepoint s, off, s.length⟩ :: layout (off + s.length) ss := rfl
    rw [hlay]
    by_cases hp : p (seg_codepoint s) = true
    · simp [List.filter_cons, hp, ih, char_warning, seg_warning]
    · simp [List.filter_cons, hp, ih]

/-- Scenario 2 of the specification: a cascade that covers nothing and the text `X`. -/
theorem phase_a_scenario_2 :
    phase_a [font_nothing] [0x58] = outcome.ok ([], [event.warn_char [0x58] 0x58]) := by
  decide

/-! ## `font::render` with the pen -/

theorem render_bytes_eq (gs : List (Nat × Nat)) :
    render_bytes gs = ((gs.takeWhile (fun g => g.1 != 0)).map (fun g => g.2)).sum := by
  induction gs with
  | nil => rfl
  | cons g gs ih =>
    by_cases h : g.1 ≠ 0
    · simp [render_bytes, List.takeWhile_cons, h, ih]
    · simp only [ne_eq, not_not] at h
      simp [render_bytes, List.takeWhile_cons, h]

theorem render_at_bytes (f : metric_font) (text : List Nat) (start : pen) :
    (f.render_at text start).bytes = f.tofont.render text := by
  by_cases h : render_bytes (f.text_to_glyphs text) ≠ 0 <;>
    simp [metric_font.render_at, font.render, h]

theorem render_at_font (f : metric_font) (text : List Nat) (start : pen) :
    (f.render_at text start).f = f := by
  by_cases h : render_bytes (f.text_to_glyphs text) ≠ 0 <;> simp [metric_font.render_at, h]

theorem render_at_text (f : metric_font) (text : List Nat) (start : pen) :
    (f.render_at text start).text = text := by
  by_cases h : render_bytes (f.text_to_glyphs text) ≠ 0 <;> simp [metric_font.render_at, h]

theorem render_at_start (f : metric_font) (text : List Nat) (start : pen) :
    (f.render_at text start).start = start := by
  by_cases h : render_bytes (f.text_to_glyphs text) ≠ 0 <;> simp [metric_font.render_at, h]

theorem render_at_origin (f : metric_font) (text : List Nat) (start : pen) :
    (f.render_at text start).origin =
      ⟨start.x, start.y + (f.height / 2 - f.descent + f.offset)⟩ := by
  by_cases h : render_bytes (f.text_to_glyphs text) ≠ 0 <;> simp [metric_font.render_at, h]

theorem render_at_drawn (f : metric_font) (text : List Nat) (start : pen) :
    (f.render_at text start).drawn =
      if f.tofont.render text ≠ 0 then some (text.take (f.tofont.render text)) else none := by
  by_cases h : render_bytes (f.text_to_glyphs text) ≠ 0 <;>
    simp [metric_font.render_at, font.render, h]

theorem render_at_event (f : metric_font) (text : List Nat) (start : pen) :
    (f.render_at text start).event = event.render f.ptr text (f.tofont.render text) := by
  simp only [attempt.event, render_at_font, render_at_text, render_at_bytes]

/-- A call that consumes nothing leaves the current point at the origin it read. -/
theorem render_at_finish_zero (f : metric_font) (text : List Nat) (start : pen)
    (h : f.tofont.render text = 0) :
    (f.render_at text start).finish = (f.render_at text start).origin := by
  unfold font.render at h
  simp [metric_font.render_at, h]

theorem glyph_xs_length (f : metric_font) (text : List Nat) (x : Option Rat) :
    (glyph_xs f text x).length = (f.text_to_glyphs text).length := by
  simp [glyph_xs]

/-- A call that draws the whole text it was given reads the element behind the last glyph of
the array, so the `x` of the current point it leaves is indeterminate. -/
theorem render_at_finish_whole (f : metric_font) (text : List Nat) (start : pen)
    (h0 : f.tofont.render text ≠ 0) (hall : text.length ≤ f.tofont.render text) :
    (f.render_at text start).finish.x = none := by
  unfold font.render at h0 hall
  have hb : (glyph_buffer (glyph_xs f text start.x) (glyph_xs f text start.x))[
      (f.text_to_glyphs text).length]? = none := by
    unfold glyph_buffer
    simp [glyph_xs_length]
  simp [metric_font.render_at, h0, List.take_of_length_le hall, hb]

/-! ## Phase B with the pen -/

theorem render_at_placed (fns : List metric_font) (f : metric_font) (hf : f ∈ fns)
    (text : List Nat) (base_x : Option Rat) (base_y : Rat) :
    placed fns base_y (f.render_at text ⟨base_x, base_y⟩) := by
  refine ⟨by rw [render_at_font]; exact hf, by rw [render_at_start], ?_⟩
  rw [render_at_origin, render_at_font]
  simp only
  ring

/-- The pass over the fonts with the pen makes the same calls and leaves the same text as the
pass without it. -/
theorem draw_fonts_at_refines (base_y : Rat) (fs : List metric_font) :
    ∀ (text : List Nat) (base_x : Option Rat),
      (draw_fonts_at base_y fs text base_x).1 =
          (draw_fonts (fs.map (fun f => f.tofont)) text).1 ∧
        (draw_fonts_at base_y fs text base_x).2.2.map attempt.event =
          (draw_fonts (fs.map (fun f => f.tofont)) text).2 := by
  induction fs with
  | nil => intro text base_x; simp [draw_fonts_at, draw_fonts]
  | cons f fs ih =>
    intro text base_x
    rw [draw_fonts_at, List.map_cons, draw_fonts]
    simp only [render_at_bytes]
    by_cases hb : f.tofont.render text = 0
    · simp only [hb, if_true, List.map_cons, render_at_event, (ih text base_x).1,
        (ih text base_x).2, and_self]
    · simp only [hb, if_false]
      by_cases he : (List.drop (min (f.tofont.render text) text.length) text).isEmpty = true
      · simp only [he, if_true, List.map_cons, List.map_nil, render_at_event, and_self]
      · simp only [he, if_false, List.map_cons, render_at_event, Bool.false_eq_true]
        exact ⟨(ih _ _).1, by rw [(ih _ _).2]⟩

theorem draw_fonts_at_placed (fns : List metric_font) (base_y : Rat) (fs : List metric_font)
    (hfs : ∀ f ∈ fs, f ∈ fns) :
    ∀ (text : List Nat) (base_x : Option Rat),
      ∀ a ∈ (draw_fonts_at base_y fs text base_x).2.2, placed fns base_y a := by
  induction fs with
  | nil => intro text base_x a ha; simp [draw_fonts_at] at ha
  | cons f fs ih =>
    intro text base_x a ha
    have hf : f ∈ fns := hfs f (List.mem_cons_self _ _)
    have hrest := ih (fun g hg => hfs g (List.mem_cons_of_mem _ hg))
    rw [draw_fonts_at] at ha
    by_cases hb : (f.render_at text ⟨base_x, base_y⟩).bytes = 0
    · simp only [hb, if_true, List.mem_cons] at ha
      rcases ha with rfl | ha
      · exact render_at_placed fns f hf text base_x base_y
      · exact hrest _ _ a ha
    · simp only [hb, if_false] at ha
      by_cases he : (List.drop (min (f.render_at text ⟨base_x, base_y⟩).bytes text.length)
          text).isEmpty = true
      · simp only [he, if_true, List.mem_singleton] at ha
        subst ha
        exact render_at_placed fns f hf text base_x base_y
      · simp only [he, if_false, List.mem_cons, Bool.false_eq_true] at ha
        rcases ha with rfl | ha
        · exact render_at_placed fns f hf text base_x base_y
        · exact hrest _ _ a ha

/-- Phase B with the pen returns where Phase B without it does, with the same text left and the
same `render` calls, and every call is placed as the metrics of its font say. -/
theorem draw_loop_at_refines (fns : List metric_font) (base_y : Rat) :
    ∀ (fuel : Nat) (text : List Nat) (base_x : Option Rat) (rest : List Nat)
      (ev : List event),
      draw_loop fuel (fns.map (fun f => f.tofont)) text = outcome.ok (rest, ev) →
      ∃ x1 calls, draw_loop_at base_y fuel fns text base_x = outcome.ok (rest, x1, calls) ∧
        calls.map attempt.event = ev.filter event.is_render ∧
        ∀ a ∈ calls, placed fns base_y a := by
  intro fuel
  induction fuel with
  | zero => intro text base_x rest ev h; simp [draw_loop] at h
  | succ fuel ih =>
    intro text base_x rest ev h
    cases text with
    | nil =>
      simp only [draw_loop, List.isEmpty_nil, if_true, outcome.ok.injEq, Prod.mk.injEq] at h
      obtain ⟨rfl, rfl⟩ := h
      exact ⟨base_x, [], by simp [draw_loop_at], by simp, by simp⟩
    | cons b bs =>
      obtain ⟨htext, hev⟩ := draw_fonts_at_refines base_y fns (b :: bs) base_x
      have hplaced := draw_fonts_at_placed fns base_y fns (fun f hf => hf) (b :: bs) base_x
      rw [draw_loop] at h
      simp only [List.isEmpty_cons, Bool.false_eq_true, if_false] at h
      by_cases hsame : (b :: bs).length =
          (draw_fonts (fns.map (fun f => f.tofont)) (b :: bs)).1.length
      · simp only [if_pos hsame, outcome.ok.injEq, Prod.mk.injEq] at h
        obtain ⟨rfl, rfl⟩ := h
        refine ⟨(draw_fonts_at base_y fns (b :: bs) base_x).2.1,
          (draw_fonts_at base_y fns (b :: bs) base_x).2.2, ?_, ?_, hplaced⟩
        · rw [draw_loop_at]
          simp only [List.isEmpty_cons, Bool.false_eq_true, if_false, htext, if_pos hsame]
          rw [← htext]
        · rw [hev, List.filter_append, filter_render_pass]
          simp [event.is_render]
      · simp only [if_neg hsame] at h
        cases hrec : draw_loop fuel (fns.map (fun f => f.tofont))
            (draw_fonts (fns.map (fun f => f.tofont)) (b :: bs)).1 with
        | ok r =>
          rw [hrec] at h
          simp only [outcome.ok.injEq, Prod.mk.injEq] at h
          obtain ⟨rfl, rfl⟩ := h
          obtain ⟨x1, calls, hloop, hcalls, hpl⟩ :=
            ih _ (draw_fonts_at base_y fns (b :: bs) base_x).2.1 r.1 r.2 hrec
          refine ⟨x1, (draw_fonts_at base_y fns (b :: bs) base_x).2.2 ++ calls, ?_, ?_, ?_⟩
          · rw [draw_loop_at]
            simp only [List.isEmpty_cons, Bool.false_eq_true, if_false, htext, if_neg hsame,
              hloop]
          · rw [List.map_append, hev, hcalls, List.filter_append, filter_render_pass]
          · intro a ha
            rcases List.mem_append.1 ha with ha | ha
            · exact hplaced a ha
            · exact hpl a ha
        | out_of_range => rw [hrec] at h; simp at h
        | out_of_bounds => rw [hrec] at h; simp at h
        | out_of_fuel => rw [hrec] at h; simp at h

/-- The glyphs that count for `render` are a leading run that cannot be made longer. -/
theorem render_bytes_run (gs : List (Nat × Nat)) :
    ∃ run rest, gs = run ++ rest ∧ (∀ g ∈ run, g.1 ≠ 0) ∧
      (∀ g, rest.head? = some g → g.1 = 0) ∧ render_bytes gs = (run.map (fun g => g.2)).sum := by
  induction gs with
  | nil => exact ⟨[], [], rfl, by simp, by simp, rfl⟩
  | cons g gs ih =>
    by_cases hg : g.1 ≠ 0
    · obtain ⟨run, rest, hsplit, hrun, hrest, hsum⟩ := ih
      refine ⟨g :: run, rest, by rw [hsplit]; rfl, ?_, hrest, ?_⟩
      · intro k hk
        rcases List.mem_cons.1 hk with rfl | hk
        · exact hg
        · exact hrun k hk
      · simp [render_bytes, hg, hsum]
    · refine ⟨[], g :: gs, rfl, by simp, ?_, by simp [render_bytes, hg]⟩
      intro k hk
      simp only [List.head?_cons, Option.some.injEq] at hk
      subst hk
      exact not_not.1 hg

/-! ## The statements C11 to C20 -/

/-- C11: for every non-empty remaining text for which every font of the cascade returns 0 from
`render`, the draw loop, at any point it is entered with fuel left, makes one `render` call per
font, each returning 0 and so drawing nothing, then logs exactly one warning
`Dropping unmatched characters` carrying that text and stops: no event follows the warning and
the text is left as it was. -/
theorem C11_block_level_drop (fns : List font) (text : List Nat) (fuel : Nat)
    (hne : text ≠ []) (hzero : ∀ f ∈ fns, f.render text = 0) :
    draw_loop (fuel + 1) fns text =
        outcome.ok (text,
          fns.map (fun f => event.render f.ptr text 0) ++ [event.warn_text text]) ∧
      phase_b fns text =
        outcome.ok (text,
          fns.map (fun f => event.render f.ptr text 0) ++ [event.warn_text text]) := by
  have hloop : ∀ n, draw_loop (n + 1) fns text =
      outcome.ok (text,
        fns.map (fun f => event.render f.ptr text 0) ++ [event.warn_text text]) := by
    intro n
    cases text with
    | nil => exact absurd rfl hne
    | cons b bs =>
      rw [draw_loop]
      simp only [List.isEmpty_cons, Bool.false_eq_true, if_false,
        draw_fonts_all_zero fns (b :: bs) hzero, if_true]
  exact ⟨hloop fuel, hloop text.length⟩

/-- C11 at Scenario 3 of the specification: the text `A` and one font that shapes nothing. -/
theorem C11_block_level_drop_witness :
    draw_loop (0 + 1) [font_nothing] [0x41] =
        outcome.ok ([0x41],
          [font_nothing].map (fun f => event.render f.ptr [0x41] 0) ++
            [event.warn_text [0x41]]) ∧
      phase_b [font_nothing] [0x41] =
        outcome.ok ([0x41],
          [font_nothing].map (fun f => event.render f.ptr [0x41] 0) ++
            [event.warn_text [0x41]]) :=
  C11_block_level_drop [font_nothing] [0x41] 0 (by decide) (by decide)

/-- C12: for every non-empty filtered text of which the `render` of the first font in cascade
order returns the full byte length, Phase B makes exactly one `render` call, to that first
font, is left with the empty text and logs no warning. -/
theorem C12_single_call_rendering (f : font) (fs : List font) (text : List Nat)
    (hne : text ≠ []) (hfull : f.render text = text.length) :
    phase_b (f :: fs) text = outcome.ok ([], [event.render f.ptr text text.length]) := by
  cases text with
  | nil => exact absurd rfl hne
  | cons b bs =>
    have hpass : draw_fonts (f :: fs) (b :: bs) =
        ([], [event.render f.ptr (b :: bs) (b :: bs).length]) := by
      rw [draw_fonts]
      simp [hfull]
    simp only [phase_b]
    rw [draw_loop]
    simp only [List.isEmpty_cons, Bool.false_eq_true, if_false, hpass, List.length_nil,
      List.length_cons]
    rw [if_neg (by omega), draw_loop_nil]
    simp

/-- C12 at the text `HELLO` and a font with glyphs for capitals, followed by another font. -/
theorem C12_single_call_rendering_witness :
    phase_b (font_upper :: [font_every]) [0x48, 0x45, 0x4C, 0x4C, 0x4F] =
      outcome.ok ([],
        [event.render font_upper.ptr [0x48, 0x45, 0x4C, 0x4C, 0x4F]
          ([0x48, 0x45, 0x4C, 0x4C, 0x4F] : List Nat).length]) :=
  C12_single_call_rendering font_upper [font_every] [0x48, 0x45, 0x4C, 0x4C, 0x4F]
    (by decide) (by decide)

/-- C13: for every input byte string, also one on which decoding fails part-way,
`utf8_to_ucs4` returns, and in the list it has built the first character is at offset 0, each
later one at the offset plus the length of the one before it, every length is at least 1, the
offsets are strictly increasing, and for every `i` the lengths of the first `i` characters sum
to the length of a prefix of the input, which is the concatenation of their byte ranges. -/
theorem C13_decoded_sequence_invariant (src : List Nat) :
    ∃ ok chars, utf8_to_ucs4 (some src) = some (ok, chars) ∧
      chained_from 0 chars ∧
      chars.Pairwise (fun a b => a.offset < b.offset) ∧
      ∀ i, ∃ n : Nat, ((chars.take i).map (fun c => c.length)).sum = (n : Int) ∧
        n ≤ src.length ∧ (chars.take i).flatMap (byte_range src) = src.take n := by
  obtain ⟨ok, segs, tail, hd, htext, hsegs, _, _⟩ := utf8_to_ucs4_segments src
  subst htext
  have hne : ∀ s ∈ segs, s ≠ [] := fun s hs => seg_ok_ne_nil s (hsegs s hs)
  refine ⟨ok, layout 0 segs, hd, layout_chained segs hne 0, layout_pairwise segs hne 0, ?_⟩
  intro i
  obtain ⟨hsum, hrange⟩ := layout_prefix segs tail i
  refine ⟨(segs.take i).flatten.length, hsum, ?_, hrange⟩
  have hle : (segs.take i).flatten.length ≤ segs.flatten.length := by
    conv_rhs => rw [← List.take_append_drop i segs, List.flatten_append, List.length_append]
    omega
  rw [List.length_append]
  omega

/-- C14: for every leading byte `b` of class `n` (2, 3 or 4 bytes) followed by `k < n - 1`
continuation bytes and then by a byte that is no continuation byte or by the end of the input,
the loop of `utf8_to_ucs4` emits one character of length `k + 1` whose codepoint is the payload
bits of `b` followed by the 6-bit payloads of the `k` continuation bytes, and goes on decoding
at the very next byte; so `utf8_to_ucs4` on a text that starts this way returns a list that
starts with this character. -/
theorem C14_truncated_sequence_emitted (b n : Nat) (conts rest : List Nat) (fuel : Nat)
    (off : Int) (acc : unicode_charlist) (hn : class_len b = some n) (h2 : 2 ≤ n)
    (hconts : ∀ c ∈ conts, cont_pattern c = true) (hk : conts.length < n - 1)
    (hrest : ∀ c, rest.head? = some c → cont_pattern c = false) :
    utf8_loop (fuel + 1) (b :: (conts ++ rest)) off acc =
        utf8_loop fuel rest (off + (conts.length + 1))
          (acc ++ [⟨seq_value b n conts, off, conts.length + 1⟩]) ∧
      ∃ ok chars, utf8_to_ucs4 (some (b :: (conts ++ rest))) =
        some (ok, ⟨seq_value b n conts, 0, conts.length + 1⟩ :: chars) := by
  obtain ⟨hl, hb⟩ := lead_byte_of_class b n hn h2
  have hall : ∀ c ∈ conts, is_cont c := fun c hc => (is_cont_iff c).2 (hconts c hc)
  have hnot : ∀ c, rest.head? = some c → ¬ is_cont c := by
    intro c hc h
    have := (is_cont_iff c).1 h
    rw [hrest c hc] at this
    exact absurd this (by simp)
  have hloop := cont_loop_segment (n : Int) conts rest 1 (b % 2 ^ (7 - n)) hall (by omega) hnot
  have e : (1 : Int) + conts.length = conts.length + 1 := by omega
  rw [e, cont_value_eq] at hloop
  have hstep : ∀ (m : Nat) (o : Int) (a : unicode_charlist),
      utf8_loop (m + 1) (b :: (conts ++ rest)) o a =
        utf8_loop m rest (o + (conts.length + 1))
          (a ++ [⟨seq_value b n conts, o, conts.length + 1⟩]) := by
    intro m o a
    rw [utf8_loop, if_neg hb, hl]
    simp only [hloop, seq_value]
  refine ⟨hstep fuel off acc, ?_⟩
  obtain ⟨ok, segs, tail, hrec, _⟩ := utf8_loop_segments (b :: (conts ++ rest)).length rest
    (0 + (conts.length + 1)) ([] ++ [⟨seq_value b n conts, 0, conts.length + 1⟩])
    (by simp only [List.length_cons, List.length_append]; omega)
  refine ⟨ok, layout (0 + (conts.length + 1)) segs, ?_⟩
  simp only [utf8_to_ucs4]
  rw [hstep, hrec]
  simp

/-- C14 at the text `E2 82 41`: a leading byte of the 3-byte class, one continuation byte and
then the letter `A`. -/
theorem C14_truncated_sequence_emitted_witness :
    utf8_loop (3 + 1) (0xE2 :: ([0x82] ++ [0x41])) 0 [] =
        utf8_loop 3 [0x41] (0 + ((([0x82] : List Nat).length : Nat) + 1))
          ([] ++ [⟨seq_value 0xE2 3 [0x82], 0, (([0x82] : List Nat).length : Nat) + 1⟩]) ∧
      ∃ ok chars, utf8_to_ucs4 (some (0xE2 :: ([0x82] ++ [0x41]))) =
        some (ok, ⟨seq_value 0xE2 3 [0x82], 0, (([0x82] : List Nat).length : Nat) + 1⟩ ::
          chars) :=
  C14_truncated_sequence_emitted 0xE2 3 [0x82] [0x41] 3 0 [] (by decide) (by decide)
    (by decide) (by decide) (by decide)

/-- C15: for every font and every decoded sequence, `font::match` returns the length of the
longest prefix of the sequence in which every codepoint has a nonzero glyph index: all
characters of that prefix are mapped, no longer prefix is all mapped, the character at which
it stops, if there is one, is unmapped whatever follows it, the result never exceeds the
length of the sequence, and the sequence is the same after the call. -/
theorem C15_coverage_run (f : font) (chars : unicode_charlist) :
    f.match_ chars = (chars.takeWhile (fun c => f.glyph_index c.codepoint != 0)).length ∧
      f.match_ chars ≤ chars.length ∧
      (∀ c ∈ chars.take (f.match_ chars), f.glyph_index c.codepoint ≠ 0) ∧
      (∀ k, k ≤ chars.length → (∀ c ∈ chars.take k, f.glyph_index c.codepoint ≠ 0) →
        k ≤ f.match_ chars) ∧
      (∀ c, chars[f.match_ chars]? = some c → f.glyph_index c.codepoint = 0) ∧
      f.match_call chars = (f.match_ chars, chars) :=
  ⟨match_eq_takeWhile f chars, match_le_length f chars, match_take_mapped f chars,
    match_maximal f chars, match_stops_at_unmapped f chars, rfl⟩

/-- C16: for every font, text and pen position, `font::render` returns the sum of the cluster
byte counts of the leading glyphs with a nonzero index, a run that stops at the first glyph
with index 0 or at the end of the shaping result; it returns 0 when the first glyph has index
0; when the result is not 0 it draws the prefix of the text of that many bytes, and when the
result is 0 it draws nothing.  The value is the one the calls of Phase B see. -/
theorem C16_render_consumes_leading_run (f : metric_font) (text : List Nat) (start : pen) :
    (∃ run rest, f.text_to_glyphs text = run ++ rest ∧ (∀ g ∈ run, g.1 ≠ 0) ∧
        (∀ g, rest.head? = some g → g.1 = 0) ∧
        (f.render_at text start).bytes = (run.map (fun g => g.2)).sum) ∧
      (f.render_at text start).bytes =
        (((f.text_to_glyphs text).takeWhile (fun g => g.1 != 0)).map (fun g => g.2)).sum ∧
      (f.render_at text start).bytes = f.tofont.render text ∧
      (∀ g, (f.text_to_glyphs text).head? = some g → g.1 = 0 →
        (f.render_at text start).bytes = 0) ∧
      ((f.render_at text start).bytes ≠ 0 →
        (f.render_at text start).drawn = some (text.take (f.render_at text start).bytes)) ∧
      ((f.render_at text start).bytes = 0 → (f.render_at text start).drawn = none) := by
  have hb := render_at_bytes f text start
  have hd := render_at_drawn f text start
  refine ⟨?_, ?_, hb, ?_, ?_, ?_⟩
  · rw [hb]
    exact render_bytes_run (f.text_to_glyphs text)
  · rw [hb]
    exact render_bytes_eq (f.text_to_glyphs text)
  · intro g hg h0
    rw [hb, font.render]
    cases hgs : f.text_to_glyphs text with
    | nil => rfl
    | cons k ks =>
      rw [hgs] at hg
      simp only [List.head?_cons, Option.some.injEq] at hg
      subst hg
      simp [render_bytes, h0]
  · intro hne
    rw [hb] at hne
    rw [hd, if_pos hne, hb]
  · intro h0
    rw [hb] at h0
    rw [hd, if_neg (not_not.2 h0)]

/-- C17: for every cascade, text and pen position on entry, Phase B returns, its calls of
`render` are those of Phase B without the pen, and every call is made by a font of the cascade
with the current point at the height `base_y` of the entry and shapes and draws at the height
`base_y + height / 2 - descent + offset` of the font that is asked, whatever the other fonts
of the cascade are and whatever was tried or drawn before. -/
theorem C17_vertical_placement_per_font (fns : List metric_font) (text : List Nat)
    (base : pen) :
    ∃ rest x1 calls, phase_b_at fns text base = outcome.ok (rest, x1, calls) ∧
      (∃ ev, phase_b (fns.map (fun f => f.tofont)) text = outcome.ok (rest, ev) ∧
        calls.map attempt.event = ev.filter event.is_render) ∧
      ∀ a ∈ calls, a.f ∈ fns ∧ a.start.y = base.y ∧
        a.origin.y = base.y + a.f.height / 2 - a.f.descent + a.f.offset := by
  obtain ⟨rest, ev, hev⟩ := phase_b_total (fns.map (fun f => f.tofont)) text
  obtain ⟨x1, calls, hloop, hcalls, hpl⟩ :=
    draw_loop_at_refines fns base.y (text.length + 1) text base.x rest ev hev
  exact ⟨rest, x1, calls, hloop, ⟨ev, hev, hcalls⟩, fun a ha => hpl a ha⟩

/-- C18: for every 32-bit value `s`, `ucs4_to_utf8` returns 1 if `s ≤ 0x7F`, 2 if `s ≤ 0x7FF`,
3 if `s ≤ 0xFFFF`, 4 if `s ≤ 0x1FFFFF`, 5 if `s ≤ 0x3FFFFFF`, 6 if `s ≤ 0x7FFFFFFF` and 0
otherwise; it writes as many bytes as it returns, so none when it returns 0; and when the
result `n` is at least 2 the first byte written carries the leading pattern of `n` bytes and
each of the other bytes has the form `10xxxxxx`. -/
theorem C18_encoder_range (s : Nat) (hs : s < 2 ^ 32) :
    (ucs4_to_utf8 s).1 =
        (if s ≤ 0x7F then 1 else if s ≤ 0x7FF then 2 else if s ≤ 0xFFFF then 3
          else if s ≤ 0x1FFFFF then 4 else if s ≤ 0x3FFFFFF then 5
          else if s ≤ 0x7FFFFFFF then 6 else 0) ∧
      (ucs4_to_utf8 s).2.length = (ucs4_to_utf8 s).1 ∧
      (2 ≤ (ucs4_to_utf8 s).1 →
        ∃ b bs, (ucs4_to_utf8 s).2 = b :: bs ∧ lead_pattern (ucs4_to_utf8 s).1 b ∧
          ∀ c ∈ bs, cont_pattern c = true) := by
  unfold ucs4_to_utf8
  split_ifs with c1 c2 c3 c4 c5 c6
  · exact ⟨rfl, rfl, fun h => absurd h (by norm_num)⟩
  · refine ⟨rfl, rfl, fun _ => ⟨_, _, rfl, ?_, ?_⟩⟩
    · have hp : s >>> 6 < 32 := by rw [Nat.shiftRight_eq_div_pow]; omega
      exact Or.inl ⟨rfl, lead2_pattern _ hp⟩
    · intro c hc
      simp only [List.mem_singleton] at hc
      subst hc
      exact encoder_cont_byte _
  · refine ⟨rfl, rfl, fun _ => ⟨_, _, rfl, ?_, ?_⟩⟩
    · have hp : (s >>> 12) &&& 0x0f < 16 := lt_of_le_of_lt Nat.and_le_right (by norm_num)
      exact Or.inr (Or.inl ⟨rfl, lead3_pattern _ hp⟩)
    · intro c hc
      simp only [List.mem_cons, List.mem_singleton, List.not_mem_nil, or_false] at hc
      rcases hc with rfl | rfl <;> exact encoder_cont_byte _
  · refine ⟨rfl, rfl, fun _ => ⟨_, _, rfl, ?_, ?_⟩⟩
    · have hp : (s >>> 18) &&& 0x07 < 8 := lt_of_le_of_lt Nat.and_le_right (by norm_num)
      exact Or.inr (Or.inr (Or.inl ⟨rfl, lead4_pattern _ hp⟩))
    · intro c hc
      simp only [List.mem_cons, List.mem_singleton, List.not_mem_nil, or_false] at hc
      rcases hc with rfl | rfl | rfl <;> exact encoder_cont_byte _
  · refine ⟨rfl, rfl, fun _ => ⟨_, _, rfl, ?_, ?_⟩⟩
    · have hp : (s >>> 24) &&& 0x03 < 4 := lt_of_le_of_lt Nat.and_le_right (by norm_num)
      exact Or.inr (Or.inr (Or.inr (Or.inl ⟨rfl, lead5_pattern _ hp⟩)))
    · intro c hc
      simp only [List.mem_cons, List.mem_singleton, List.not_mem_nil, or_false] at hc
      rcases hc with rfl | rfl | rfl | rfl <;> exact encoder_cont_byte _
  · refine ⟨rfl, rfl, fun _ => ⟨_, _, rfl, ?_, ?_⟩⟩
    · have hp : (s >>> 30) &&& 0x01 < 2 := lt_of_le_of_lt Nat.and_le_right (by norm_num)
      exact Or.inr (Or.inr (Or.inr (Or.inr ⟨rfl, lead6_pattern _ hp⟩)))
    · intro c hc
      simp only [List.mem_cons, List.mem_singleton, List.not_mem_nil, or_false] at hc
      rcases hc with rfl | rfl | rfl | rfl | rfl <;> exact encoder_cont_byte _
  · exact ⟨rfl, rfl, fun h => absurd h (by norm_num)⟩

/-- C18 at the value `0x4000000`, of the 6-byte form. -/
theorem C18_encoder_range_witness :
    (ucs4_to_utf8 0x4000000).1 =
        (if 0x4000000 ≤ 0x7F then 1 else if 0x4000000 ≤ 0x7FF then 2
          else if 0x4000000 ≤ 0xFFFF then 3 else if 0x4000000 ≤ 0x1FFFFF then 4
          else if 0x4000000 ≤ 0x3FFFFFF then 5 else if 0x4000000 ≤ 0x7FFFFFFF then 6 else 0) ∧
      (ucs4_to_utf8 0x4000000).2.length = (ucs4_to_utf8 0x4000000).1 ∧
      (2 ≤ (ucs4_to_utf8 0x4000000).1 →
        ∃ b bs, (ucs4_to_utf8 0x4000000).2 = b :: bs ∧
          lead_pattern (ucs4_to_utf8 0x4000000).1 b ∧ ∀ c ∈ bs, cont_pattern c = true) :=
  C18_encoder_range 0x4000000 (by decide)

/-- C19: the text `A` with one font that has a glyph for it, each glyph 8 wide, the pen at
x = 0: the font draws the whole text, and the x kept for what follows is read at
`glyphs[nglyphs]`, behind the one glyph of the array, so it is not 0 + 8 but indeterminate.
On the text `Ab` with a font that has no glyph for `b` the same read finds the glyph of `b`
left by the first shaping: the x moves by the 8 of the run drawn, and the attempt on `b`,
which consumes nothing, starts there and leaves it. -/
theorem C19_pen_after_whole_text_indeterminate :
    pen_summary (phase_b_at [metric_sample font_every] [0x41] ⟨some 0, 0⟩) =
        outcome.ok (none, [(1, some 0, none)]) ∧
      pen_summary (phase_b_at [metric_sample font_upper] [0x41, 0x62] ⟨some 0, 0⟩) =
        outcome.ok (some 8, [(1, some 0, some 8), (0, some 8, some 8)]) := by
  constructor
  · decide
  · simp [pen_summary, phase_b_at, draw_loop_at, draw_fonts_at, metric_font.render_at,
      metric_sample, font_upper, sample_font, render_bytes, glyph_buffer, glyph_xs,
      outcome.bind, List.range_succ]

/-- C20: for every text and cascade, Phase A returns and logs exactly one warning
`Dropping unmatched character` for each decoded character that no font covers, in the order
of the text, each carrying the codepoint of its character; these characters are the ones
removed: the text left consists of the byte ranges of the other decoded characters, in order,
and of the bytes the decoder did not read, so each drop has removed exactly the byte range of
its character. -/
theorem C20_one_warning_per_dropped_character (fns : List font) (text : List Nat) :
    ∃ ok chars text1 ev, utf8_to_ucs4 (some text) = some (ok, chars) ∧
      phase_a fns text = outcome.ok (text1, ev) ∧
      ev = (chars.filter (fun c => !covered fns c.codepoint)).map char_warning ∧
      ev.length = (chars.filter (fun c => !covered fns c.codepoint)).length ∧
      text1 =
        (chars.filter (fun c => covered fns c.codepoint)).flatMap (byte_range text) ++
          text.drop ((chars.map (fun c : unicode_char => c.length)).sum).toNat := by
  obtain ⟨ok, segs, tail, hd, htext, _, _, _⟩ := utf8_to_ucs4_segments text
  subst htext
  have hr := byte_range_segments (fun cp => covered fns cp) tail segs []
  simp only [List.length_nil, Nat.cast_zero, List.nil_append] at hr
  have hw := layout_warnings (fun cp => !covered fns cp) segs 0
  have hdrop : (segs.flatten ++ tail).drop
      (((layout 0 segs).map (fun c : unicode_char => c.length)).sum).toNat = tail := by
    rw [layout_length_sum, Int.toNat_ofNat, List.drop_left']
    rfl
  refine ⟨ok, layout 0 segs, _, _, hd, phase_a_segments fns ok segs tail hd, hw.symm, ?_, ?_⟩
  · rw [← hw, List.length_map]
  · rw [hr, hdrop]

/-! ## Phase B consumes the text from the front -/

theorem take_append_drop_min (text : List Nat) (bytes : Nat) :
    text.take bytes ++ text.drop (min bytes text.length) = text := by
  by_cases h : bytes ≤ text.length
  · rw [Nat.min_eq_left h, List.take_append_drop]
  · have hle : text.length ≤ bytes := by omega
    rw [Nat.min_eq_right hle, List.take_of_length_le hle, List.drop_length, List.append_nil]

/-- One pass over the fonts: what the calls consume, in order, and what is left make up the
text. -/
theorem draw_fonts_conserves (fs : List font) :
    ∀ text : List Nat,
      (draw_fonts fs text).2.flatMap event.consumed ++ (draw_fonts fs text).1 = text := by
  induction fs with
  | nil => intro text; simp [draw_fonts]
  | cons f fs ih =>
    intro text
    rw [draw_fonts]
    by_cases hb : f.render text = 0
    · simp only [hb, if_true, List.flatMap_cons, event.consumed, List.take_zero,
        List.nil_append]
      exact ih text
    · simp only [hb, if_false]
      by_cases he : (List.drop (min (f.render text) text.length) text).isEmpty = true
      · simp only [he, if_true, List.flatMap_cons, List.flatMap_nil, event.consumed,
          List.append_nil]
        exact take_append_drop_min text (f.render text)
      · simp only [he, if_false, List.flatMap_cons, event.consumed, Bool.false_eq_true,
          List.append_assoc]
        rw [ih, take_append_drop_min]

/-- Phase B: what the calls consume, in order, and what is left make up the text; a warning
is logged, as the last event, exactly when something is left. -/
theorem draw_loop_conserves (fns : List font) :
    ∀ (fuel : Nat) (text rest : List Nat) (ev : List event),
      draw_loop fuel fns text = outcome.ok (rest, ev) →
      ev.flatMap event.consumed ++ rest = text ∧
        (rest = [] → ∀ e ∈ ev, e.is_render = true) ∧
        (rest ≠ [] → ∃ rs, ev = rs ++ [event.warn_text rest] ∧ ∀ e ∈ rs, e.is_render = true) := by
  intro fuel
  induction fuel with
  | zero => intro text rest ev h; simp [draw_loop] at h
  | succ fuel ih =>
    intro text rest ev h
    cases text with
    | nil =>
      simp only [draw_loop, List.isEmpty_nil, if_true, outcome.ok.injEq, Prod.mk.injEq] at h
      obtain ⟨rfl, rfl⟩ := h
      simp
    | cons b bs =>
      have hcons := draw_fonts_conserves fns (b :: bs)
      have hrender := draw_fonts_all_render fns (b :: bs)
      rw [draw_loop] at h
      simp only [List.isEmpty_cons, Bool.false_eq_true, if_false] at h
      by_cases hsame : (b :: bs).length = (draw_fonts fns (b :: bs)).1.length
      · simp only [if_pos hsame, outcome.ok.injEq, Prod.mk.injEq] at h
        obtain ⟨rfl, rfl⟩ := h
        have hne : (draw_fonts fns (b :: bs)).1 ≠ [] := by
          intro e
          rw [e] at hsame
          simp at hsame
        refine ⟨?_, fun e => absurd e hne, fun _ => ⟨_, rfl, hrender⟩⟩
        rw [List.flatMap_append]
        simpa [event.consumed] using hcons
      · simp only [if_neg hsame] at h
        cases hrec : draw_loop fuel fns (draw_fonts fns (b :: bs)).1 with
        | ok r =>
          rw [hrec] at h
          simp only [outcome.ok.injEq, Prod.mk.injEq] at h
          obtain ⟨rfl, rfl⟩ := h
          obtain ⟨h1, h2, h3⟩ := ih _ r.1 r.2 hrec
          refine ⟨?_, ?_, ?_⟩
          · rw [List.flatMap_append, List.append_assoc, h1, hcons]
          · intro e0 e he
            rcases List.mem_append.1 he with he | he
            · exact hrender e he
            · exact h2 e0 e he
          · intro hne
            obtain ⟨rs, hrs, hall⟩ := h3 hne
            refine ⟨(draw_fonts fns (b :: bs)).2 ++ rs, by rw [hrs, List.append_assoc], ?_⟩
            intro e he
            rcases List.mem_append.1 he with he | he
            · exact hrender e he
            · exact hall e he
        | out_of_range => rw [hrec] at h; simp at h
        | out_of_bounds => rw [hrec] at h; simp at h
        | out_of_fuel => rw [hrec] at h; simp at h

theorem flatMap_consumed_filter (ev : List event) :
    (ev.filter event.is_render).flatMap event.consumed = ev.flatMap event.consumed := by
  induction ev with
  | nil => rfl
  | cons e es ih =>
    cases e with
    | render p t b => simp [List.filter_cons, event.is_render, ih]
    | warn_char u c => simp [List.filter_cons, event.is_render, event.consumed, ih]
    | warn_text t => simp [List.filter_cons, event.is_render, event.consumed, ih]

/-- What a call hands to `cairo_show_text_glyphs` is what it consumes. -/
theorem render_at_run (f : metric_font) (text : List Nat) (start : pen) :
    (f.render_at text start).run = (f.render_at text start).event.consumed := by
  rw [attempt.run, render_at_drawn, render_at_event, event.consumed]
  by_cases h : f.tofont.render text = 0
  · simp [h]
  · simp [h]

theorem draw_fonts_at_runs (base_y : Rat) (fs : List metric_font) :
    ∀ (text : List Nat) (base_x : Option Rat),
      ∀ a ∈ (draw_fonts_at base_y fs text base_x).2.2, a.run = a.event.consumed := by
  induction fs with
  | nil => intro text base_x a ha; simp [draw_fonts_at] at ha
  | cons f fs ih =>
    intro text base_x a ha
    rw [draw_fonts_at] at ha
    by_cases hb : (f.render_at text ⟨base_x, base_y⟩).bytes = 0
    · simp only [hb, if_true, List.mem_cons] at ha
      rcases ha with rfl | ha
      · exact render_at_run f text _
      · exact ih _ _ a ha
    · simp only [hb, if_false] at ha
      by_cases he : (List.drop (min (f.render_at text ⟨base_x, base_y⟩).bytes text.length)
          text).isEmpty = true
      · simp only [he, if_true, List.mem_singleton] at ha
        subst ha
        exact render_at_run f text _
      · simp only [he, if_false, List.mem_cons, Bool.false_eq_true] at ha
        rcases ha with rfl | ha
        · exact render_at_run f text _
        · exact ih _ _ a ha

theorem draw_loop_at_runs (fns : List metric_font) (base_y : Rat) :
    ∀ (fuel : Nat) (text : List Nat) (base_x : Option Rat)
      (r : List Nat × Option Rat × List attempt),
      draw_loop_at base_y fuel fns text base_x = outcome.ok r →
      ∀ a ∈ r.2.2, a.run = a.event.consumed := by
  intro fuel
  induction fuel with
  | zero => intro text base_x r h; simp [draw_loop_at] at h
  | succ fuel ih =>
    intro text base_x r h
    have hpass := draw_fonts_at_runs base_y fns text base_x
    rw [draw_loop_at] at h
    by_cases hempty : text.isEmpty = true
    · simp only [hempty, if_true, outcome.ok.injEq] at h
      subst h
      simp
    · simp only [hempty, if_false, Bool.false_eq_true] at h
      by_cases hsame : text.length = (draw_fonts_at base_y fns text base_x).1.length
      · simp only [if_pos hsame, outcome.ok.injEq] at h
        subst h
        exact hpass
      · simp only [if_neg hsame] at h
        cases hrec : draw_loop_at base_y fuel fns (draw_fonts_at base_y fns text base_x).1
            (draw_fonts_at base_y fns text base_x).2.1 with
        | ok r1 =>
          rw [hrec] at h
          simp only [outcome.ok.injEq] at h
          subst h
          intro a ha
          rcases List.mem_append.1 ha with ha | ha
          · exact hpass a ha
          · exact ih _ _ r1 hrec a ha
        | out_of_range => rw [hrec] at h; simp at h
        | out_of_bounds => rw [hrec] at h; simp at h
        | out_of_fuel => rw [hrec] at h; simp at h

/-! ## The iterations of the two loops -/

theorem match_fonts_length_le (fns : List font) (chars : unicode_charlist) :
    (match_fonts fns chars).length ≤ chars.length := by
  induction fns with
  | nil => simp [match_fonts]
  | cons f fs ih =>
    rw [match_fonts]
    split_ifs
    · exact ih
    · rw [List.length_drop]
      omega

/-- The loop of Phase A is its first iteration followed by the loop on what that leaves. -/
theorem filter_loop_step (fuel : Nat) (fns : List font) (c : unicode_char)
    (cs : unicode_charlist) (text : List Nat) :
    filter_loop (fuel + 1) fns (c :: cs) text =
      (filter_step fns (c :: cs) text).bind (fun s =>
        (filter_loop fuel fns s.1 s.2.1).bind (fun r => outcome.ok (r.1, s.2.2 ++ r.2))) := by
  rw [filter_loop, filter_step]
  simp only [List.isEmpty_cons, Bool.false_eq_true, if_false]
  generalize match_fonts fns (c :: cs) = m
  cases m with
  | nil =>
    simp only [outcome.bind, List.nil_append]
    cases filter_loop fuel fns [] text <;> rfl
  | cons d ds =>
    simp only
    by_cases hlen : (c :: cs).length = (d :: ds).length
    · simp only [if_pos hlen]
      cases string_erase text d.offset d.length with
      | none => rfl
      | some text1 =>
        simp only [outcome.bind, List.singleton_append]
        cases filter_loop fuel fns
          (List.map (fun x => { x with offset := x.offset - d.length }) (d :: ds)).tail
          text1 <;> rfl
    · simp only [if_neg hlen, outcome.bind, List.nil_append]
      cases filter_loop fuel fns (d :: ds) text <;> rfl

/-- An iteration of Phase A leaves fewer characters in the list than it found. -/
theorem filter_step_shorter (fns : List font) (c : unicode_char) (cs : unicode_charlist)
    (text : List Nat) (s : unicode_charlist × List Nat × List event)
    (h : filter_step fns (c :: cs) text = outcome.ok s) : s.1.length < (c :: cs).length := by
  have hle := match_fonts_length_le fns (c :: cs)
  rw [filter_step] at h
  generalize match_fonts fns (c :: cs) = m at h hle
  cases m with
  | nil =>
    simp only [outcome.ok.injEq] at h
    subst h
    simp
  | cons d ds =>
    simp only at h
    by_cases hlen : (c :: cs).length = (d :: ds).length
    · simp only [if_pos hlen] at h
      cases he : string_erase text d.offset d.length with
      | none => rw [he] at h; simp at h
      | some text1 =>
        rw [he] at h
        simp only [outcome.ok.injEq] at h
        subst h
        simp only [List.map_cons, List.tail_cons, List.length_map, List.length_cons] at hlen ⊢
        omega
    · simp only [if_neg hlen, outcome.ok.injEq] at h
      subst h
      simp only [List.length_cons] at hlen hle ⊢
      omega

/-- Where the loop of Phase A returns it has made at most as many iterations as the list has
characters. -/
theorem filter_iterations_bound (fns : List font) :
    ∀ (fuel : Nat) (chars : unicode_charlist) (text : List Nat) (r : List Nat × List event),
      filter_loop fuel fns chars text = outcome.ok r →
      ∃ n, filter_iterations fuel fns chars text = outcome.ok n ∧ n ≤ chars.length := by
  intro fuel
  induction fuel with
  | zero => intro chars text r h; simp [filter_loop] at h
  | succ fuel ih =>
    intro chars text r h
    cases chars with
    | nil => exact ⟨0, by simp [filter_iterations], by simp⟩
    | cons c cs =>
      rw [filter_loop_step] at h
      cases hs : filter_step fns (c :: cs) text with
      | ok s =>
        have hshort := filter_step_shorter fns c cs text s hs
        rw [hs] at h
        simp only [outcome.bind] at h
        cases hrec : filter_loop fuel fns s.1 s.2.1 with
        | ok r1 =>
          obtain ⟨n, hn, hle⟩ := ih s.1 s.2.1 r1 hrec
          refine ⟨n + 1, ?_, by omega⟩
          rw [filter_iterations]
          simp only [List.isEmpty_cons, Bool.false_eq_true, if_false, hs, outcome.bind, hn]
        | out_of_range => rw [hrec] at h; simp at h
        | out_of_bounds => rw [hrec] at h; simp at h
        | out_of_fuel => rw [hrec] at h; simp at h
      | out_of_range => rw [hs] at h; simp [outcome.bind] at h
      | out_of_bounds => rw [hs] at h; simp [outcome.bind] at h
      | out_of_fuel => rw [hs] at h; simp [outcome.bind] at h

/-- An iteration of the loop of Phase B on a text that is not empty: either the pass over
the fonts has consumed nothing and the loop ends with the warning, or the text is shorter
and the loop goes on with it. -/
theorem draw_loop_step (fuel : Nat) (fns : List font) (b : Nat) (bs : List Nat) :
    ((draw_fonts fns (b :: bs)).1.length = (b :: bs).length ∧
        draw_loop (fuel + 1) fns (b :: bs) =
          outcome.ok ((draw_fonts fns (b :: bs)).1,
            (draw_fonts fns (b :: bs)).2 ++ [event.warn_text (draw_fonts fns (b :: bs)).1])) ∨
      ((draw_fonts fns (b :: bs)).1.length < (b :: bs).length ∧
        draw_loop (fuel + 1) fns (b :: bs) =
          (draw_loop fuel fns (draw_fonts fns (b :: bs)).1).bind (fun r =>
            outcome.ok (r.1, (draw_fonts fns (b :: bs)).2 ++ r.2))) := by
  have hle := draw_fonts_length_le fns (b :: bs)
  by_cases hsame : (b :: bs).length = (draw_fonts fns (b :: bs)).1.length
  · left
    refine ⟨hsame.symm, ?_⟩
    rw [draw_loop]
    simp only [List.isEmpty_cons, Bool.false_eq_true, if_false, if_pos hsame]
  · right
    refine ⟨by omega, ?_⟩
    rw [draw_loop]
    simp only [List.isEmpty_cons, Bool.false_eq_true, if_false, if_neg hsame, outcome.bind]
    cases draw_loop fuel fns (draw_fonts fns (b :: bs)).1 <;> rfl

/-- Where the loop of Phase B returns it has made at most as many iterations as the text has
bytes. -/
theorem draw_iterations_bound (fns : List font) :
    ∀ (fuel : Nat) (text : List Nat) (r : List Nat × List event),
      draw_loop fuel fns text = outcome.ok r →
      ∃ n, draw_iterations fuel fns text = outcome.ok n ∧ n ≤ text.length := by
  intro fuel
  induction fuel with
  | zero => intro text r h; simp [draw_loop] at h
  | succ fuel ih =>
    intro text r h
    cases text with
    | nil => exact ⟨0, by simp [draw_iterations], by simp⟩
    | cons b bs =>
      rcases draw_loop_step fuel fns b bs with ⟨hlen, _⟩ | ⟨hlen, hstep⟩
      · refine ⟨1, ?_, by simp⟩
        rw [draw_iterations]
        simp only [List.isEmpty_cons, Bool.false_eq_true, if_false, if_pos hlen.symm]
      · rw [hstep] at h
        cases hrec : draw_loop fuel fns (draw_fonts fns (b :: bs)).1 with
        | ok r1 =>
          obtain ⟨n, hn, hle⟩ := ih _ r1 hrec
          refine ⟨n + 1, ?_, by omega⟩
          rw [draw_iterations]
          simp only [List.isEmpty_cons, Bool.false_eq_true, if_false,
            if_neg (fun e : (b :: bs).length = (draw_fonts fns (b :: bs)).1.length => by omega),
            hn, outcome.bind]
        | out_of_range => rw [hrec] at h; simp [outcome.bind] at h
        | out_of_bounds => rw [hrec] at h; simp [outcome.bind] at h
        | out_of_fuel => rw [hrec] at h; simp [outcome.bind] at h

/-! ## The size of the codepoints the decoder builds -/

theorem cont_value_lt (conts : List Nat) :
    ∀ r : Nat, cont_value r conts < (r + 1) * 64 ^ conts.length := by
  induction conts with
  | nil => intro r; simp [cont_value]
  | cons c cs ih =>
    intro r
    have hc : c &&& 63 < 64 := by rw [and_63_eq_mod]; omega
    have hstep : cont_value r (c :: cs) = cont_value (r * 64 + (c &&& 63)) cs := by
      simp only [cont_value, List.foldl_cons]
      rw [shl6_or _ _ hc]
    have hle : (r * 64 + (c &&& 63) + 1) * 64 ^ cs.length ≤ (r + 1) * 64 * 64 ^ cs.length :=
      Nat.mul_le_mul_right _ (by omega)
    rw [hstep, List.length_cons, pow_succ, Nat.mul_comm (64 ^ cs.length) 64, ← Nat.mul_assoc]
    exact lt_of_lt_of_le (ih _) hle

/-- A character the decoder builds has at most 21 bits. -/
theorem seg_codepoint_le (s : List Nat) (h : seg_ok s) : seg_codepoint s ≤ 0x1FFFFF := by
  cases s with
  | nil => exact absurd h (by simp [seg_ok])
  | cons b conts =>
    obtain ⟨_, len, r0, hl, _, hlen⟩ := h
    have hv := cont_value_lt conts r0
    have hcp : seg_codepoint (b :: conts) = cont_value r0 conts := by
      simp only [seg_codepoint, hl]
    rw [hcp]
    have bound : ∀ (k m : Nat), r0 + 1 ≤ m → conts.length ≤ k → m * 64 ^ k ≤ 0x200000 →
        cont_value r0 conts ≤ 0x1FFFFF := by
      intro k m hm hk hmk
      have h1 : (r0 + 1) * 64 ^ conts.length ≤ m * 64 ^ k :=
        Nat.mul_le_mul hm (Nat.pow_le_pow_right (by norm_num) hk)
      omega
    rw [lead_byte_eq] at hl
    split_ifs at hl with c1 c2 c3 c4 <;>
      simp only [Option.some.injEq, Prod.mk.injEq, reduceCtorEq] at hl
    · obtain ⟨hlen1, hr⟩ := hl
      exact bound 0 128 (by omega) (by omega) (by norm_num)
    · obtain ⟨hlen1, hr⟩ := hl
      have : b &&& 31 < 32 := lt_of_le_of_lt Nat.and_le_right (by norm_num)
      exact bound 1 32 (by omega) (by omega) (by norm_num)
    · obtain ⟨hlen1, hr⟩ := hl
      have : b &&& 15 < 16 := lt_of_le_of_lt Nat.and_le_right (by norm_num)
      exact bound 2 16 (by omega) (by omega) (by norm_num)
    · obtain ⟨hlen1, hr⟩ := hl
      have : b &&& 7 < 8 := lt_of_le_of_lt Nat.and_le_right (by norm_num)
      exact bound 3 8 (by omega) (by omega) (by norm_num)

theorem layout_codepoint_mem (segs : List (List Nat)) :
    ∀ (off : Int) (c : unicode_char), c ∈ layout off segs →
      ∃ s ∈ segs, c.codepoint = seg_codepoint s := by
  induction segs with
  | nil => intro off c hc; simp [layout] at hc
  | cons s ss ih =>
    intro off c hc
    simp only [layout, List.mem_cons] at hc
    rcases hc with rfl | hc
    · exact ⟨s, List.mem_cons_self _ _, rfl⟩
    · obtain ⟨t, ht, hct⟩ := ih _ c hc
      exact ⟨t, List.mem_cons_of_mem _ ht, hct⟩

/-- The encoder writes one to four bytes for a value of at most 21 bits, and they leave the
last byte of the array of the warning as it was. -/
theorem warning_buffer_small (cp : Nat) (h : cp ≤ 0x1FFFFF) :
    1 ≤ (ucs4_to_utf8 (cp % 2 ^ 32)).1 ∧ (ucs4_to_utf8 (cp % 2 ^ 32)).1 ≤ 4 ∧
      (ucs4_to_utf8 (cp % 2 ^ 32)).2.length = (ucs4_to_utf8 (cp % 2 ^ 32)).1 ∧
      ∃ buf, warning_buffer cp = some buf ∧ buf.length = 5 ∧
        buf.take (ucs4_to_utf8 (cp % 2 ^ 32)).1 = (ucs4_to_utf8 (cp % 2 ^ 32)).2 ∧
        buf[4]? = some 0 := by
  have hmod : cp % 2 ^ 32 = cp := Nat.mod_eq_of_lt (by omega)
  have key : ∃ n w, ucs4_to_utf8 cp = (n, w) ∧ 1 ≤ n ∧ n ≤ 4 ∧ w.length = n := by
    unfold ucs4_to_utf8
    split_ifs <;> exact ⟨_, _, rfl, by norm_num, by norm_num, rfl⟩
  obtain ⟨n, w, e, h1, h4, hw⟩ := key
  simp only [warning_buffer, hmod, e]
  rw [if_pos (by omega)]
  refine ⟨h1, h4, hw, _, rfl, ?_, ?_, ?_⟩
  · rw [List.length_append, List.length_replicate]
    omega
  · exact List.take_left' hw
  · rw [List.getElem?_append_right (by omega), List.getElem?_replicate]
    rw [if_pos (by omega)]

/-! ## The statements C21 to C24 -/

/-- C21: the two loops are bounded as stated, the whole of `operator<<` is not.  (1) For
every font order and text, decoding, Phase A and Phase B return; the loop of Phase A makes at
most as many iterations as there are decoded characters and the loop of Phase B at most as
many as the filtered text has bytes.  (2) Every iteration of the loop of Phase A that returns
leaves the character list shorter.  (3) Every iteration of the loop of Phase B either leaves
the text as long as it was and ends the loop with the warning, or leaves it shorter.
(4) Whenever the sort returns, `operator<<` returns, so it does for the empty cascade.
(5) With three fonts registered and `fontindex = 4` the sort leaves the vector, and
`operator<<` does not return. -/
theorem C21_loops_bounded_sort_leaves_vector :
    (∀ (fns : List font) (contents : List Nat), ∃ ok chars text1 ev1 rest ev2 na nb,
        utf8_to_ucs4 (some contents) = some (ok, chars) ∧
        phase_a fns contents = outcome.ok (text1, ev1) ∧
        phase_b fns text1 = outcome.ok (rest, ev2) ∧
        render_text fns contents = outcome.ok (rest, ev1 ++ ev2) ∧
        filter_iterations (chars.length + 1) fns chars contents = outcome.ok na ∧
        na ≤ chars.length ∧
        draw_iterations (text1.length + 1) fns text1 = outcome.ok nb ∧
        nb ≤ text1.length) ∧
      (∀ (fns : List font) (fuel : Nat) (c : unicode_char) (cs : unicode_charlist)
          (text : List Nat),
        filter_loop (fuel + 1) fns (c :: cs) text =
            (filter_step fns (c :: cs) text).bind (fun s =>
              (filter_loop fuel fns s.1 s.2.1).bind (fun r =>
                outcome.ok (r.1, s.2.2 ++ r.2))) ∧
          ∀ s, filter_step fns (c :: cs) text = outcome.ok s →
            s.1.length < (c :: cs).length) ∧
      (∀ (fns : List font) (fuel : Nat) (b : Nat) (bs : List Nat),
        ((draw_fonts fns (b :: bs)).1.length = (b :: bs).length ∧
            draw_loop (fuel + 1) fns (b :: bs) =
              outcome.ok ((draw_fonts fns (b :: bs)).1,
                (draw_fonts fns (b :: bs)).2 ++
                  [event.warn_text (draw_fonts fns (b :: bs)).1])) ∨
          ((draw_fonts fns (b :: bs)).1.length < (b :: bs).length ∧
            draw_loop (fuel + 1) fns (b :: bs) =
              (draw_loop fuel fns (draw_fonts fns (b :: bs)).1).bind (fun r =>
                outcome.ok (r.1, (draw_fonts fns (b :: bs)).2 ++ r.2)))) ∧
      (∀ (c : context) (t : textblock),
        (∀ ptrs, font_order c t = outcome.ok ptrs → ∃ c1, render_textblock c t = outcome.ok c1) ∧
          (c.m_fonts = [] → ∃ c1, render_textblock c t = outcome.ok c1)) ∧
      font_order (context_of 3) ⟨[0x41], 4⟩ = outcome.out_of_bounds ∧
      stored_order (render_textblock (context_of 3) ⟨[0x41], 4⟩) = outcome.out_of_bounds := by
  have hsorted : ∀ (c : context) (t : textblock) (ptrs : List Nat),
      font_order c t = outcome.ok ptrs → ∃ c1, render_textblock c t = outcome.ok c1 := by
    intro c t ptrs hp
    obtain ⟨rest, ev, hr⟩ := render_text_total (fonts_by_ptr c.m_fonts ptrs) t.contents
    refine ⟨{ m_fonts := fonts_by_ptr c.m_fonts ptrs, events := c.events ++ ev }, ?_⟩
    show (font_order c t).bind _ = _
    rw [hp]
    show (render_text (fonts_by_ptr c.m_fonts ptrs) t.contents).bind _ = _
    rw [hr]
    rfl
  refine ⟨?_, ?_, ?_, ?_, by decide, by decide⟩
  · intro fns contents
    obtain ⟨ok, chars, hd⟩ := utf8_to_ucs4_total contents
    obtain ⟨text1, ev1, h1⟩ := phase_a_total fns contents
    obtain ⟨rest, ev2, h2⟩ := phase_b_total fns text1
    have hloop : filter_loop (chars.length + 1) fns chars contents = outcome.ok (text1, ev1) := by
      have h := h1
      simp only [phase_a, hd] at h
      exact h
    obtain ⟨na, hna, hale⟩ := filter_iterations_bound fns _ chars contents _ hloop
    obtain ⟨nb, hnb, hble⟩ := draw_iterations_bound fns _ text1 _ h2
    exact ⟨ok, chars, text1, ev1, rest, ev2, na, nb, hd, h1, h2,
      by simp [render_text, h1, h2], hna, hale, hnb, hble⟩
  · intro fns fuel c cs text
    exact ⟨filter_loop_step fuel fns c cs text, filter_step_shorter fns c cs text⟩
  · intro fns fuel b bs
    exact draw_loop_step fuel fns b bs
  · intro c t
    refine ⟨hsorted c t, fun hnil => hsorted c t [] ?_⟩
    simp [font_order, hnil, std_sort]

/-- C22: for every cascade, text and pen position, whatever byte counts the `render` calls
return, Phase B returns, and the runs its calls consume, which are the texts they hand to
`cairo_show_text_glyphs`, concatenated in the order of the calls and followed by the text
left, are the text it was given, byte for byte; the text left is what the warning
`Dropping unmatched characters` carries, the last event, and when nothing is left there is
no warning. -/
theorem C22_phase_b_conserves_text (fns : List metric_font) (text : List Nat) (base : pen) :
    ∃ rest ev x1 calls,
      phase_b (fns.map (fun f => f.tofont)) text = outcome.ok (rest, ev) ∧
      phase_b_at fns text base = outcome.ok (rest, x1, calls) ∧
      calls.map attempt.event = ev.filter event.is_render ∧
      ev.flatMap event.consumed ++ rest = text ∧
      calls.flatMap attempt.run ++ rest = text ∧
      (rest = [] → ∀ e ∈ ev, e.is_render = true) ∧
      (rest ≠ [] →
        ∃ rs, ev = rs ++ [event.warn_text rest] ∧ ∀ e ∈ rs, e.is_render = true) := by
  obtain ⟨rest, ev, hev⟩ := phase_b_total (fns.map (fun f => f.tofont)) text
  obtain ⟨x1, calls, hloop, hcalls, _⟩ :=
    draw_loop_at_refines fns base.y (text.length + 1) text base.x rest ev hev
  obtain ⟨h1, h2, h3⟩ :=
    draw_loop_conserves (fns.map (fun f => f.tofont)) (text.length + 1) text rest ev hev
  have hruns := draw_loop_at_runs fns base.y (text.length + 1) text base.x _ hloop
  refine ⟨rest, ev, x1, calls, hev, hloop, hcalls, h1, ?_, h2, h3⟩
  have hflat : calls.flatMap attempt.run = (calls.map attempt.event).flatMap event.consumed := by
    rw [List.flatMap_map]
    exact List.flatMap_congr hruns
  rw [hflat, hcalls, flatMap_consumed_filter, h1]

/-- C23: for every text and cascade, every codepoint in the list `utf8_to_ucs4` builds is at
most `0x1FFFFF`, so `ucs4_to_utf8` applied to it returns a byte count between 1 and 4 and
writes that many bytes, which stay inside the array `char unicode[5]` of the warning and leave
its fifth byte, a zero byte, as it was; and every warning `Dropping unmatched character` that
Phase A logs is for a character of that list. -/
theorem C23_warning_buffer_fits (fns : List font) (text : List Nat) :
    ∃ ok chars text1 ev, utf8_to_ucs4 (some text) = some (ok, chars) ∧
      phase_a fns text = outcome.ok (text1, ev) ∧
      (∀ c ∈ chars, c.codepoint ≤ 0x1FFFFF ∧
        1 ≤ (ucs4_to_utf8 (c.codepoint % 2 ^ 32)).1 ∧
        (ucs4_to_utf8 (c.codepoint % 2 ^ 32)).1 ≤ 4 ∧
        (ucs4_to_utf8 (c.codepoint % 2 ^ 32)).2.length =
          (ucs4_to_utf8 (c.codepoint % 2 ^ 32)).1 ∧
        ∃ buf, warning_buffer c.codepoint = some buf ∧ buf.length = 5 ∧
          buf.take (ucs4_to_utf8 (c.codepoint % 2 ^ 32)).1 =
            (ucs4_to_utf8 (c.codepoint % 2 ^ 32)).2 ∧
          buf[4]? = some 0) ∧
      ∀ e ∈ ev, ∃ c ∈ chars, e = char_warning c := by
  obtain ⟨ok, segs, tail, hd, htext, hsegs, _, _⟩ := utf8_to_ucs4_segments text
  subst htext
  have hw := layout_warnings (fun cp => !covered fns cp) segs 0
  refine ⟨ok, layout 0 segs, _, _, hd, phase_a_segments fns ok segs tail hd, ?_, ?_⟩
  · intro c hc
    obtain ⟨s, hs, hcs⟩ := layout_codepoint_mem segs 0 c hc
    have hle : c.codepoint ≤ 0x1FFFFF := by
      rw [hcs]
      exact seg_codepoint_le s (hsegs s hs)
    exact ⟨hle, warning_buffer_small c.codepoint hle⟩
  · intro e he
    rw [← hw] at he
    obtain ⟨c, hc, rfl⟩ := List.mem_map.1 he
    exact ⟨c, (List.mem_filter.1 hc).1, rfl⟩

/-- C24: for every 32-bit colour value `v`, the functions `alpha_channel<uint8_t>`,
`red_channel<uint8_t>`, `green_channel<uint8_t>` and `blue_channel<uint8_t>` return the bits
24 to 31, 16 to 23, 8 to 15 and 0 to 7 of `v`; these are bytes, `v` is `0xAARRGGBB` made of
them, and the drawing context sets its source colour to these four values divided by 255, in
the order red, green, blue, alpha. -/
theorem C24_colour_channels (v : Nat) (hv : v < 2 ^ 32) :
    color_util.alpha_channel color_util.channel_type.uint8_t v = v / 2 ^ 24 % 256 ∧
      color_util.red_channel color_util.channel_type.uint8_t v = v / 2 ^ 16 % 256 ∧
      color_util.green_channel color_util.channel_type.uint8_t v = v / 2 ^ 8 % 256 ∧
      color_util.blue_channel color_util.channel_type.uint8_t v = v % 256 ∧
      v = color_util.alpha_channel color_util.channel_type.uint8_t v * 2 ^ 24 +
          color_util.red_channel color_util.channel_type.uint8_t v * 2 ^ 16 +
          color_util.green_channel color_util.channel_type.uint8_t v * 2 ^ 8 +
          color_util.blue_channel color_util.channel_type.uint8_t v ∧
      source_rgba v =
        (((v / 2 ^ 16 % 256 : Nat) : Rat) / 255, ((v / 2 ^ 8 % 256 : Nat) : Rat) / 255,
          ((v % 256 : Nat) : Rat) / 255, ((v / 2 ^ 24 % 256 : Nat) : Rat) / 255) := by
  have ha : color_util.alpha_channel color_util.channel_type.uint8_t v = v / 2 ^ 24 % 256 := by
    simp only [color_util.alpha_channel, Nat.shiftRight_eq_div_pow, Nat.shiftLeft_eq]
    omega
  have hr : color_util.red_channel color_util.channel_type.uint8_t v = v / 2 ^ 16 % 256 := by
    simp only [color_util.red_channel, Nat.shiftRight_eq_div_pow, Nat.shiftLeft_eq]
    omega
  have hg : color_util.green_channel color_util.channel_type.uint8_t v = v / 2 ^ 8 % 256 := by
    simp only [color_util.green_channel, Nat.shiftRight_eq_div_pow, Nat.shiftLeft_eq]
    omega
  have hb : color_util.blue_channel color_util.channel_type.uint8_t v = v % 256 := by
    simp only [color_util.blue_channel, Nat.shiftLeft_eq]
    omega
  refine ⟨ha, hr, hg, hb, ?_, ?_⟩
  · rw [ha, hr, hg, hb]
    omega
  · simp only [source_rgba, ha, hr, hg, hb]

/-- C24 at the colour `0xCC336699`. -/
theorem C24_colour_channels_witness :
    color_util.alpha_channel color_util.channel_type.uint8_t 0xCC336699 =
        0xCC336699 / 2 ^ 24 % 256 ∧
      color_util.red_channel color_util.channel_type.uint8_t 0xCC336699 =
        0xCC336699 / 2 ^ 16 % 256 ∧
      color_util.green_channel color_util.channel_type.uint8_t 0xCC336699 =
        0xCC336699 / 2 ^ 8 % 256 ∧
      color_util.blue_channel color_util.channel_type.uint8_t 0xCC336699 = 0xCC336699 % 256 ∧
      0xCC336699 = color_util.alpha_channel color_util.channel_type.uint8_t 0xCC336699 * 2 ^ 24 +
          color_util.red_channel color_util.channel_type.uint8_t 0xCC336699 * 2 ^ 16 +
          color_util.green_channel color_util.channel_type.uint8_t 0xCC336699 * 2 ^ 8 +
          color_util.blue_channel color_util.channel_type.uint8_t 0xCC336699 ∧
      source_rgba 0xCC336699 =
        (((0xCC336699 / 2 ^ 16 % 256 : Nat) : Rat) / 255,
          ((0xCC336699 / 2 ^ 8 % 256 : Nat) : Rat) / 255,
          ((0xCC336699 % 256 : Nat) : Rat) / 255,
          ((0xCC336699 / 2 ^ 24 % 256 : Nat) : Rat) / 255) :=
  C24_colour_channels 0xCC336699 (by decide)
